import Mathlib

/-!
# Verification of `srctools/fgd.py`

A shallow embedding of the FGD (entity definition) module: the tag engine,
the keyvalue/IO record model, the entity view lookup, the base-collapse
algorithm, the binary codec with string interning, and the keyvalue-line
slice of the text parser.  Machine integers are modelled as `Nat` with
explicit range checks where the Python `struct` packing enforces them;
fallible code returns `Except`.
-/

set_option maxRecDepth 10000

namespace Fgd

/-! ## Python scalar values

Python is dynamically typed; a few places in the source compare or store
values of differing runtime types (notably `is_readonly == 'readonly'`,
a `bool` compared against a `str`, and the `readonly` attribute which is
constructed as a `bool` by `__init__` but as an `int` by
`KeyValues.unserialise`).  We model just the scalar types that occur with
Python's `==` (no coercion between `str` and the numeric tower; `bool`
is a subtype of `int`, so `False == 0` and `True == 1`). -/

inductive PyVal where
  | pyBool (b : Bool)
  | pyInt (n : Int)
  | pyStr (s : String)
  deriving DecidableEq, Repr

/-- Python `==` on the scalars above: numeric comparison between
`bool`/`int` (Python booleans are integers), structural within a type,
`False` across numeric/string kinds. -/
def pyEq : PyVal → PyVal → Bool
  | .pyBool a, .pyBool b => a == b
  | .pyBool a, .pyInt n => (if a then (1 : Int) else 0) == n
  | .pyInt n, .pyBool a => n == (if a then (1 : Int) else 0)
  | .pyInt a, .pyInt b => a == b
  | .pyStr a, .pyStr b => a == b
  | .pyBool _, .pyStr _ => false
  | .pyStr _, .pyBool _ => false
  | .pyInt _, .pyStr _ => false
  | .pyStr _, .pyInt _ => false

/-- Python truthiness of the scalars above (`bool(x)`). -/
def pyTruthy : PyVal → Bool
  | .pyBool b => b
  | .pyInt n => n != 0
  | .pyStr s => s ≠ ""

/-! ## Strings

Python `str.upper()` / `str.casefold()` are modelled as the per-character
ASCII case maps (the source only manipulates ASCII sigils and labels,
where `.upper`, `.lower` and `.casefold` agree with these). -/

/-- ASCII upper-casing of one character (`'a'..'z'` shifted down by 32). -/
def charUpper (c : Char) : Char :=
  if 97 ≤ c.toNat ∧ c.toNat ≤ 122 then Char.ofNat (c.toNat - 32) else c

/-- ASCII lower-casing of one character (`'A'..'Z'` shifted up by 32). -/
def charLower (c : Char) : Char :=
  if 65 ≤ c.toNat ∧ c.toNat ≤ 90 then Char.ofNat (c.toNat + 32) else c

/-- `str.upper()` on ASCII text. -/
def pyUpper (s : String) : String := ⟨s.data.map charUpper⟩

/-- `str.casefold()` / `str.lower()` on ASCII text. -/
def pyLower (s : String) : String := ⟨s.data.map charLower⟩

/-- `s[0:1]`: the first character as a string (empty when `s` is). -/
def strTake1 (s : String) : String := ⟨s.data.take 1⟩

/-- `s[1:]`: everything but the first character. -/
def strDrop1 (s : String) : String := ⟨s.data.drop 1⟩

/-! ## Tag engine

Tags are plain strings; a *tag set* (Python `frozenset`) is modelled as a
canonically sorted, duplicate-free list of strings, so that Python's
order-insensitive set equality coincides with list equality. -/

/-- Append an element unless already present (Python `set.add` under
insertion order). -/
def addUnique (acc : List String) (s : String) : List String :=
  if s ∈ acc then acc else acc ++ [s]

/-- The distinct elements of a list, in first-seen order (insertion order
of a Python set/dict built from the list). -/
def firstSeen (l : List String) : List String :=
  l.foldl addUnique []

/-- Lexicographic comparison of char lists by code point. -/
def lexLe : List Char → List Char → Bool
  | [], _ => true
  | _ :: _, [] => false
  | c :: cs, d :: ds =>
    if c.toNat < d.toNat then true
    else if d.toNat < c.toNat then false
    else lexLe cs ds

/-- A computable total order on strings, used only to pick a canonical
representative list for a `frozenset` of strings. -/
def strLe (a b : String) : Bool := lexLe a.data b.data

/-- Insert into a `strLe`-sorted list of strings, before the first
strictly greater element. -/
def insertSorted (s : String) : List String → List String
  | [] => [s]
  | t :: rest => if strLe s t then s :: t :: rest else t :: insertSorted s rest

/-- Sort a list of strings (insertion sort). -/
def sortStrings (l : List String) : List String :=
  l.foldr insertSorted []

/-- A Python `frozenset` of strings, canonicalised to a sorted
duplicate-free list so that set equality is list equality. -/
def mkTagSet (l : List String) : List String :=
  sortStrings (firstSeen l)

/-- `str.lstrip('!-+')`: drop every leading sigil character. -/
def lstripSigils (s : String) : String :=
  ⟨s.data.dropWhile (fun c => c = '!' ∨ c = '-' ∨ c = '+')⟩

/-- `validate_tags` (fgd.py:295-314).  Checks a collection of raw tags:
builds the set of sigil-stripped upper-cased forms, errors on collision
with the raw count, errors when that set contains the literal `'<any>'`
(which, the set being upper-cased, can never happen), and returns the
frozenset of upper-cased raw tags (sigils retained). -/
def validate_tags (tags : List String) : Except String (List String) :=
  let temp_set := mkTagSet (tags.map (fun t => pyUpper (lstripSigils t)))
  if temp_set.length ≠ tags.length then
    .error "Duplicate tags!"
  else if "<any>" ∈ temp_set then
    .error "<any> cannot be used as a tag!"
  else
    .ok (mkTagSet (tags.map pyUpper))

/-- The loop of `match_tags` (fgd.py:331-346).  `matched` is the
three-state variable: `none` = no plain tag seen, `some true` = one
satisfied, `some false` = seen but none satisfied yet. -/
def matchTagsLoop (search : List String) (has_all : Bool) :
    List String → Option Bool → Bool
  | [], matched => matched ≠ some false
  | t :: rest, matched =>
    let tag := pyUpper t
    let start := strTake1 tag
    if start = "!" ∨ start = "-" then
      if strDrop1 tag ∈ search then false
      else matchTagsLoop search has_all rest matched
    else if start = "+" then
      if strDrop1 tag ∉ search then false
      else matchTagsLoop search has_all rest matched
    else
      let matched1 := if matched = none then some false else matched
      let matched2 := if has_all ∨ tag ∈ search then some true else matched1
      matchTagsLoop search has_all rest matched2

/-- `match_tags(search, tags)` (fgd.py:317-346): do the query constraints
`search` satisfy the candidate tag collection `tags`? -/
def match_tags (search : List String) (tags : List String) : Bool :=
  if tags = [] then true
  else matchTagsLoop search ("<ALL>" ∈ search) tags none

/-! ## Tag classification (the claim's vocabulary)

A candidate tag is *negative* when its first character is `!` or `-`,
*positive* when it is `+`, and *plain* otherwise; its *stripped* form is
the upper-cased tag without that first character.  (Upper-casing and
sigil-stripping commute, as sigils are not letters.) -/

/-- The candidate tag carries a negative sigil. -/
def IsNegTag (t : String) : Prop :=
  strTake1 (pyUpper t) = "!" ∨ strTake1 (pyUpper t) = "-"

/-- The candidate tag carries a positive sigil. -/
def IsPosTag (t : String) : Prop := strTake1 (pyUpper t) = "+"

/-- The candidate tag carries no sigil. -/
def IsPlainTag (t : String) : Prop := ¬IsNegTag t ∧ ¬IsPosTag t

/-- The sigil-stripped, upper-cased form of a candidate tag. -/
def strippedTag (t : String) : String := strDrop1 (pyUpper t)

instance (t : String) : Decidable (IsNegTag t) :=
  inferInstanceAs (Decidable (_ ∨ _))

instance (t : String) : Decidable (IsPosTag t) :=
  inferInstanceAs (Decidable (_ = _))

instance (t : String) : Decidable (IsPlainTag t) :=
  inferInstanceAs (Decidable (_ ∧ _))

theorem IsNegTag.not_pos {t : String} (h : IsNegTag t) : ¬IsPosTag t := by
  rcases h with h | h <;> intro hp <;> rw [IsPosTag] at hp <;> simp [h] at hp

/-- The `matchTagsLoop` invariant: the loop succeeds iff no negative tag
is present in the query, every positive tag is, and the three-state
`matched` accumulator ends away from `some false`. -/
theorem matchTagsLoop_iff (Q : List String) (a : Bool) (T : List String) :
    ∀ m : Option Bool,
    matchTagsLoop Q a T m = true ↔
      ((∀ t ∈ T, IsNegTag t → strippedTag t ∉ Q) ∧
       (∀ t ∈ T, IsPosTag t → strippedTag t ∈ Q) ∧
       (((∃ t ∈ T, IsPlainTag t) →
          (m = some true ∨ ∃ t ∈ T, IsPlainTag t ∧ (a = true ∨ pyUpper t ∈ Q))) ∧
        (¬(∃ t ∈ T, IsPlainTag t) → m ≠ some false))) := by
  induction T with
  | nil => intro m; simp [matchTagsLoop]
  | cons t rest ih =>
    intro m
    rw [matchTagsLoop]
    by_cases hneg : IsNegTag t
    · rw [IsNegTag] at hneg
      rw [if_pos hneg]
      by_cases hmem : strDrop1 (pyUpper t) ∈ Q
      · rw [if_pos hmem]
        constructor
        · intro h; exact absurd h (by simp)
        · rintro ⟨hnegs, -, -⟩
          exact absurd (hnegs t (by simp) hneg) (by simpa [strippedTag] using hmem)
      · rw [if_neg hmem, ih m]
        have hplain : ¬IsPlainTag t := fun hp => hp.1 hneg
        have hnp : ¬IsPosTag t := IsNegTag.not_pos hneg
        constructor
        · rintro ⟨h1, h2, h3⟩
          refine ⟨?_, ?_, ?_, ?_⟩
          · intro u hu hnu
            rcases List.mem_cons.1 hu with rfl | hu
            · simpa [strippedTag] using hmem
            · exact h1 u hu hnu
          · intro u hu hpu
            rcases List.mem_cons.1 hu with rfl | hu
            · exact absurd hpu hnp
            · exact h2 u hu hpu
          · intro hex
            have hex' : ∃ u ∈ rest, IsPlainTag u := by
              rcases hex with ⟨u, hu, hplu⟩
              rcases List.mem_cons.1 hu with rfl | hu
              · exact absurd hplu hplain
              · exact ⟨u, hu, hplu⟩
            rcases h3.1 hex' with h | ⟨u, hu, hplu, hsat⟩
            · exact Or.inl h
            · exact Or.inr ⟨u, List.mem_cons_of_mem _ hu, hplu, hsat⟩
          · intro hnex
            exact h3.2 fun ⟨u, hu, hplu⟩ =>
              hnex ⟨u, List.mem_cons_of_mem _ hu, hplu⟩
        · rintro ⟨h1, h2, h3, h4⟩
          refine ⟨fun u hu => h1 u (List.mem_cons_of_mem _ hu),
                  fun u hu => h2 u (List.mem_cons_of_mem _ hu), ?_, ?_⟩
          · rintro ⟨u, hu, hplu⟩
            rcases h3 ⟨u, List.mem_cons_of_mem _ hu, hplu⟩ with h | ⟨v, hv, hplv, hsat⟩
            · exact Or.inl h
            · rcases List.mem_cons.1 hv with rfl | hv
              · exact absurd hplv hplain
              · exact Or.inr ⟨v, hv, hplv, hsat⟩
          · intro hnex
            exact h4 fun ⟨u, hu, hplu⟩ => by
              rcases List.mem_cons.1 hu with rfl | hu
              · exact hplain hplu
              · exact hnex ⟨u, hu, hplu⟩
    · rw [IsNegTag] at hneg
      rw [if_neg hneg]
      rw [← IsNegTag] at hneg
      by_cases hpos : IsPosTag t
      · rw [IsPosTag] at hpos
        rw [if_pos hpos]
        rw [← IsPosTag] at hpos
        by_cases hmem : strDrop1 (pyUpper t) ∈ Q
        · rw [if_neg (by simpa using hmem), ih m]
          have hplain : ¬IsPlainTag t := fun hp => hp.2 hpos
          constructor
          · rintro ⟨h1, h2, h3, h4⟩
            refine ⟨?_, ?_, ?_, ?_⟩
            · intro u hu hnu
              rcases List.mem_cons.1 hu with rfl | hu
              · exact absurd hnu hneg
              · exact h1 u hu hnu
            · intro u hu hpu
              rcases List.mem_cons.1 hu with rfl | hu
              · simpa [strippedTag] using hmem
              · exact h2 u hu hpu
            · rintro ⟨u, hu, hplu⟩
              rcases List.mem_cons.1 hu with rfl | hu
              · exact absurd hplu hplain
              · rcases h3 ⟨u, hu, hplu⟩ with h | ⟨v, hv, hplv, hsat⟩
                · exact Or.inl h
                · exact Or.inr ⟨v, List.mem_cons_of_mem _ hv, hplv, hsat⟩
            · intro hnex
              exact h4 fun ⟨u, hu, hplu⟩ =>
                hnex ⟨u, List.mem_cons_of_mem _ hu, hplu⟩
          · rintro ⟨h1, h2, h3, h4⟩
            refine ⟨fun u hu => h1 u (List.mem_cons_of_mem _ hu),
                    fun u hu => h2 u (List.mem_cons_of_mem _ hu), ?_, ?_⟩
            · rintro ⟨u, hu, hplu⟩
              rcases h3 ⟨u, List.mem_cons_of_mem _ hu, hplu⟩ with h | ⟨v, hv, hplv, hsat⟩
              · exact Or.inl h
              · rcases List.mem_cons.1 hv with rfl | hv
                · exact absurd hplv (fun hp => hp.2 hpos)
                · exact Or.inr ⟨v, hv, hplv, hsat⟩
            · intro hnex
              exact h4 fun ⟨u, hu, hplu⟩ => by
                rcases List.mem_cons.1 hu with rfl | hu
                · exact (hplu.2 hpos)
                · exact hnex ⟨u, hu, hplu⟩
        · rw [if_pos (by simpa using hmem)]
          constructor
          · intro h; exact absurd h (by simp)
          · rintro ⟨-, hposs, -⟩
            exact absurd (hposs t (by simp) hpos) (by simpa [strippedTag] using hmem)
      · rw [IsPosTag] at hpos
        rw [if_neg hpos]
        rw [← IsPosTag] at hpos
        have hplain : IsPlainTag t := ⟨hneg, hpos⟩
        show matchTagsLoop Q a rest
            (if a = true ∨ pyUpper t ∈ Q then some true
             else if m = none then some false else m) = true ↔ _
        by_cases hsat : (a = true ∨ pyUpper t ∈ Q)
        · rw [if_pos hsat, ih (some true)]
          constructor
          · rintro ⟨h1, h2, -, -⟩
            refine ⟨?_, ?_, ?_, ?_⟩
            · intro u hu hnu
              rcases List.mem_cons.1 hu with rfl | hu
              · exact absurd hnu hneg
              · exact h1 u hu hnu
            · intro u hu hpu
              rcases List.mem_cons.1 hu with rfl | hu
              · exact absurd hpu hpos
              · exact h2 u hu hpu
            · intro _
              exact Or.inr ⟨t, by simp, hplain, hsat⟩
            · intro hnex
              exact absurd ⟨t, by simp, hplain⟩ hnex
          · rintro ⟨h1, h2, -, -⟩
            refine ⟨fun u hu => h1 u (List.mem_cons_of_mem _ hu),
                    fun u hu => h2 u (List.mem_cons_of_mem _ hu), ?_, ?_⟩
            · intro _; exact Or.inl rfl
            · intro _; simp
        · rw [if_neg hsat]
          cases m with
          | none =>
            rw [if_pos rfl, ih (some false)]
            constructor
            · rintro ⟨h1, h2, h3, h4⟩
              have hexr : ∃ u ∈ rest, IsPlainTag u := by
                by_contra hnex
                exact absurd rfl (h4 hnex)
              rcases h3 hexr with h | hsat'
              · exact absurd h (by simp)
              refine ⟨?_, ?_, ?_, ?_⟩
              · intro u hu hnu
                rcases List.mem_cons.1 hu with rfl | hu
                · exact absurd hnu hneg
                · exact h1 u hu hnu
              · intro u hu hpu
                rcases List.mem_cons.1 hu with rfl | hu
                · exact absurd hpu hpos
                · exact h2 u hu hpu
              · intro _
                rcases hsat' with ⟨v, hv, hplv, hsv⟩
                exact Or.inr ⟨v, List.mem_cons_of_mem _ hv, hplv, hsv⟩
              · intro hnex
                exact absurd ⟨t, by simp, hplain⟩ hnex
            · rintro ⟨h1, h2, h3, -⟩
              rcases h3 ⟨t, by simp, hplain⟩ with h | ⟨v, hv, hplv, hsv⟩
              · exact absurd h (by simp)
              · have hv' : v ∈ rest := by
                  rcases List.mem_cons.1 hv with rfl | hv
                  · exact absurd hsv hsat
                  · exact hv
                refine ⟨fun u hu => h1 u (List.mem_cons_of_mem _ hu),
                        fun u hu => h2 u (List.mem_cons_of_mem _ hu), ?_, ?_⟩
                · intro _; exact Or.inr ⟨v, hv', hplv, hsv⟩
                · intro hnex; exact absurd ⟨v, hv', hplv⟩ hnex
          | some b =>
            rw [if_neg (by simp), ih (some b)]
            cases b with
            | true =>
              constructor
              · rintro ⟨h1, h2, -, -⟩
                refine ⟨?_, ?_, fun _ => Or.inl rfl, fun hnex =>
                    absurd ⟨t, by simp, hplain⟩ hnex⟩
                · intro u hu hnu
                  rcases List.mem_cons.1 hu with rfl | hu
                  · exact absurd hnu hneg
                  · exact h1 u hu hnu
                · intro u hu hpu
                  rcases List.mem_cons.1 hu with rfl | hu
                  · exact absurd hpu hpos
                  · exact h2 u hu hpu
              · rintro ⟨h1, h2, -, -⟩
                exact ⟨fun u hu => h1 u (List.mem_cons_of_mem _ hu),
                       fun u hu => h2 u (List.mem_cons_of_mem _ hu),
                       fun _ => Or.inl rfl, fun _ => by simp⟩
            | false =>
              constructor
              · rintro ⟨h1, h2, h3, h4⟩
                have hexr : ∃ u ∈ rest, IsPlainTag u := by
                  by_contra hnex
                  exact absurd rfl (h4 hnex)
                rcases h3 hexr with h | ⟨v, hv, hplv, hsv⟩
                · exact absurd h (by simp)
                · refine ⟨?_, ?_, ?_, ?_⟩
                  · intro u hu hnu
                    rcases List.mem_cons.1 hu with rfl | hu
                    · exact absurd hnu hneg
                    · exact h1 u hu hnu
                  · intro u hu hpu
                    rcases List.mem_cons.1 hu with rfl | hu
                    · exact absurd hpu hpos
                    · exact h2 u hu hpu
                  · intro _
                    exact Or.inr ⟨v, List.mem_cons_of_mem _ hv, hplv, hsv⟩
                  · intro hnex
                    exact absurd ⟨t, by simp, hplain⟩ hnex
              · rintro ⟨h1, h2, h3, -⟩
                rcases h3 ⟨t, by simp, hplain⟩ with h | ⟨v, hv, hplv, hsv⟩
                · exact absurd h (by simp)
                · have hv' : v ∈ rest := by
                    rcases List.mem_cons.1 hv with rfl | hv
                    · exact absurd hsv hsat
                    · exact hv
                  exact ⟨fun u hu => h1 u (List.mem_cons_of_mem _ hu),
                         fun u hu => h2 u (List.mem_cons_of_mem _ hu),
                         fun _ => Or.inr ⟨v, hv', hplv, hsv⟩,
                         fun hnex => absurd ⟨v, hv', hplv⟩ hnex⟩

/-- C1: for every query set `Q` of upper-cased tags and candidate
collection `T`: `match_tags(Q, {})` is true; `match_tags(Q, T)` is false
if some negative-sigil candidate has its sigil-stripped upper-cased form
in `Q` or some positive-sigil candidate has it absent from `Q`; otherwise
it is true iff `T` has no plain tag, or some plain tag's upper-cased form
is in `Q`, or `Q` contains `<ALL>`. -/
theorem c1_match_tags (Q : List String) (hQ : ∀ t ∈ Q, pyUpper t = t)
    (T : List String) :
    match_tags Q [] = true ∧
    (match_tags Q T = true ↔
      ((∀ t ∈ T, IsNegTag t → strippedTag t ∉ Q) ∧
       (∀ t ∈ T, IsPosTag t → strippedTag t ∈ Q) ∧
       ((∀ t ∈ T, ¬IsPlainTag t) ∨
        (∃ t ∈ T, IsPlainTag t ∧ pyUpper t ∈ Q) ∨ "<ALL>" ∈ Q))) := by
  refine ⟨by simp [match_tags], ?_⟩
  rcases eq_or_ne T [] with rfl | hT
  · simp [match_tags]
  · rw [match_tags, if_neg hT, matchTagsLoop_iff]
    constructor
    · rintro ⟨h1, h2, h3, h4⟩
      refine ⟨h1, h2, ?_⟩
      by_cases hex : ∃ t ∈ T, IsPlainTag t
      · rcases h3 hex with h | ⟨u, hu, hplu, hsat⟩
        · exact absurd h (by simp)
        · rcases hsat with ha | hmem
          · right; right; simpa using ha
          · exact Or.inr (Or.inl ⟨u, hu, hplu, hmem⟩)
      · left; intro t ht hpl; exact hex ⟨t, ht, hpl⟩
    · rintro ⟨h1, h2, h3⟩
      refine ⟨h1, h2, ?_, ?_⟩
      · intro hex
        rcases h3 with hall | ⟨u, hu, hplu, hmem⟩ | hALL
        · rcases hex with ⟨u, hu, hplu⟩
          exact absurd hplu (hall u hu)
        · exact Or.inr ⟨u, hu, hplu, Or.inr hmem⟩
        · rcases hex with ⟨u, hu, hplu⟩
          exact Or.inr ⟨u, hu, hplu, Or.inl (by simpa using hALL)⟩
      · intro _; simp

/-- Witness for `c1_match_tags` at the concrete query `{"FOO"}`. -/
theorem c1_match_tags_witness : match_tags ["FOO"] [] = true :=
  (c1_match_tags ["FOO"] (by decide) []).1

/-! ## Set-model lemmas: `firstSeen`, `sortStrings`, `mkTagSet` -/

theorem insertSorted_perm (s : String) (l : List String) :
    (insertSorted s l).Perm (s :: l) := by
  induction l with
  | nil => exact List.Perm.refl _
  | cons t rest ih =>
    rw [insertSorted]
    split
    · exact List.Perm.refl _
    · exact (ih.cons t).trans (List.Perm.swap s t rest)

theorem sortStrings_perm (l : List String) : (sortStrings l).Perm l := by
  induction l with
  | nil => exact List.Perm.refl _
  | cons s rest ih =>
    exact (insertSorted_perm s (sortStrings rest)).trans (ih.cons s)

theorem mem_addUnique (x s : String) (acc : List String) :
    x ∈ addUnique acc s ↔ x ∈ acc ∨ x = s := by
  rw [addUnique]
  split
  · next h =>
    constructor
    · exact Or.inl
    · rintro (hx | rfl)
      · exact hx
      · exact h
  · simp [List.mem_append]

theorem mem_foldl_addUnique (l : List String) :
    ∀ (acc : List String) (x : String),
      x ∈ l.foldl addUnique acc ↔ x ∈ acc ∨ x ∈ l := by
  induction l with
  | nil => intro acc x; simp
  | cons s rest ih =>
    intro acc x
    rw [List.foldl_cons, ih, mem_addUnique]
    simp only [List.mem_cons]
    tauto

theorem nodup_foldl_addUnique (l : List String) :
    ∀ acc : List String, acc.Nodup → (l.foldl addUnique acc).Nodup := by
  induction l with
  | nil => intro acc h; exact h
  | cons s rest ih =>
    intro acc h
    rw [List.foldl_cons]
    refine ih _ ?_
    rw [addUnique]
    split
    · exact h
    · next hs => simpa [List.nodup_append] using ⟨h, hs⟩

theorem length_foldl_addUnique (l : List String) :
    ∀ acc : List String,
      (l.foldl addUnique acc).length ≤ acc.length + l.length ∧
      ((l.foldl addUnique acc).length = acc.length + l.length ↔
        (l.Nodup ∧ ∀ x ∈ l, x ∉ acc)) := by
  induction l with
  | nil => intro acc; simp
  | cons s rest ih =>
    intro acc
    rw [List.foldl_cons, addUnique]
    split
    · next hs =>
      obtain ⟨hle, -⟩ := ih acc
      constructor
      · calc (rest.foldl addUnique acc).length
            ≤ acc.length + rest.length := hle
          _ ≤ acc.length + (s :: rest).length := by
              simp only [List.length_cons]; omega
      · constructor
        · intro heq
          exfalso
          rw [heq] at hle
          simp only [List.length_cons] at hle
          omega
        · rintro ⟨-, hnotin⟩
          exact absurd hs (hnotin s (by simp))
    · next hs =>
      obtain ⟨hle, hiff⟩ := ih (acc ++ [s])
      have hlen : (acc ++ [s]).length = acc.length + 1 := by simp
      constructor
      · rw [hlen] at hle
        calc (rest.foldl addUnique (acc ++ [s])).length
            ≤ acc.length + 1 + rest.length := hle
          _ = acc.length + (s :: rest).length := by
              simp only [List.length_cons]; omega
      · rw [hlen] at hiff
        have : acc.length + (s :: rest).length = acc.length + 1 + rest.length := by
          simp only [List.length_cons]; omega
        rw [this, hiff]
        constructor
        · rintro ⟨hnd, hnotin⟩
          have hsr : s ∉ rest := fun hmem => hnotin s hmem (by simp)
          refine ⟨List.nodup_cons.2 ⟨hsr, hnd⟩, ?_⟩
          intro x hx
          rcases List.mem_cons.1 hx with rfl | hx
          · exact hs
          · exact fun hacc => hnotin x hx (by simp [hacc])
        · rintro ⟨hnd, hnotin⟩
          rcases List.nodup_cons.1 hnd with ⟨hsr, hndr⟩
          refine ⟨hndr, ?_⟩
          intro x hx
          simp only [List.mem_append, List.mem_singleton]
          push_neg
          exact ⟨hnotin x (List.mem_cons_of_mem _ hx),
                 fun hxs => hsr (hxs ▸ hx)⟩

theorem mem_firstSeen (x : String) (l : List String) :
    x ∈ firstSeen l ↔ x ∈ l := by
  rw [firstSeen, mem_foldl_addUnique]; simp

theorem firstSeen_length_iff (l : List String) :
    (firstSeen l).length = l.length ↔ l.Nodup := by
  rw [firstSeen]
  have := (length_foldl_addUnique l []).2
  simpa using this

theorem mem_mkTagSet (x : String) (l : List String) :
    x ∈ mkTagSet l ↔ x ∈ l := by
  rw [mkTagSet, (sortStrings_perm _).mem_iff, mem_firstSeen]

theorem mkTagSet_length_iff (l : List String) :
    (mkTagSet l).length = l.length ↔ l.Nodup := by
  rw [mkTagSet, (sortStrings_perm _).length_eq, firstSeen_length_iff]

/-! ## `pyUpper` never produces a lower-case letter -/

theorem charUpper_not_lower (c : Char) :
    ¬(97 ≤ (charUpper c).toNat ∧ (charUpper c).toNat ≤ 122) := by
  rw [charUpper]
  split
  · next h =>
    obtain ⟨m, hm⟩ : ∃ m, c.toNat - 32 = m := ⟨_, rfl⟩
    rw [hm]
    have h1 : 65 ≤ m := by omega
    have h2 : m ≤ 90 := by omega
    interval_cases m <;> decide
  · next h => exact h

theorem pyUpper_ne_any (s : String) : pyUpper s ≠ "<any>" := by
  intro h
  have h' : s.data.map charUpper = ['<', 'a', 'n', 'y', '>'] := by
    have hd := congrArg String.data h
    simpa [pyUpper] using hd
  rcases hdata : s.data with _ | ⟨c1, _ | ⟨c2, l⟩⟩ <;> rw [hdata] at h'
  · simp at h'
  · simp at h'
  · rw [List.map_cons, List.map_cons] at h'
    simp only [List.cons.injEq] at h'
    exact charUpper_not_lower c2 (by rw [h'.2.1]; decide)

/-- C6 counterexample: the collection `['<any>', '+foo']` contains the
reserved wildcard as a plain tag, so the claim says `validate_tags`
raises; the code instead succeeds (its wildcard check compares the
lower-case literal against an upper-cased set) and returns the
upper-cased tags with the `+` sigil retained rather than stripped. -/
theorem c6_counterexample :
    validate_tags ["<any>", "+foo"] = .ok ["+FOO", "<ANY>"] ∧
    validate_tags ["<any>", "+foo"] ≠ .error "<any> cannot be used as a tag!" := by
  have h : validate_tags ["<any>", "+foo"] = .ok ["+FOO", "<ANY>"] := by rfl
  exact ⟨h, by rw [h]; intro hbad; cases hbad⟩

/-- C6 amended: `validate_tags` raises the supplied error exactly when two
tags are equal after stripping leading `!`/`-`/`+` sigils and
upper-casing; the reserved-wildcard check can never fire (it compares the
lower-case literal `'<any>'` against the upper-cased set); otherwise the
set of upper-cased raw tags is returned, sigils retained. -/
theorem c6_validate_tags (tags : List String) :
    validate_tags tags =
      if tags.Pairwise
          (fun a b => pyUpper (lstripSigils a) ≠ pyUpper (lstripSigils b))
      then .ok (mkTagSet (tags.map pyUpper))
      else .error "Duplicate tags!" := by
  have hnodup : (tags.map (fun t => pyUpper (lstripSigils t))).Nodup ↔
      tags.Pairwise
        (fun a b => pyUpper (lstripSigils a) ≠ pyUpper (lstripSigils b)) := by
    rw [List.Nodup, List.pairwise_map]
  have hlen : (mkTagSet (tags.map (fun t => pyUpper (lstripSigils t)))).length =
      tags.length ↔
      (tags.map (fun t => pyUpper (lstripSigils t))).Nodup := by
    rw [← List.length_map tags (fun t => pyUpper (lstripSigils t))]
    exact mkTagSet_length_iff _
  have hnoany : "<any>" ∉ mkTagSet (tags.map (fun t => pyUpper (lstripSigils t))) := by
    rw [mem_mkTagSet]
    intro hmem
    rcases List.mem_map.1 hmem with ⟨t, -, ht⟩
    exact pyUpper_ne_any _ ht
  simp only [validate_tags]
  by_cases hpw : tags.Pairwise
      (fun a b => pyUpper (lstripSigils a) ≠ pyUpper (lstripSigils b))
  · have h1 : ¬((mkTagSet (tags.map fun t => pyUpper (lstripSigils t))).length ≠
        tags.length) := by
      rw [not_not]
      exact hlen.2 (hnodup.2 hpw)
    rw [if_neg h1, if_neg hnoany, if_pos hpw]
  · have h1 : (mkTagSet (tags.map fun t => pyUpper (lstripSigils t))).length ≠
        tags.length :=
      fun he => hpw (hnodup.1 (hlen.1 he))
    rw [if_pos h1, if_neg hpw]

/-! ## `struct` packing

Big-endian fixed-width packing to byte lists.  Python's `Struct.pack`
raises `struct.error` when the value does not fit the field width. -/

/-- `Struct('>B').pack`. -/
def pack8 (n : Nat) : Except String (List Nat) :=
  if n < 256 then .ok [n] else .error "struct.error: ubyte out of range"

/-- `Struct('>H').pack`. -/
def pack16 (n : Nat) : Except String (List Nat) :=
  if n < 65536 then .ok [n / 256, n % 256]
  else .error "struct.error: 'H' requires 0 <= number <= 65535"

/-- `Struct('>I').pack`. -/
def pack32 (n : Nat) : Except String (List Nat) :=
  if n < 4294967296 then
    .ok [n / 16777216 % 256, n / 65536 % 256, n / 256 % 256, n % 256]
  else .error "struct.error: 'I' out of range"

/-! ## `BinStrDict` (fgd.py:349-425)

The interning dictionary: each distinct string is assigned the next index
in first-seen order; `__call__` returns the `'>H'`-packed index. -/

structure BinStrDict where
  dict : List (String × Nat)
  cur_index : Nat
  deriving DecidableEq, Repr

def BinStrDict.empty : BinStrDict := ⟨[], 0⟩

/-- `BinStrDict.__call__` (fgd.py:359-374).  For a new string the dict is
extended and the index checked against `1 << 16` (note: `>`), then packed
as `'>H'` — which itself raises once the index reaches 65536. -/
def BinStrDict.call (d : BinStrDict) (s : String) :
    Except String (BinStrDict × List Nat) :=
  match d.dict.lookup s with
  | some index =>
    match pack16 index with
    | .error e => .error e
    | .ok bs => .ok (d, bs)
  | none =>
    let index := d.cur_index
    let d' : BinStrDict := ⟨d.dict ++ [(s, index)], d.cur_index + 1⟩
    if index > 65536 then .error "Too many items in dictionary!"
    else
      match pack16 index with
      | .error e => .error e
      | .ok bs => .ok (d', bs)

/-- Register a whole list of strings in order, collecting the packed
indices, stopping at the first error (exception propagation). -/
def BinStrDict.callAll : BinStrDict → List String →
    Except String (BinStrDict × List (List Nat))
  | d, [] => .ok (d, [])
  | d, s :: rest =>
    match d.call s with
    | .error e => .error e
    | .ok (d1, bs) =>
      match BinStrDict.callAll d1 rest with
      | .error e => .error e
      | .ok (d2, rest_bs) => .ok (d2, bs :: rest_bs)

/-- The dictionary reached after interning the distinct strings `L` (in
that order): string `L[i]` has index `i`, starting from `n`. -/
def mkDictFrom (n : Nat) : List String → List (String × Nat)
  | [] => []
  | s :: rest => (s, n) :: mkDictFrom (n + 1) rest

theorem mkDictFrom_append (L : List String) :
    ∀ (n : Nat) (s : String),
      mkDictFrom n (L ++ [s]) = mkDictFrom n L ++ [(s, n + L.length)] := by
  induction L with
  | nil => intro n s; simp [mkDictFrom]
  | cons t rest ih =>
    intro n s
    have h := ih (n + 1) s
    have h2 : n + 1 + rest.length = n + (rest.length + 1) := by omega
    rw [h2] at h
    simp only [List.cons_append, mkDictFrom, List.length_cons, List.append_eq, h]

theorem lookup_mkDictFrom_of_not_mem {s : String} (L : List String)
    (hs : s ∉ L) : ∀ n, (mkDictFrom n L).lookup s = none := by
  induction L with
  | nil => intro n; rfl
  | cons t rest ih =>
    intro n
    have hne : s ≠ t := fun h => hs (h ▸ List.mem_cons_self t rest)
    have hbe : (s == t) = false := beq_eq_false_iff_ne.2 hne
    rw [mkDictFrom]
    simp only [List.lookup, hbe]
    exact ih (fun h => hs (List.mem_cons_of_mem _ h)) (n + 1)

theorem lookup_mkDictFrom_of_mem {s : String} (L : List String)
    (hs : s ∈ L) : ∀ n, ∃ i, (mkDictFrom n L).lookup s = some i ∧
      n ≤ i ∧ i < n + L.length := by
  induction L with
  | nil => cases hs
  | cons t rest ih =>
    intro n
    rw [mkDictFrom]
    by_cases heq : s = t
    · have hbe : (s == t) = true := beq_iff_eq.2 heq
      simp only [List.lookup, hbe]
      exact ⟨n, rfl, le_refl n, by simp⟩
    · have hbe : (s == t) = false := beq_eq_false_iff_ne.2 heq
      simp only [List.lookup, hbe]
      rcases List.mem_cons.1 hs with rfl | hmem
      · exact absurd rfl heq
      · rcases ih hmem (n + 1) with ⟨i, h1, h2, h3⟩
        refine ⟨i, h1, by omega, ?_⟩
        simp only [List.length_cons]
        omega

theorem length_le_foldl_addUnique (l : List String) :
    ∀ acc : List String, acc.length ≤ (l.foldl addUnique acc).length := by
  induction l with
  | nil => intro acc; simp
  | cons s rest ih =>
    intro acc
    rw [List.foldl_cons]
    refine le_trans ?_ (ih (addUnique acc s))
    rw [addUnique]
    split
    · exact le_refl _
    · simp

/-- Inversion helper: the continuation of `callAll` succeeds iff the
recursive call does. -/
theorem exists_ok_bind (x : Except String (BinStrDict × List (List Nat)))
    (bs : List Nat) :
    (∃ out : BinStrDict × List (List Nat), (match x with
      | .error e => (.error e : Except String (BinStrDict × List (List Nat)))
      | .ok (d2, rest_bs) => .ok (d2, bs :: rest_bs)) = .ok out) ↔
    (∃ out, x = .ok out) := by
  cases x with
  | error e => simp
  | ok p => rcases p with ⟨d2, rbs⟩; simp

/-- Inversion helper: a successful continuation determines the recursive
call's result. -/
theorem ok_bind_inv (x : Except String (BinStrDict × List (List Nat)))
    (bs : List Nat) (d : BinStrDict) (bss : List (List Nat)) :
    (match x with
      | .error e => (.error e : Except String (BinStrDict × List (List Nat)))
      | .ok (d2, rest_bs) => .ok (d2, bs :: rest_bs)) = .ok (d, bss) →
    ∃ rbs, x = .ok (d, rbs) ∧ bss = bs :: rbs := by
  cases x with
  | error e => intro h; cases h
  | ok p =>
    rcases p with ⟨d2, rbs⟩
    intro h
    cases h
    exact ⟨rbs, rfl, rfl⟩

/-- The `BinStrDict.callAll` invariant: starting from a first-seen
dictionary of the distinct strings `L`, the run succeeds exactly when the
combined distinct count stays within 65536, and on success the final
dictionary is the first-seen dictionary of the combined list. -/
theorem callAll_spec (ss : List String) :
    ∀ L : List String, L.length ≤ 65536 →
      ((∃ out, BinStrDict.callAll ⟨mkDictFrom 0 L, L.length⟩ ss = .ok out) ↔
        (ss.foldl addUnique L).length ≤ 65536) ∧
      (∀ d bss,
        BinStrDict.callAll ⟨mkDictFrom 0 L, L.length⟩ ss = .ok (d, bss) →
          d.dict = mkDictFrom 0 (ss.foldl addUnique L) ∧
          d.cur_index = (ss.foldl addUnique L).length) := by
  induction ss with
  | nil =>
    intro L hL
    refine ⟨⟨fun _ => by simpa using hL, fun _ => ⟨_, rfl⟩⟩, ?_⟩
    intro d bss h
    rw [BinStrDict.callAll] at h
    cases h
    exact ⟨rfl, rfl⟩
  | cons s rest ih =>
    intro L hL
    rw [List.foldl_cons]
    by_cases hmem : s ∈ L
    · have haddu : addUnique L s = L := by rw [addUnique, if_pos hmem]
      rcases lookup_mkDictFrom_of_mem L hmem 0 with ⟨i, hlook, -, hilt⟩
      have hpack : pack16 i = .ok [i / 256, i % 256] := by
        rw [pack16, if_pos (by omega)]
      have hcall : BinStrDict.call ⟨mkDictFrom 0 L, L.length⟩ s =
          .ok (⟨mkDictFrom 0 L, L.length⟩, [i / 256, i % 256]) := by
        rw [BinStrDict.call]
        simp only [hlook, hpack]
      have hstep : BinStrDict.callAll ⟨mkDictFrom 0 L, L.length⟩ (s :: rest) =
          match BinStrDict.callAll ⟨mkDictFrom 0 L, L.length⟩ rest with
          | .error e => .error e
          | .ok (d2, rest_bs) => .ok (d2, [i / 256, i % 256] :: rest_bs) := by
        rw [BinStrDict.callAll]
        simp only [hcall]
      rw [haddu]
      obtain ⟨hiff, hok⟩ := ih L hL
      refine ⟨?_, ?_⟩
      · rw [← hiff, ← exists_ok_bind
          (BinStrDict.callAll ⟨mkDictFrom 0 L, L.length⟩ rest) [i / 256, i % 256]]
        simp only [hstep]
      · intro d bss h
        rw [hstep] at h
        rcases ok_bind_inv _ _ _ _ h with ⟨rbs, hrec, rfl⟩
        exact hok d rbs hrec
    · have haddu : addUnique L s = L ++ [s] := by rw [addUnique, if_neg hmem]
      have hlook := lookup_mkDictFrom_of_not_mem L hmem 0
      rw [haddu]
      by_cases hfull : L.length < 65536
      · have hpack : pack16 L.length = .ok [L.length / 256, L.length % 256] := by
          rw [pack16, if_pos hfull]
        have hcall : BinStrDict.call ⟨mkDictFrom 0 L, L.length⟩ s =
            .ok (⟨mkDictFrom 0 (L ++ [s]), (L ++ [s]).length⟩,
                 [L.length / 256, L.length % 256]) := by
          rw [BinStrDict.call]
          simp only [hlook]
          rw [if_neg (by omega)]
          simp only [hpack]
          rw [mkDictFrom_append]
          simp
        have hstep : BinStrDict.callAll ⟨mkDictFrom 0 L, L.length⟩ (s :: rest) =
            match BinStrDict.callAll
                ⟨mkDictFrom 0 (L ++ [s]), (L ++ [s]).length⟩ rest with
            | .error e => .error e
            | .ok (d2, rest_bs) =>
              .ok (d2, [L.length / 256, L.length % 256] :: rest_bs) := by
          rw [BinStrDict.callAll]
          simp only [hcall]
        have hlen1 : (L ++ [s]).length ≤ 65536 := by
          simp only [List.length_append, List.length_cons, List.length_nil]
          omega
        obtain ⟨hiff, hok⟩ := ih (L ++ [s]) hlen1
        refine ⟨?_, ?_⟩
        · rw [← hiff, ← exists_ok_bind (BinStrDict.callAll
            ⟨mkDictFrom 0 (L ++ [s]), (L ++ [s]).length⟩ rest)
            [L.length / 256, L.length % 256]]
          simp only [hstep]
        · intro d bss h
          rw [hstep] at h
          rcases ok_bind_inv _ _ _ _ h with ⟨rbs, hrec, rfl⟩
          exact hok d rbs hrec
      · -- the dictionary is full: the 65537-th distinct string hits the
        -- `'>H'` packing error (the explicit `> (1 << 16)` guard does not
        -- fire at index 65536)
        have hcall : BinStrDict.call ⟨mkDictFrom 0 L, L.length⟩ s =
            .error "struct.error: 'H' requires 0 <= number <= 65535" := by
          rw [BinStrDict.call]
          simp only [hlook]
          rw [if_neg (by omega)]
          rw [pack16, if_neg (by omega)]
        have hstep : BinStrDict.callAll ⟨mkDictFrom 0 L, L.length⟩ (s :: rest) =
            .error "struct.error: 'H' requires 0 <= number <= 65535" := by
          rw [BinStrDict.callAll]
          simp only [hcall]
        refine ⟨?_, ?_⟩
        · constructor
          · rintro ⟨out, hout⟩
            rw [hstep] at hout
            cases hout
          · intro hle
            exfalso
            have := length_le_foldl_addUnique rest (L ++ [s])
            simp only [List.length_append, List.length_cons,
              List.length_nil] at this
            omega
        · intro d bss h
          rw [hstep] at h
          cases h

/-- C8: the binary string dictionary assigns each distinct string a fresh
index in first-seen order (the final dictionary lists the distinct
strings in first-seen order with indices 0, 1, 2, …), and registering a
string list fails exactly when it contains more than 65536 distinct
strings. -/
theorem c8_bin_str_dict (ss : List String) :
    ((∃ out, BinStrDict.callAll BinStrDict.empty ss = .ok out) ↔
      (firstSeen ss).length ≤ 65536) ∧
    (∀ d bss, BinStrDict.callAll BinStrDict.empty ss = .ok (d, bss) →
      d.dict = mkDictFrom 0 (firstSeen ss) ∧
      d.cur_index = (firstSeen ss).length) := by
  have h := callAll_spec ss [] (by simp)
  simpa [BinStrDict.empty, mkDictFrom, firstSeen] using h

/-! ## Value and entity type registries (fgd.py:44-239)

The closed enumerations, their `.value` strings, and the stable ordinal
tables used by the binary format. -/

inductive ValueTypes where
  | VOID | CHOICES | SPAWNFLAGS
  | STRING | BOOL | INT | FLOAT | VEC | ANGLES
  | TARG_DEST | TARG_DEST_CLASS | TARG_SOURCE | TARG_NPC_CLASS
  | TARG_POINT_CLASS | TARG_FILTER_NAME | TARG_NODE_DEST | TARG_NODE_SOURCE
  | STR_SCENE | STR_SOUND | STR_PARTICLE | STR_SPRITE | STR_DECAL
  | STR_MATERIAL | STR_MODEL | STR_VSCRIPT | STR_VSCRIPT_SINGLE
  | ANGLE_NEG_PITCH | VEC_LINE | VEC_ORIGIN | VEC_AXIS
  | COLOR_1 | COLOR_255 | SIDE_LIST
  | INST_FILE | INST_VAR_DEF | INST_VAR_REP
  deriving DecidableEq, Repr

/-- The Python enum member's `.value` string. -/
def ValueTypes.value : ValueTypes → String
  | .VOID => "void"
  | .CHOICES => "choices"
  | .SPAWNFLAGS => "flags"
  | .STRING => "string"
  | .BOOL => "boolean"
  | .INT => "integer"
  | .FLOAT => "float"
  | .VEC => "vector"
  | .ANGLES => "angle"
  | .TARG_DEST => "target_destination"
  | .TARG_DEST_CLASS => "target_name_or_class"
  | .TARG_SOURCE => "target_source"
  | .TARG_NPC_CLASS => "npcclass"
  | .TARG_POINT_CLASS => "pointentityclass"
  | .TARG_FILTER_NAME => "filterclass"
  | .TARG_NODE_DEST => "node_dest"
  | .TARG_NODE_SOURCE => "node_id"
  | .STR_SCENE => "scene"
  | .STR_SOUND => "sound"
  | .STR_PARTICLE => "particlesystem"
  | .STR_SPRITE => "sprite"
  | .STR_DECAL => "decal"
  | .STR_MATERIAL => "material"
  | .STR_MODEL => "studio"
  | .STR_VSCRIPT => "scriptlist"
  | .STR_VSCRIPT_SINGLE => "script"
  | .ANGLE_NEG_PITCH => "angle_negative_pitch"
  | .VEC_LINE => "vecline"
  | .VEC_ORIGIN => "origin"
  | .VEC_AXIS => "axis"
  | .COLOR_1 => "color1"
  | .COLOR_255 => "color255"
  | .SIDE_LIST => "sidelist"
  | .INST_FILE => "instance_file"
  | .INST_VAR_DEF => "instance_parm"
  | .INST_VAR_REP => "instance_variable"

/-- `ValueTypes.has_list` (fgd.py:94-97). -/
def ValueTypes.has_list (t : ValueTypes) : Bool :=
  t.value = "choices" ∨ t.value = "flags"

/-- `ValueTypes.is_literal` (fgd.py:99-102). -/
def ValueTypes.is_literal (t : ValueTypes) : Bool :=
  t.value = "boolean" ∨ t.value = "integer" ∨ t.value = "float"

/-- `VALUE_TYPE_ORDER` (fgd.py:172-216): the stable ordinal table for the
binary format (`STR_VSCRIPT_SINGLE` appended last). -/
def VALUE_TYPE_ORDER : List ValueTypes :=
  [.VOID, .CHOICES, .SPAWNFLAGS,
   .STRING, .BOOL, .INT, .FLOAT, .VEC, .ANGLES,
   .TARG_DEST, .TARG_DEST_CLASS, .TARG_SOURCE, .TARG_NPC_CLASS,
   .TARG_POINT_CLASS, .TARG_FILTER_NAME, .TARG_NODE_DEST, .TARG_NODE_SOURCE,
   .STR_SCENE, .STR_SOUND, .STR_PARTICLE, .STR_SPRITE, .STR_DECAL,
   .STR_MATERIAL, .STR_MODEL, .STR_VSCRIPT,
   .ANGLE_NEG_PITCH, .VEC_LINE, .VEC_ORIGIN, .VEC_AXIS,
   .COLOR_1, .COLOR_255, .SIDE_LIST,
   .INST_FILE, .INST_VAR_DEF, .INST_VAR_REP,
   .STR_VSCRIPT_SINGLE]

/-- `VALUE_TYPE_INDEX[t]` (fgd.py:238). -/
def VALUE_TYPE_INDEX (t : ValueTypes) : Nat :=
  (VALUE_TYPE_ORDER.indexOf t)

/-- `VALUE_TYPE_ORDER[i]`, raising `IndexError` when out of range. -/
def valueTypeAt (i : Nat) : Except String ValueTypes :=
  match VALUE_TYPE_ORDER.get? i with
  | some t => .ok t
  | none => .error "IndexError: VALUE_TYPE_ORDER"

/-- `VALUE_TYPE_LOOKUP` (fgd.py:104-110): `.value` string → member, plus
the `bool`/`int` aliases. -/
def VALUE_TYPE_LOOKUP (s : String) : Option ValueTypes :=
  if s = "bool" then some .BOOL
  else if s = "int" then some .INT
  else VALUE_TYPE_ORDER.find? (fun t => t.value = s)

inductive EntityTypes where
  | BASE | POINT | BRUSH | ROPES | TRACK | FILTER | NPC
  deriving DecidableEq, Repr

/-- The Python enum member's `.value` string. -/
def EntityTypes.value : EntityTypes → String
  | .BASE => "baseclass"
  | .POINT => "pointclass"
  | .BRUSH => "solidclass"
  | .ROPES => "keyframeclass"
  | .TRACK => "moveclass"
  | .FILTER => "filterclass"
  | .NPC => "npcclass"

/-- `ENTITY_TYPE_ORDER` (fgd.py:219-227). -/
def ENTITY_TYPE_ORDER : List EntityTypes :=
  [.BASE, .POINT, .BRUSH, .ROPES, .TRACK, .FILTER, .NPC]

/-- `ENTITY_TYPE_INDEX[t]` (fgd.py:239). -/
def ENTITY_TYPE_INDEX (t : EntityTypes) : Nat :=
  (ENTITY_TYPE_ORDER.indexOf t)

/-- `ENTITY_TYPE_ORDER[i]`, raising `IndexError` when out of range. -/
def entityTypeAt (i : Nat) : Except String EntityTypes :=
  match ENTITY_TYPE_ORDER.get? i with
  | some t => .ok t
  | none => .error "IndexError: ENTITY_TYPE_ORDER"

/-! ## Leaf records (fgd.py:428-689)

Python tuples are untyped; the value lists attached to `choices` and
`spawnflags` keyvalues occur in the source in two different tuple shapes:
the text parser builds 4-tuples `(bitflag, name, default, tags)` for
spawnflags and 3-tuples `(value, name, tags)` for choices, while the
binary reader builds 3-tuples `(bitflag, name, default)` and 2-tuples
`(value, name)`.  `ValListEntry` models exactly these shapes, so that the
tuple-unpacking arity of `KeyValues.serialise` can be checked. -/

inductive ValListEntry where
  /-- A parsed spawnflags entry `(bitflag, name, default, tags)`. -/
  | sf4 (val : Int) (name : String) (default : Bool) (tags : List String)
  /-- A binary-format spawnflags entry `(bitflag, name, default)`. -/
  | sf3 (val : Int) (name : String) (default : Bool)
  /-- A parsed choices entry `(value, name, tags)`. -/
  | ch3 (val : String) (name : String) (tags : List String)
  /-- A binary-format choices entry `(value, name)`. -/
  | ch2 (val : String) (name : String)
  deriving DecidableEq, Repr

/-- `KeyValues` (fgd.py:428-455).  `readonly` is a `PyVal` because
`__init__` stores a `bool` while `unserialise` stores an `int`. -/
structure KeyValues where
  name : String
  type : ValueTypes
  disp_name : String
  default : String
  desc : String
  val_list : Option (List ValListEntry)
  readonly : PyVal
  deriving DecidableEq, Repr

/-- `KeyValues.copy` (fgd.py:478-488): duplicate, copying the list.  The
source writes `self.val_list.copy() if self.val_list else None`, so an
*empty* value list (falsy) also becomes `None`. -/
def KeyValues.copy (kv : KeyValues) : KeyValues :=
  { kv with val_list :=
      match kv.val_list with
      | some l => if l ≠ [] then some l else none
      | none => none }

/-- `IODef` (fgd.py:621-627). -/
structure IODef where
  name : String
  type : ValueTypes
  desc : String
  deriving DecidableEq, Repr

/-- `IODef.copy` (fgd.py:638-640). -/
def IODef.copy (io : IODef) : IODef := io

/-! ## Leaf record binary encoding (fgd.py:545-618, 676-689) -/

/-- Floor base-2 logarithm, by fuel-bounded halving (`n` halvings always
suffice); agrees with `Nat.log2`. -/
def log2fuel : Nat → Nat → Nat
  | 0, _ => 0
  | fuel + 1, n => if n ≥ 2 then log2fuel fuel (n / 2) + 1 else 0

/-- Floor base-2 logarithm. -/
def natLog2 (n : Nat) : Nat := log2fuel n n

/-- `int(math.log2(val))`.  `math.log2` raises for non-positive values;
for the powers of two the format stores, the float computation is exact
and equals the floor base-2 logarithm. -/
def pyIntLog2 (v : Int) : Except String Nat :=
  if v ≤ 0 then .error "ValueError: math domain error"
  else .ok (natLog2 v.toNat)

/-- The spawnflags entry loop of `KeyValues.serialise` (fgd.py:560-567):
`for val, name, default in self.val_list` — a 3-name tuple unpacking,
which raises `ValueError` on the 4-tuples the text parser builds, and
`TypeError` when `math.log2` is applied to a choices-shaped string. -/
def serialiseSfEntries : BinStrDict → List ValListEntry →
    Except String (BinStrDict × List Nat)
  | d, [] => .ok (d, [])
  | d, .sf3 v n df :: rest =>
    match pyIntLog2 v with
    | .error e => .error e
    | .ok power =>
      match pack8 (if df then power ||| 128 else power) with
      | .error e => .error e
      | .ok pb =>
        match d.call n with
        | .error e => .error e
        | .ok (d1, nb) =>
          match serialiseSfEntries d1 rest with
          | .error e => .error e
          | .ok (d2, rb) => .ok (d2, pb ++ nb ++ rb)
  | _, .sf4 _ _ _ _ :: _ =>
    .error "ValueError: too many values to unpack (expected 3)"
  | _, .ch3 _ _ _ :: _ =>
    .error "TypeError: must be real number, not str"
  | _, .ch2 _ _ :: _ =>
    .error "ValueError: not enough values to unpack (expected 3, got 2)"

/-- The choices entry loop of `KeyValues.serialise` (fgd.py:575-577):
`for val, name in self.val_list` — a 2-name tuple unpacking, which raises
`ValueError` on the 3-tuples the text parser builds. -/
def serialiseChEntries : BinStrDict → List ValListEntry →
    Except String (BinStrDict × List Nat)
  | d, [] => .ok (d, [])
  | d, .ch2 v n :: rest =>
    match d.call v with
    | .error e => .error e
    | .ok (d1, vb) =>
      match d1.call n with
      | .error e => .error e
      | .ok (d2, nb) =>
        match serialiseChEntries d2 rest with
        | .error e => .error e
        | .ok (d3, rb) => .ok (d3, vb ++ nb ++ rb)
  | _, .ch3 _ _ _ :: _ =>
    .error "ValueError: too many values to unpack (expected 2)"
  | _, .sf3 _ _ _ :: _ =>
    .error "ValueError: too many values to unpack (expected 2)"
  | _, .sf4 _ _ _ _ :: _ =>
    .error "ValueError: too many values to unpack (expected 2)"

/-- `KeyValues.serialise` (fgd.py:545-577). -/
def KeyValues.serialise (kv : KeyValues) (str_dict : BinStrDict) :
    Except String (BinStrDict × List Nat) :=
  match str_dict.call kv.name with
  | .error e => .error e
  | .ok (d1, b1) =>
    match d1.call kv.disp_name with
    | .error e => .error e
    | .ok (d2, b2) =>
      -- Use the high bit to store the readonly flag as well.
      match pack8 (if pyTruthy kv.readonly
          then VALUE_TYPE_INDEX kv.type ||| 128
          else VALUE_TYPE_INDEX kv.type) with
      | .error e => .error e
      | .ok b3 =>
        if kv.type = .SPAWNFLAGS then
          match kv.val_list with
          | none => .error "TypeError: object of type NoneType has no len()"
          | some l =>
            match pack8 l.length with
            | .error e => .error e
            | .ok b4 =>
              match serialiseSfEntries d2 l with
              | .error e => .error e
              | .ok (d3, b5) => .ok (d3, b1 ++ b2 ++ b3 ++ b4 ++ b5)
        else
          match d2.call (if kv.default ≠ "" then kv.default else "") with
          | .error e => .error e
          | .ok (d3, b4) =>
            if kv.type = .CHOICES then
              match kv.val_list with
              | none =>
                .error "TypeError: object of type NoneType has no len()"
              | some l =>
                match pack16 l.length with
                | .error e => .error e
                | .ok b5 =>
                  match serialiseChEntries d3 l with
                  | .error e => .error e
                  | .ok (d4, b6) =>
                    .ok (d4, b1 ++ b2 ++ b3 ++ b4 ++ b5 ++ b6)
            else
              .ok (d3, b1 ++ b2 ++ b3 ++ b4)

/-- `IODef.serialise` (fgd.py:676-679). -/
def IODef.serialise (io : IODef) (d : BinStrDict) :
    Except String (BinStrDict × List Nat) :=
  match d.call io.name with
  | .error e => .error e
  | .ok (d1, b1) =>
    match pack8 (VALUE_TYPE_INDEX io.type) with
    | .error e => .error e
    | .ok b2 => .ok (d1, b1 ++ b2)

/-! ## Binary reading -/

/-- Read one byte. -/
def readU8 : List Nat → Except String (Nat × List Nat)
  | b :: rest => .ok (b, rest)
  | [] => .error "struct.error: requires a buffer of 1 bytes"

/-- Read a big-endian 16-bit value. -/
def readU16 : List Nat → Except String (Nat × List Nat)
  | b1 :: b2 :: rest => .ok (b1 * 256 + b2, rest)
  | _ => .error "struct.error: requires a buffer of 2 bytes"

/-- Read a big-endian 32-bit value. -/
def readU32 : List Nat → Except String (Nat × List Nat)
  | b1 :: b2 :: b3 :: b4 :: rest =>
    .ok (((b1 * 256 + b2) * 256 + b3) * 256 + b4, rest)
  | _ => .error "struct.error: requires a buffer of 4 bytes"

/-- The `lookup` closure of `BinStrDict.unserialise` (fgd.py:400-403):
read a 16-bit index and look it up in the decoded string list. -/
def readStrRef (inv : List String) (bs : List Nat) :
    Except String (String × List Nat) :=
  match readU16 bs with
  | .error e => .error e
  | .ok (i, bs) =>
    match inv.get? i with
    | some s => .ok (s, bs)
    | none => .error "IndexError: string dictionary"

/-- The spawnflags entry loop of `KeyValues.unserialise`
(fgd.py:595-600). -/
def readSfEntries (inv : List String) :
    Nat → List Nat → Except String (List ValListEntry × List Nat)
  | 0, bs => .ok ([], bs)
  | n + 1, bs =>
    match readU8 bs with
    | .error e => .error e
    | .ok (power, bs) =>
      match readStrRef inv bs with
      | .error e => .error e
      | .ok (nm, bs) =>
        match readSfEntries inv n bs with
        | .error e => .error e
        | .ok (rest, bs) =>
          .ok (.sf3 (((1 <<< (power &&& 127) : Nat) : Int)) nm
                ((power &&& 128) ≠ 0) :: rest, bs)

/-- The choices entry loop of `KeyValues.unserialise` (fgd.py:605-608). -/
def readChEntries (inv : List String) :
    Nat → List Nat → Except String (List ValListEntry × List Nat)
  | 0, bs => .ok ([], bs)
  | n + 1, bs =>
    match readStrRef inv bs with
    | .error e => .error e
    | .ok (v, bs) =>
      match readStrRef inv bs with
      | .error e => .error e
      | .ok (nm, bs) =>
        match readChEntries inv n bs with
        | .error e => .error e
        | .ok (rest, bs) => .ok (.ch2 v nm :: rest, bs)

/-- `KeyValues.unserialise` (fgd.py:579-618).  The `readonly` attribute is
set to the *integer* `value_ind & 128`, not a boolean. -/
def KeyValues.unserialise (inv : List String) (bs : List Nat) :
    Except String (KeyValues × List Nat) :=
  match readStrRef inv bs with
  | .error e => .error e
  | .ok (name, bs) =>
    match readStrRef inv bs with
    | .error e => .error e
    | .ok (disp_name, bs) =>
      match readU8 bs with
      | .error e => .error e
      | .ok (value_ind, bs) =>
        match valueTypeAt (value_ind &&& 127) with
        | .error e => .error e
        | .ok value_type =>
          if value_type = .SPAWNFLAGS then
            match readU8 bs with
            | .error e => .error e
            | .ok (val_count, bs) =>
              match readSfEntries inv val_count bs with
              | .error e => .error e
              | .ok (val_list, bs) =>
                .ok (⟨name, value_type, disp_name, "", "", some val_list,
                      .pyInt ((value_ind &&& 128 : Nat) : Int)⟩, bs)
          else
            match readStrRef inv bs with
            | .error e => .error e
            | .ok (default, bs) =>
              if value_type = .CHOICES then
                match readU16 bs with
                | .error e => .error e
                | .ok (val_count, bs) =>
                  match readChEntries inv val_count bs with
                  | .error e => .error e
                  | .ok (val_list, bs) =>
                    .ok (⟨name, value_type, disp_name, default, "",
                          some val_list,
                          .pyInt ((value_ind &&& 128 : Nat) : Int)⟩, bs)
              else
                .ok (⟨name, value_type, disp_name, default, "", none,
                      .pyInt ((value_ind &&& 128 : Nat) : Int)⟩, bs)

/-- `IODef.unserialise` (fgd.py:681-689). -/
def IODef.unserialise (inv : List String) (bs : List Nat) :
    Except String (IODef × List Nat) :=
  match readStrRef inv bs with
  | .error e => .error e
  | .ok (name, bs) =>
    match readU8 bs with
    | .error e => .error e
    | .ok (ti, bs) =>
      match valueTypeAt ti with
      | .error e => .error e
      | .ok value_type => .ok (⟨name, value_type, ""⟩, bs)

/-! ## The keyvalue-line slice of the text parser (fgd.py:242-292, 962-1102)

The character-level lexer is an external collaborator; the parser is
modelled over its classified token stream.  `Tokenizer.expect` skips
newlines before matching (its default behaviour). -/

inductive Tok where
  | STRING (s : String)
  | PAREN_ARGS (s : String)
  | COLON
  | PLUS
  | EQUALS
  | NEWLINE
  | BRACK_OPEN
  | BRACK_CLOSE
  deriving DecidableEq, Repr

/-- `str.strip()`: trim ASCII whitespace from both ends. -/
def pyStrip (s : String) : String :=
  ⟨((s.data.dropWhile Char.isWhitespace).reverse.dropWhile
      Char.isWhitespace).reverse⟩

/-- `str.rstrip(',')`. -/
def rstripCommas (s : String) : String :=
  ⟨(s.data.reverse.dropWhile (fun c => c = ',')).reverse⟩

/-- `strings[-1] += v` on a non-empty list. -/
def appendToLast : List String → String → List String
  | [], v => [v]
  | [x], v => [x ++ v]
  | x :: xs, v => x :: appendToLast xs v

/-- Digits of a decimal literal. -/
def digitsToNat : List Char → Option Nat
  | [] => none
  | ds =>
    ds.foldl (fun acc c =>
      match acc with
      | none => none
      | some n => if c.isDigit then some (n * 10 + (c.toNat - 48)) else none)
      (some 0)

/-- `int(s)` on an optionally signed decimal literal. -/
def pyParseInt (s : String) : Except String Int :=
  let t := pyStrip s
  match t.data with
  | '-' :: ds =>
    match digitsToNat ds with
    | some n => .ok (-(n : Int))
    | none => .error "ValueError: invalid literal for int()"
  | '+' :: ds =>
    match digitsToNat ds with
    | some n => .ok (n : Int)
    | none => .error "ValueError: invalid literal for int()"
  | ds =>
    match digitsToNat ds with
    | some n => .ok (n : Int)
    | none => .error "ValueError: invalid literal for int()"

/-- `tok()`: pull the next classified token. -/
def nextTok : List Tok → Except String (Tok × List Tok)
  | [] => .error "EOF"
  | t :: rest => .ok (t, rest)

/-- `tok.expect(Token.STRING)` (newline-skipping). -/
def expectString : List Tok → Except String (String × List Tok)
  | .NEWLINE :: rest => expectString rest
  | .STRING v :: rest => .ok (v, rest)
  | _ => .error "expected STRING token"

/-- `tok.expect(Token.BRACK_OPEN)` (newline-skipping). -/
def expectBrackOpen : List Tok → Except String (List Tok)
  | .NEWLINE :: rest => expectBrackOpen rest
  | .BRACK_OPEN :: rest => .ok rest
  | _ => .error "expected BRACK_OPEN token"

theorem expectString_length_lt :
    ∀ (toks : List Tok) (v : String) (rest : List Tok),
      expectString toks = .ok (v, rest) → rest.length < toks.length := by
  intro toks
  induction toks with
  | nil =>
    intro v rest h
    simp only [expectString] at h
    cases h
  | cons t ts ih =>
    intro v rest h
    cases t <;> simp only [expectString] at h <;> try cases h
    case STRING.refl =>
      simp only [List.length_cons]
      omega
    case NEWLINE =>
      have := ih v rest h
      simp only [List.length_cons]
      omega

/-- The loop of `read_colon_list` (fgd.py:242-272): read strings
separated by colons up to the end of the line, returning the strings,
the terminating token, and the remaining stream.  Every iteration
consumes at least one token, so fuel `toks.length + 1` always suffices;
the fuel-exhausted branch is unreachable. -/
def readColonListLoop : Nat → List String → Bool → List Tok →
    Except String (List String × Tok × List Tok)
  | 0, _, _, _ => .error "internal fuel exhausted (unreachable)"
  | _ + 1, _, _, [] => .error "EOF in read_colon_list"
  | fuel + 1, strings, ready, .STRING v :: rest =>
    if ¬ready then .error "Too many strings!"
    else readColonListLoop fuel (strings ++ [v]) false rest
  | fuel + 1, strings, ready, .COLON :: rest =>
    -- `: :` means an empty string in that position.
    readColonListLoop fuel (if ready then strings ++ [""] else strings) true rest
  | fuel + 1, strings, ready, .PLUS :: rest =>
    if ready ∨ strings = [] then .error "\"+\" without a string before it!"
    else
      match expectString rest with
      | .error e => .error e
      | .ok (v, rest2) => readColonListLoop fuel (appendToLast strings v) ready rest2
  | fuel + 1, strings, ready, .NEWLINE :: rest =>
    if ready then readColonListLoop fuel strings ready rest
    else .ok (strings, .NEWLINE, rest)
  | _ + 1, strings, ready, t :: rest =>
    if ready then .error "unexpected token in read_colon_list"
    else .ok (strings, t, rest)

/-- `read_colon_list` (fgd.py:242-272). -/
def read_colon_list (had_colon : Bool) (toks : List Tok) :
    Except String (List String × Tok × List Tok) :=
  readColonListLoop (toks.length + 1) [] had_colon toks

/-- The loop of `read_tags` (fgd.py:280-291): collect case-folded,
comma-stripped tags up to the closing bracket. -/
def readTagsLoop (tags : List String) : List Tok →
    Except String (List String × List Tok)
  | [] => .error "Unclosed tags!"
  | .STRING v :: rest => readTagsLoop (tags ++ [rstripCommas (pyLower v)]) rest
  | .BRACK_CLOSE :: rest =>
    match validate_tags tags with
    | .error e => .error e
    | .ok ts => .ok (ts, rest)
  | _ :: _ => .error "unexpected token in tags"

/-- `read_tags` (fgd.py:275-292). -/
def read_tags (toks : List Tok) : Except String (List String × List Tok) :=
  readTagsLoop [] toks

/-- Is the integer a power of two? -/
def isPow2 (v : Int) : Bool := 0 < v ∧ (2 ^ natLog2 v.toNat : Nat) = v.toNat

/-- The `choices`/`spawnflags` entry-list loop of `EntityDef.parse`
(fgd.py:1028-1083).  Each iteration consumes at least one token, so the
fuel `toks.length + 1` always suffices; running out of fuel cannot happen
on any input. -/
def parseValList (val_typ : ValueTypes) (classname : String) :
    Nat → List ValListEntry → List Tok →
    Except String (List ValListEntry × List Tok)
  | 0, _, _ => .error "internal fuel exhausted (unreachable)"
  | fuel + 1, acc, toks =>
    match toks with
    | [] => .error "EOF in value list"
    | .NEWLINE :: rest => parseValList val_typ classname fuel acc rest
    | .BRACK_CLOSE :: rest => .ok (acc, rest)
    | .STRING choices_value :: rest =>
      match read_colon_list false rest with
      | .error e => .error e
      | .ok (vals, end_token, rest1) =>
        match (if end_token = .BRACK_OPEN then read_tags rest1
               else .ok ([], rest1)) with
        | .error e => .error e
        | .ok (val_tags, rest2) =>
          let entryRes : Except String ValListEntry :=
            if val_typ = .SPAWNFLAGS then
              -- the first value is an integer power of two
              match pyParseInt choices_value with
              | .error _ =>
                .error ("SpawnFlags must be integer values, not \"" ++
                  choices_value ++ "\" (in " ++ classname ++ ")!")
              | .ok cv =>
                if cv ≤ 0 then .error "ValueError: math domain error"
                else if ¬isPow2 cv then
                  .error ("SpawnFlags must be powers of two, not " ++
                    choices_value ++ " (in " ++ classname ++ ")!")
                else
                  match vals with
                  | [a, b] => .ok (.sf4 cv a (pyStrip b == "1") val_tags)
                  | [a] => .ok (.sf4 cv a true val_tags)
                  | [] => .error "expected a string"
                  | _ => .error "Too many values!"
            else
              match vals with
              | [a] => .ok (.ch3 choices_value a val_tags)
              | [] => .error "expected a string"
              | _ => .error "Too many values!"
          match entryRes with
          | .error e => .error e
          | .ok entry =>
            -- handle ] at the end of a : : line
            if end_token = .BRACK_CLOSE then .ok (acc ++ [entry], rest2)
            else parseValList val_typ classname fuel (acc ++ [entry]) rest2
    | _ :: _ => .error "unexpected token in value list"

/-- fgd.py:965-972: the optional leading `[tags]` before the value type.
Returns the tag set, the value-type token and the remaining stream. -/
def parseKVTags (val_token : Tok) (toks : List Tok) :
    Except String (List String × Tok × List Tok) :=
  if val_token = Tok.BRACK_OPEN then
    match read_tags toks with
    | .error e => .error e
    | .ok (tags, toks) =>
      match nextTok toks with
      | .error e => .error e
      | .ok (vt, toks) => .ok (tags, vt, toks)
  else .ok (([] : List String), val_token, toks)

/-- fgd.py:983-1009: the token after the `(type)` — `readonly` marker,
colon, equals (spawnflags shortcut) or newline — and the colon-separated
attribute list.  Returns `(is_readonly, attrs, has_equal, stream)`. -/
def parseKVFlagsStep (val_typ : ValueTypes) (next_token : Tok)
    (toks : List Tok) :
    Except String (Bool × List String × Tok × List Tok) :=
  match next_token with
  | Tok.STRING key_flag =>
    -- 'report' or 'readonly'
    (match read_colon_list false toks with
     | .error e => .error e
     | .ok (attrs, he, toks) =>
       .ok ((pyLower key_flag == "readonly" : Bool), attrs, he, toks))
  | Tok.COLON =>
    (match read_colon_list true toks with
     | .error e => .error e
     | .ok (attrs, he, toks) => .ok (false, attrs, he, toks))
  | Tok.EQUALS =>
    -- special case: spawnflags may skip straight to the list
    if val_typ = .SPAWNFLAGS then
      .ok (false, ([] : List String), Tok.EQUALS, toks)
    else
      (match read_colon_list false toks with
       | .error e => .error e
       | .ok (attrs, he, toks) => .ok (false, attrs, he, toks))
  | Tok.NEWLINE => .ok (false, ([] : List String), Tok.NEWLINE, toks)
  | _ => .error "unexpected token after the value type"

/-- fgd.py:1010-1022: positional interpretation of the 0-3 colon
attributes as (display name, default, description). -/
def parseKVAttrs (name : String) (attrs : List String) :
    Except String (String × String × String) :=
  match attrs with
  | [a, b, c] => .ok (a, b, c)
  | [a, b] => .ok (a, b, "")
  | [a] => .ok (a, "", "")
  | [] => .ok (name, "", "")
  | _ => .error "Too many attributes for keyvalue!"

/-- fgd.py:1024-1087: the bracketed entry list for list-typed keyvalues
(required after `=`), or `None` with `=` forbidden otherwise. -/
def parseKVList (val_typ : ValueTypes) (classname : String) (has_equal : Tok)
    (toks : List Tok) :
    Except String (Option (List ValListEntry) × List Tok) :=
  if val_typ.has_list then
    if has_equal ≠ Tok.EQUALS then
      .error ("No list for \"" ++ val_typ.value ++ "\" value type!")
    else
      match expectBrackOpen toks with
      | .error e => .error e
      | .ok toks =>
        match parseValList val_typ classname (toks.length + 1) [] toks with
        | .error e => .error e
        | .ok (vl, toks) => .ok (some vl, toks)
  else
    if has_equal = Tok.EQUALS then
      .error ("\"" ++ val_typ.value ++ "\" value types can't have lists!")
    else
      .ok ((none : Option (List ValListEntry)), toks)

/-- The keyvalue branch of `EntityDef.parse`'s body loop
(fgd.py:962-1102), beginning after the keyvalue's name token.  Returns
the constructed `KeyValues` record, its declared tag set, and the
remaining stream.  Note the construction at fgd.py:1094-1102 passes
`is_readonly == 'readonly'` — the boolean flag compared against a string
— as the readonly argument. -/
def parseKeyvalue (name : String) (classname : String) (toks : List Tok) :
    Except String (KeyValues × List String × List Tok) :=
  match nextTok toks with
  | .error e => .error e
  | .ok (val_token, toks) =>
    -- next is either the value type parens, or a tags bracket
    match parseKVTags val_token toks with
    | .error e => .error e
    | .ok (tags, val_token, toks) =>
      match val_token with
      | .PAREN_ARGS raw0 =>
        let raw := pyStrip raw0
        match VALUE_TYPE_LOOKUP (pyLower raw) with
        | none => .error ("Unknown keyvalue type \"" ++ raw ++ "\"!")
        | some val_typ =>
          match nextTok toks with
          | .error e => .error e
          | .ok (next_token, toks) =>
            match parseKVFlagsStep val_typ next_token toks with
            | .error e => .error e
            | .ok (is_readonly, attrs, has_equal, toks) =>
              match parseKVAttrs name attrs with
              | .error e => .error e
              | .ok (disp_name, default, desc) =>
                match parseKVList val_typ classname has_equal toks with
                | .error e => .error e
                | .ok (val_list, toks) =>
                  .ok (⟨name, val_typ, disp_name, default, desc, val_list,
                        .pyBool (pyEq (.pyBool is_readonly)
                          (.pyStr "readonly"))⟩, tags, toks)
      | _ => .error "expected a parenthesised value type"

/-- Inversion for `Except` bind chains. -/
theorem bind_ok_inv {α β : Type} {x : Except String α} {f : α → Except String β}
    {b : β} (h : (x >>= f) = .ok b) : ∃ a, x = .ok a ∧ f a = .ok b := by
  cases x with
  | error e => simp [Bind.bind, Except.bind] at h
  | ok a => exact ⟨a, rfl, by simpa [Bind.bind, Except.bind] using h⟩

/-- The token stream of the keyvalue line
`spawnflags(flags) = [ 1: "One" : 1  2: "Two" : 0 ]`, after the name. -/
def c7Toks : List Tok :=
  [.PAREN_ARGS "flags", .EQUALS, .BRACK_OPEN,
   .STRING "1", .COLON, .STRING "One", .COLON, .STRING "1", .NEWLINE,
   .STRING "2", .COLON, .STRING "Two", .COLON, .STRING "0", .NEWLINE,
   .BRACK_CLOSE]

/-- The `KeyValues` record that parse builds for `c7Toks`: note the
4-tuple `(bitflag, name, default, tags)` entries. -/
def c7KV : KeyValues :=
  ⟨"spawnflags", .SPAWNFLAGS, "spawnflags", "", "",
   some [.sf4 1 "One" true [], .sf4 2 "Two" false []], .pyBool false⟩

/-- C7: parsing the spawnflags entry list `[ 1: "One" : 1, 2: "Two" : 0 ]`
yields 4-tuple entries (value, name, default, tags); `KeyValues.serialise`
unpacks entries into exactly three names (`for val, name, default in
self.val_list`), so serialising the parsed record raises `ValueError`
instead of writing the claimed bytes.  On the binary-shaped 3-tuple list,
the entry bytes are as the claim describes: `0x80` (power 0, default on)
and `0x01` (power 1, default off), each followed by the name's string
reference. -/
theorem c7_spawnflags_serialise :
    parseKeyvalue "spawnflags" "my_ent" c7Toks = .ok (c7KV, [], []) ∧
    KeyValues.serialise c7KV BinStrDict.empty =
      .error "ValueError: too many values to unpack (expected 3)" ∧
    KeyValues.serialise
      ⟨"spawnflags", .SPAWNFLAGS, "spawnflags", "", "",
       some [.sf3 1 "One" true, .sf3 2 "Two" false], .pyBool false⟩
      BinStrDict.empty =
      .ok (⟨[("spawnflags", 0), ("One", 1), ("Two", 2)], 3⟩,
           [0, 0, 0, 0, 2, 2, 128, 0, 1, 1, 0, 2]) :=
  ⟨by rfl, by rfl, by rfl⟩

/-- C10: every `KeyValues` record built by the keyvalue-line parser has
`readonly = False`: the record is constructed with
`is_readonly == 'readonly'`, a boolean compared against a string, which
is always `False` — even when the `readonly` marker was detected. -/
theorem c10_parse_readonly (name classname : String) (toks : List Tok)
    (kv : KeyValues) (tags : List String) (rest : List Tok)
    (h : parseKeyvalue name classname toks = .ok (kv, tags, rest)) :
    kv.readonly = .pyBool false := by
  rw [parseKeyvalue] at h
  cases h1 : nextTok toks with
  | error e => simp only [h1] at h; cases h
  | ok p1 =>
    obtain ⟨val_token, toks1⟩ := p1
    simp only [h1] at h
    cases h2 : parseKVTags val_token toks1 with
    | error e => simp only [h2] at h; cases h
    | ok p2 =>
      obtain ⟨tags2, vt2, toks2⟩ := p2
      simp only [h2] at h
      cases vt2 <;> simp only [] at h <;> try cases h
      case PAREN_ARGS raw0 =>
        cases h3 : VALUE_TYPE_LOOKUP (pyLower (pyStrip raw0)) with
        | none => simp only [h3] at h; cases h
        | some val_typ =>
          simp only [h3] at h
          cases h4 : nextTok toks2 with
          | error e => simp only [h4] at h; cases h
          | ok p4 =>
            obtain ⟨next_token, toks4⟩ := p4
            simp only [h4] at h
            cases h5 : parseKVFlagsStep val_typ next_token toks4 with
            | error e => simp only [h5] at h; cases h
            | ok p5 =>
              obtain ⟨iro, attrs, he, toks5⟩ := p5
              simp only [h5] at h
              cases h6 : parseKVAttrs name attrs with
              | error e => simp only [h6] at h; cases h
              | ok p6 =>
                obtain ⟨disp, dflt, dsc⟩ := p6
                simp only [h6] at h
                cases h7 : parseKVList val_typ classname he toks5 with
                | error e => simp only [h7] at h; cases h
                | ok p7 =>
                  obtain ⟨vl, toks7⟩ := p7
                  simp only [h7] at h
                  cases h
                  rfl

/-- The token stream of the keyvalue line
`field(string) readonly : "Display"`, after the name. -/
def c10Toks : List Tok :=
  [.PAREN_ARGS "string", .STRING "readonly", .COLON, .STRING "Display",
   .NEWLINE]

/-- Witness for `c10_parse_readonly`: a line carrying the `readonly`
marker still parses to a record with `readonly = False`. -/
theorem c10_parse_readonly_witness :
    parseKeyvalue "field" "my_ent" c10Toks =
      .ok (⟨"field", .STRING, "Display", "", "", none, .pyBool false⟩,
           [], []) ∧
    (⟨"field", .STRING, "Display", "", "", none,
      .pyBool false⟩ : KeyValues).readonly = .pyBool false :=
  ⟨by rfl, c10_parse_readonly "field" "my_ent" c10Toks _ [] [] (by rfl)⟩

/-! ## The entity view (fgd.py:695-772)

`_EntityView.__getitem__` walks the live object graph of an entity and
its (resolved) bases.  The object graph reachable from a well-formed
database is acyclic (the view never terminates otherwise), so it is
embedded as a tree: `EntityDefT` with structural base children.  A
`tag map` (Python `name -> {tags} -> value` dict) is an insertion-ordered
association list whose keys are canonical tag sets. -/

/-- A `{tags} -> value` dict, in insertion order. -/
abbrev TagMap (α : Type) : Type := List (List String × α)

/-- A `name -> {tags} -> value` dict, in insertion order.  Keys are
case-folded names. -/
abbrev AttrMap (α : Type) : Type := List (String × TagMap α)

/-- A tree-shaped `EntityDef`: entity type, classname, the three
attribute maps, the keyvalue ordering list, resolved bases (as subtrees)
and description. -/
inductive EntityDefT where
  | mk (type : EntityTypes) (classname : String)
       (keyvalues : AttrMap KeyValues)
       (inputs : AttrMap IODef)
       (outputs : AttrMap IODef)
       (kv_order : List String)
       (bases : List EntityDefT)
       (desc : String)

def EntityDefT.keyvalues : EntityDefT → AttrMap KeyValues
  | .mk _ _ kv _ _ _ _ _ => kv

def EntityDefT.inputs : EntityDefT → AttrMap IODef
  | .mk _ _ _ inp _ _ _ _ => inp

def EntityDefT.outputs : EntityDefT → AttrMap IODef
  | .mk _ _ _ _ out _ _ _ => out

def EntityDefT.bases : EntityDefT → List EntityDefT
  | .mk _ _ _ _ _ _ b _ => b

mutual
/-- `_EntityView._maps` (fgd.py:717-724): the entity's own attribute map
followed by every base's maps, depth-first in declared order. -/
def entMapsBy {α : Type} (sel : EntityDefT → AttrMap α) :
    EntityDefT → List (AttrMap α)
  | .mk ty cn kv inp out ko bases desc =>
    sel (.mk ty cn kv inp out ko bases desc) :: entMapsByList sel bases

/-- `yield from self._maps(base)` over the base list. -/
def entMapsByList {α : Type} (sel : EntityDefT → AttrMap α) :
    List EntityDefT → List (AttrMap α)
  | [] => []
  | b :: rest => entMapsBy sel b ++ entMapsByList sel rest
end

/-- Insertion before the first strictly shorter key: the element lands
*after* every entry of equal or greater tag-set cardinality. -/
def insertByLenDesc {α : Type} (x : List String × α) :
    TagMap α → TagMap α
  | [] => [x]
  | y :: ys =>
    if x.1.length ≤ y.1.length then y :: insertByLenDesc x ys
    else x :: y :: ys

/-- `sorted(tag_map.items(), key=lambda t: len(t[0]), reverse=True)`
(fgd.py:749-752): descending sort by tag-set cardinality.  Python's
`sorted` is stable, so entries of equal cardinality keep the dict's
insertion order; inserting the entries left to right, each after all
entries of equal or greater cardinality, reproduces exactly that. -/
def sortTagMapDesc {α : Type} (tm : TagMap α) : TagMap α :=
  tm.foldl (fun acc x => insertByLenDesc x acc) []

/-- The inner loop of `__getitem__` (fgd.py:749-755): the first sorted
entry whose tag set satisfies the query. -/
def findMatch {α : Type} : TagMap α → List String → Option α
  | [], _ => none
  | (tags, v) :: rest, search =>
    if match_tags search tags then some v else findMatch rest search

/-- The outer loop of `__getitem__` (fgd.py:742-756): walk the maps; a
map that lacks the name — or whose entries all fail the query — is
skipped and the walk continues. -/
def viewGetItemMaps {α : Type} : List (AttrMap α) → String → List String →
    Option α
  | [], _, _ => none
  | m :: rest, name, search =>
    match List.lookup name m with
    | none => viewGetItemMaps rest name search
    | some tag_map =>
      match findMatch (sortTagMapDesc tag_map) search with
      | some v => some v
      | none => viewGetItemMaps rest name search

/-- `_EntityView.__getitem__` with a `(name, tags)` key (fgd.py:726-756):
case-folds the name and the query tags, then walks the chain.  A `none`
result is the `KeyError`.  A bare-name lookup is the `search = []`
case. -/
def viewGetItem {α : Type} (sel : EntityDefT → AttrMap α) (e : EntityDefT)
    (name : String) (search_tags : List String) : Option α :=
  viewGetItemMaps (entMapsBy sel e) (pyLower name)
    (mkTagSet (search_tags.map pyLower))

/-- The claim's literal reading: commit to the *first map containing the
name* and search only there.  (Second definition, following the claim's
words, for comparison with the source's behaviour.) -/
def claimLookupFirstContaining {α : Type} :
    List (AttrMap α) → String → List String → Option α
  | [], _, _ => none
  | m :: rest, name, search =>
    match List.lookup name m with
    | none => claimLookupFirstContaining rest name search
    | some tag_map => findMatch (sortTagMapDesc tag_map) search

theorem viewGetItemMaps_eq {α : Type} (name : String) (search : List String) :
    ∀ maps : List (AttrMap α),
      viewGetItemMaps maps name search =
        (maps.filterMap (fun m =>
          match List.lookup name m with
          | none => none
          | some tm => findMatch (sortTagMapDesc tm) search)).head? := by
  intro maps
  induction maps with
  | nil => rfl
  | cons m rest ih =>
    rw [viewGetItemMaps]
    cases h : List.lookup name m with
    | none => simp only [List.filterMap_cons, h, ih]
    | some tm =>
      cases hf : findMatch (sortTagMapDesc tm) search with
      | none => simp only [List.filterMap_cons, h, hf, ih]
      | some v => simp only [List.filterMap_cons, h, hf, List.head?_cons]

/-- C3 amended: the view lookup walks the entity and its bases
depth-first in declared order (`entMapsBy`), case-folds the name and the
query tags, and returns the value of the first *satisfying* map in the
chain: the first map that both contains the name and, after the stable
descending-cardinality sort of its `(tag set, value)` pairs, has an entry
whose tag set satisfies `match_tags`; a map containing the name but with
no satisfying entry is skipped and the walk continues.  The `KeyError`
(`none`) happens exactly when no map in the chain yields a satisfying
entry. -/
theorem c3_view_lookup {α : Type} (sel : EntityDefT → AttrMap α)
    (e : EntityDefT) (name : String) (search_tags : List String) :
    viewGetItem sel e name search_tags =
      ((entMapsBy sel e).filterMap (fun m =>
        match List.lookup (pyLower name) m with
        | none => none
        | some tm =>
          findMatch (sortTagMapDesc tm)
            (mkTagSet (search_tags.map pyLower)))).head? ∧
    (viewGetItem sel e name search_tags = none ↔
      ∀ m ∈ entMapsBy sel e, ∀ tm, List.lookup (pyLower name) m = some tm →
        findMatch (sortTagMapDesc tm)
          (mkTagSet (search_tags.map pyLower)) = none) := by
  have heq := viewGetItemMaps_eq (α := α) (pyLower name)
    (mkTagSet (search_tags.map pyLower)) (entMapsBy sel e)
  refine ⟨heq, ?_⟩
  rw [viewGetItem, heq, List.head?_eq_none_iff, List.filterMap_eq_nil]
  constructor
  · intro h m hm tm htm
    have := h m hm
    rw [htm] at this
    exact this
  · intro h m hm
    cases htm : List.lookup (pyLower name) m with
    | none => rfl
    | some tm => exact h m hm tm htm

/-- Keyvalue returned by the derived entity's own (tagged) entry. -/
def c3KVa : KeyValues := ⟨"x", .STRING, "A", "", "", none, .pyBool false⟩

/-- Keyvalue stored on the base under an untagged entry. -/
def c3KVb : KeyValues := ⟨"x", .STRING, "B", "", "", none, .pyBool false⟩

/-- A base whose `x` keyvalue is untagged. -/
def c3Base : EntityDefT :=
  .mk .BASE "base1" [("x", [([], c3KVb)])] [] [] [] [] ""

/-- A derived entity whose own `x` keyvalue requires the `+A` tag. -/
def c3Ent : EntityDefT :=
  .mk .POINT "my_ent" [("x", [(["+A"], c3KVa)])] [] [] [] [c3Base] ""

/-- C3 counterexample: with an empty query, the first map containing
`x` (the entity's own) has no satisfying entry — its only entry demands
`+A` — yet the lookup does *not* raise: it falls through to the base's
map and returns its value.  The claim's "at the first attribute map
containing the name … returns" reading predicts `KeyError` here. -/
theorem c3_counterexample :
    viewGetItem EntityDefT.keyvalues c3Ent "x" [] = some c3KVb ∧
    claimLookupFirstContaining (entMapsBy EntityDefT.keyvalues c3Ent)
      (pyLower "x") (mkTagSet []) = none := by
  constructor
  · rfl
  · rfl

/-! ## The database arena (fgd.py:783-807, 1299-1447)

The database owns every `EntityDef`; a *resolved* base is (a reference
to) the database entry stored under its case-folded classname, so bases
are embedded as keys into the entity dictionary (the arena
representation).  `collapse_bases` iterates Python *sets* of entities,
whose iteration order is arbitrary; the embedding therefore takes the
per-pass iteration order as an explicit parameter `order`. -/

inductive BaseRef where
  /-- A base still stored as a classname string (before `apply_bases`). -/
  | unresolved (name : String)
  /-- A resolved base: the database entry under this case-folded key. -/
  | resolved (key : String)
  deriving DecidableEq, Repr

/-- `EntityDef` (fgd.py:783-807), arena form (helpers are out of the
claims' scope and omitted). -/
structure Ent where
  type : EntityTypes
  classname : String
  keyvalues : AttrMap KeyValues
  inputs : AttrMap IODef
  outputs : AttrMap IODef
  kv_order : List String
  bases : List BaseRef
  desc : String
  deriving DecidableEq, Repr

/-- The `FGD` database (fgd.py:1299-1310): case-folded classname →
entity, in insertion order, plus the map-size bounds. -/
structure FGD where
  entities : List (String × Ent)
  map_size_min : Int
  map_size_max : Int
  deriving DecidableEq, Repr

/-- Python dict assignment: replace in place, else append. -/
def dictInsert (l : List (String × Ent)) (k : String) (v : Ent) :
    List (String × Ent) :=
  if l.any (fun p => p.1 = k) then
    l.map (fun p => if p.1 = k then (k, v) else p)
  else l ++ [(k, v)]

/-- `FGD.apply_bases` (fgd.py:1344-1368): resolve every base still
stored as a string against the database, by case-folded lookup. -/
def apply_bases (db : FGD) : Except String FGD := do
  let entities' ← db.entities.mapM (fun (p : String × Ent) => do
    let new_bases ← p.2.bases.mapM (fun b =>
      match b with
      | .resolved k => pure (BaseRef.resolved k)
      | .unresolved s =>
        if (List.lookup (pyLower s) db.entities).isSome then
          pure (BaseRef.resolved (pyLower s))
        else
          Except.error ("Unknown base (" ++ s ++ ") for " ++ p.2.classname))
    pure (p.1, { p.2 with bases := new_bases }))
  pure { db with entities := entities' }

/-! ### `collapse_bases` (fgd.py:1370-1447) -/

/-- Replace-or-append under a tag-set key (Python dict assignment). -/
def tagMapSet {α : Type} (m : TagMap α) (k : List String) (v : α) :
    TagMap α :=
  if m.any (fun p => p.1 = k) then
    m.map (fun p => if p.1 = k then (k, v) else p)
  else m ++ [(k, v)]

/-- Replace-or-append under a name key (Python dict assignment /
`setdefault`). -/
def attrMapSet {α : Type} (m : AttrMap α) (k : String) (v : TagMap α) :
    AttrMap α :=
  if m.any (fun p => p.1 = k) then
    m.map (fun p => if p.1 = k then (k, v) else p)
  else m ++ [(k, v)]

/-- fgd.py:1416-1418: extend the target value list with the base's,
skipping entries already present. -/
def mergeValList (targ : List ValListEntry) (src : List ValListEntry) :
    List ValListEntry :=
  src.foldl (fun acc v => if v ∈ acc then acc else acc ++ [v]) targ

/-- fgd.py:1408-1418: merge one base tag-map into the entity's tag-map
for the same keyvalue name.  A `(tags)` key already present is kept; a
missing key gets a copy of the base's record; when both records are
list-typed and the entity's list is truthy, the lists are unioned. -/
def mergeKVTagMap (ent_map : TagMap KeyValues) :
    TagMap KeyValues → Except String (TagMap KeyValues)
  | [] => .ok ent_map
  | (tag, kv) :: rest =>
    match List.lookup tag ent_map with
    | none => mergeKVTagMap (ent_map ++ [(tag, kv.copy)]) rest
    | some targ =>
      if kv.type.has_list then
        match targ.val_list with
        | some tl =>
          if tl ≠ [] then
            match kv.val_list with
            | none => .error "TypeError: NoneType object is not iterable"
            | some sl =>
              mergeKVTagMap
                (tagMapSet ent_map tag
                  { targ with val_list := some (mergeValList tl sl) }) rest
          else mergeKVTagMap ent_map rest
        | none => mergeKVTagMap ent_map rest
      else mergeKVTagMap ent_map rest

/-- fgd.py:1428-1432: merge one base IO tag-map into the entity's. -/
def mergeIOTagMap (ent_map : TagMap IODef) : TagMap IODef → TagMap IODef
  | [] => ent_map
  | (tag, io) :: rest =>
    match List.lookup tag ent_map with
    | none => mergeIOTagMap (ent_map ++ [(tag, io.copy)]) rest
    | some _ => mergeIOTagMap ent_map rest

/-- fgd.py:1405-1422: merge a base's keyvalue map into the entity's,
tracking the names newly introduced by bases (`base_kv`) in declaration
order. -/
def mergeBaseKeyvalues (entkv : AttrMap KeyValues)
    (keyvalue_names : List String) (base_kv : List String) :
    AttrMap KeyValues →
    Except String (AttrMap KeyValues × List String × List String)
  | [] => .ok (entkv, keyvalue_names, base_kv)
  | (name, base_kv_map) :: rest =>
    -- `ent.keyvalues.setdefault(name, {})`
    match mergeKVTagMap ((List.lookup name entkv).getD []) base_kv_map with
    | .error e => .error e
    | .ok merged =>
      let entkv' := attrMapSet entkv name merged
      if name ∈ keyvalue_names then
        mergeBaseKeyvalues entkv' keyvalue_names base_kv rest
      else
        mergeBaseKeyvalues entkv' (keyvalue_names ++ [name])
          (base_kv ++ [name]) rest

/-- fgd.py:1424-1432: merge a base's input/output map into the
entity's. -/
def mergeBaseIo (entio : AttrMap IODef) : AttrMap IODef → AttrMap IODef
  | [] => entio
  | (name, btm) :: rest =>
    mergeBaseIo (attrMapSet entio name
      (mergeIOTagMap ((List.lookup name entio).getD []) btm)) rest

/-- fgd.py:1405-1432: fold every base's keyvalues and IO into the
entity. -/
def collapseMergeBases (db : List (String × Ent)) :
    List BaseRef → Ent → List String → List String →
    Except String (Ent × List String)
  | [], e, _, base_kv => .ok (e, base_kv)
  | .unresolved s :: _, _, _, _ =>
    .error ("Unevaluated base: " ++ s)
  | .resolved bk :: rest, e, kn, base_kv =>
    match List.lookup bk db with
    | none => .error "dangling base reference"
    | some be =>
      match mergeBaseKeyvalues e.keyvalues kn base_kv be.keyvalues with
      | .error err => .error err
      | .ok (kv', kn', bkv') =>
        collapseMergeBases db rest
          { e with
            keyvalues := kv',
            inputs := mergeBaseIo e.inputs be.inputs,
            outputs := mergeBaseIo e.outputs be.outputs } kn' bkv'

/-- fgd.py:1386-1395: scan an entity's bases — a string base is fatal, a
base not yet done is added to `deferred` and makes the entity not
ready. -/
def scanBases (done : List String) :
    List BaseRef → List String → Bool →
    Except String (List String × Bool)
  | [], deferred, ready => .ok (deferred, ready)
  | .unresolved s :: _, _, _ => .error ("Unevaluated base: " ++ s)
  | .resolved bk :: rest, deferred, ready =>
    if bk ∈ done then scanBases done rest deferred ready
    else scanBases done rest (addUnique deferred bk) false

/-- One `for ent in todo` pass of `collapse_bases` (fgd.py:1381-1436),
iterating the given key sequence.  Entities whose bases are all done are
merged and their base list cleared; the rest land in `deferred`.  An
error carries the database state reached so far (Python mutates in
place). -/
def collapsePass (db : List (String × Ent)) :
    List String → List String → List String →
    Except (String × List (String × Ent))
      (List (String × Ent) × List String × List String)
  | [], deferred, done => .ok (db, deferred, done)
  | k :: ks, deferred, done =>
    match List.lookup k db with
    | none => .error ("missing entity", db)
    | some e =>
      if e.bases = [] then
        collapsePass db ks deferred (addUnique done k)
      else
        match scanBases done e.bases deferred true with
        | .error err => .error (err, db)
        | .ok (deferred', ready) =>
          if ¬ready then
            collapsePass db ks (addUnique deferred' k) done
          else
            -- all of this entity's bases are collapsed; collapse it
            match collapseMergeBases db e.bases e e.kv_order [] with
            | .error err => .error (err, db)
            | .ok (e', base_kv) =>
              collapsePass
                (dictInsert db k
                  { e' with kv_order := base_kv ++ e'.kv_order, bases := [] })
                ks deferred' (addUnique done k)

/-- Set equality of two key lists (Python `todo == deferred` on sets). -/
def eqAsSets (a b : List String) : Bool :=
  a.all (· ∈ b) && b.all (· ∈ a)

/-- The `while todo:` loop of `collapse_bases` (fgd.py:1379-1447).  The
pass order over each todo set is supplied by `order`; a pass with no
progress (`todo == deferred` as sets) raises the cycle error.  Errors
carry the database state at the raise (Python mutates in place).  Each
successful pass strictly shrinks `todo`, so fuel `|db| + 1` always
suffices. -/
def collapseLoop (order : List String → List String) :
    Nat → List (String × Ent) → List String → List String →
    Except (String × List (String × Ent)) (List (String × Ent))
  | 0, db, _, _ => .error ("internal fuel exhausted (unreachable)", db)
  | fuel + 1, db, todo, done =>
    if todo = [] then .ok db
    else
      match collapsePass db (order todo) [] done with
      | .error (e, dbe) => .error (e, dbe)
      | .ok (db', deferred, done') =>
        if eqAsSets todo deferred then
          -- all the entities have a dependency on another
          .error ("Loop in bases!", db')
        else
          collapseLoop order fuel db' deferred done'

/-- `FGD.collapse_bases` (fgd.py:1370-1447). -/
def collapse_bases (order : List String → List String) (db : FGD) :
    Except (String × FGD) FGD :=
  match collapseLoop order (db.entities.length + 1) db.entities
      (db.entities.map Prod.fst) [] with
  | .ok ents => .ok { db with entities := ents }
  | .error (e, ents) => .error (e, { db with entities := ents })

/-! ## C5: the two-entity collapse example -/

/-- `"field"(integer) : "Field" : "5"` on `my_ent`. -/
def c5FieldKV : KeyValues := ⟨"field", .INT, "Field", "5", "", none, .pyBool false⟩

/-- `"other"(string) : "Other" : "x"` on `Base1`. -/
def c5OtherKV : KeyValues := ⟨"other", .STRING, "Other", "x", "", none, .pyBool false⟩

/-- `@PointClass base(Base1) = my_ent : "desc" [ "field"(integer) … ]`. -/
def c5MyEnt : Ent :=
  ⟨.POINT, "my_ent", [("field", [([], c5FieldKV)])], [], [], ["field"],
   [.unresolved "Base1"], "desc"⟩

/-- `@BaseClass = Base1 [ "other"(string) … ]`. -/
def c5Base1 : Ent :=
  ⟨.BASE, "Base1", [("other", [([], c5OtherKV)])], [], [], ["other"], [], ""⟩

/-- The parsed database of the example. -/
def c5DB : FGD := ⟨[("my_ent", c5MyEnt), ("base1", c5Base1)], 0, 0⟩

/-- The database after `apply_bases`. -/
def c5Resolved : FGD :=
  ⟨[("my_ent", { c5MyEnt with bases := [.resolved "base1"] }),
    ("base1", c5Base1)], 0, 0⟩

/-- `my_ent` after a successful collapse: `other` merged in,
`kv_order = ["other", "field"]`, bases cleared. -/
def c5MyCollapsed : Ent :=
  { c5MyEnt with
    keyvalues := [("field", [([], c5FieldKV)]), ("other", [([], c5OtherKV)])],
    kv_order := ["other", "field"],
    bases := [] }

/-- C5: on the claim's two-entity database, `apply_bases` resolves the
base, and `collapse_bases` produces `kv_order = ["other", "field"]` with
an empty base list **only when the set-iteration order visits `Base1`
before `my_ent`** (modelled by `List.reverse` over the db-ordered todo
list).  Under the other admissible set order (`id`: `my_ent` first),
`Base1` is put into `deferred` before it is processed into `done`, the
pass ends with `deferred == todo`, and the code raises the spurious
`"Loop in bases!"` error on this acyclic database. -/
theorem c5_collapse_example :
    apply_bases c5DB = .ok c5Resolved ∧
    collapse_bases List.reverse c5Resolved =
      .ok ⟨[("my_ent", c5MyCollapsed), ("base1", c5Base1)], 0, 0⟩ ∧
    collapse_bases id c5Resolved = .error ("Loop in bases!", c5Resolved) :=
  ⟨by rfl, by rfl, by rfl⟩

/-! ## C9: collapse is a no-op once bases are empty -/

theorem lookup_some_of_mem_keys {k : String} :
    ∀ l : List (String × Ent), k ∈ l.map Prod.fst →
      ∃ v, List.lookup k l = some v := by
  intro l
  induction l with
  | nil => intro h; cases h
  | cons p rest ih =>
    intro h
    by_cases hk : k = p.1
    · exact ⟨p.2, by simp [List.lookup, hk]⟩
    · have : k ∈ rest.map Prod.fst := by
        rcases List.mem_cons.1 h with h1 | h1
        · exact absurd h1 hk
        · exact h1
      rcases ih this with ⟨v, hv⟩
      exact ⟨v, by simp [List.lookup, beq_eq_false_iff_ne.2 hk, hv]⟩

theorem mem_of_lookup_eq_some {k : String} {v : Ent} :
    ∀ l : List (String × Ent), List.lookup k l = some v → (k, v) ∈ l := by
  intro l
  induction l with
  | nil => intro h; cases h
  | cons p rest ih =>
    intro h
    by_cases hk : k = p.1
    · have hbe : (k == p.1) = true := beq_iff_eq.2 hk
      simp only [List.lookup, hbe] at h
      cases h
      exact List.mem_cons.2 (Or.inl (by rw [hk]))
    · have hbe : (k == p.1) = false := beq_eq_false_iff_ne.2 hk
      simp only [List.lookup, hbe] at h
      exact List.mem_cons_of_mem _ (ih h)

/-- A pass over entities with no bases does nothing but mark them
done. -/
theorem collapsePass_all_empty (db : List (String × Ent))
    (hempty : ∀ p ∈ db, (p.2 : Ent).bases = ([] : List BaseRef)) :
    ∀ (iter : List String), (∀ k ∈ iter, k ∈ db.map Prod.fst) →
      ∀ deferred done,
        collapsePass db iter deferred done =
          .ok (db, deferred, iter.foldl addUnique done) := by
  intro iter
  induction iter with
  | nil => intro _ deferred done; rfl
  | cons k ks ih =>
    intro hmem deferred done
    rcases lookup_some_of_mem_keys db (hmem k (by simp)) with ⟨e, he⟩
    have hbe : e.bases = [] := hempty (k, e) (mem_of_lookup_eq_some db he)
    rw [collapsePass, he]
    simp only [hbe, if_pos rfl]
    rw [List.foldl_cons]
    exact ih (fun x hx => hmem x (List.mem_cons_of_mem _ hx)) deferred
      (addUnique done k)

/-- C9: for a database in which every entity's base list is already
empty (the state a successful `collapse_bases` leaves behind), running
`collapse_bases` again — under any set-iteration order — succeeds and
changes nothing: no entity's keyvalues, inputs, outputs, `kv_order` or
base list is touched. -/
theorem c9_collapse_idempotent (order : List String → List String)
    (db : FGD)
    (horder : ∀ l : List String, ∀ k ∈ order l, k ∈ l)
    (hempty : ∀ p ∈ db.entities, (p.2 : Ent).bases = ([] : List BaseRef)) :
    collapse_bases order db = .ok db := by
  obtain ⟨ents, mn, mx⟩ := db
  rw [collapse_bases]
  cases ents with
  | nil => rfl
  | cons p rest =>
    rw [collapseLoop, if_neg (by simp)]
    simp only [collapsePass_all_empty (p :: rest) hempty
      (order ((p :: rest).map Prod.fst)) (fun k hk => horder _ k hk) [] []]
    have hne : eqAsSets ((p :: rest).map Prod.fst) [] = false := by
      rw [eqAsSets]
      simp
    rw [hne]
    simp only [Bool.false_eq_true, if_false]
    simp only [List.length_cons]
    rw [collapseLoop]
    simp

/-! ## C4: a base cycle always raises the cycle error -/

/-- Witness for `c9_collapse_idempotent` at a one-entity database. -/
theorem c9_collapse_idempotent_witness :
    collapse_bases id ⟨[("e", ⟨.POINT, "e", [], [], [], [], [], ""⟩)], 0, 0⟩ =
      .ok ⟨[("e", ⟨.POINT, "e", [], [], [], [], [], ""⟩)], 0, 0⟩ :=
  c9_collapse_idempotent id _ (fun _ k hk => hk)
    (by intro p hp; rcases List.mem_singleton.1 hp with rfl; rfl)

theorem addUnique_nodup {acc : List String} (h : acc.Nodup) (s : String) :
    (addUnique acc s).Nodup := by
  rw [addUnique]
  split
  · exact h
  · next hs => simpa [List.nodup_append] using ⟨h, hs⟩

theorem dictInsert_keys_of_mem {l : List (String × Ent)} {k : String}
    (hk : k ∈ l.map Prod.fst) (v : Ent) :
    (dictInsert l k v).map Prod.fst = l.map Prod.fst := by
  rw [dictInsert, if_pos]
  · rw [List.map_map, List.map_congr_left]
    intro p _
    by_cases hp : p.1 = k
    · simp [hp]
    · simp [hp]
  · rcases List.mem_map.1 hk with ⟨p, hp, hfst⟩
    rw [List.any_eq_true]
    exact ⟨p, hp, by simp [hfst]⟩

theorem lookup_map_replace {k k' : String} (hne : k' ≠ k) (v : Ent) :
    ∀ l : List (String × Ent),
      List.lookup k' (l.map fun p => if p.1 = k then (k, v) else p) =
        List.lookup k' l
  | [] => rfl
  | p :: rest => by
    by_cases hp : p.1 = k
    · rw [List.map_cons, if_pos hp]
      simp only [List.lookup]
      rw [beq_eq_false_iff_ne.2 hne, beq_eq_false_iff_ne.2 (hp ▸ hne)]
      exact lookup_map_replace hne v rest
    · rw [List.map_cons, if_neg hp]
      simp only [List.lookup]
      cases hbe : (k' == p.1) with
      | true => rfl
      | false => exact lookup_map_replace hne v rest

theorem lookup_append_single {k k' : String} (hne : k' ≠ k) (v : Ent) :
    ∀ l : List (String × Ent),
      List.lookup k' (l ++ [(k, v)]) = List.lookup k' l
  | [] => by
    simp only [List.nil_append, List.lookup]
    rw [beq_eq_false_iff_ne.2 hne]
  | p :: rest => by
    simp only [List.cons_append, List.lookup]
    cases hbe : (k' == p.1) with
    | true => rfl
    | false => exact lookup_append_single hne v rest

theorem lookup_dictInsert_ne {l : List (String × Ent)} {k k' : String}
    (hne : k' ≠ k) (v : Ent) :
    List.lookup k' (dictInsert l k v) = List.lookup k' l := by
  rw [dictInsert]
  split
  · exact lookup_map_replace hne v l
  · exact lookup_append_single hne v l

theorem mem_dictInsert {l : List (String × Ent)} {k : String} {v : Ent}
    {p : String × Ent} (hp : p ∈ dictInsert l k v) :
    p ∈ l ∨ p = (k, v) := by
  rw [dictInsert] at hp
  split at hp
  · rcases List.mem_map.1 hp with ⟨q, hq, hqe⟩
    by_cases hq1 : q.1 = k
    · rw [if_pos hq1] at hqe
      exact Or.inr hqe.symm
    · rw [if_neg hq1] at hqe
      exact Or.inl (hqe ▸ hq)
  · rcases List.mem_append.1 hp with h | h
    · exact Or.inl h
    · simp only [List.mem_singleton] at h
      exact Or.inr h

theorem nodup_keys_dictInsert {l : List (String × Ent)} {k : String}
    (hnd : (l.map Prod.fst).Nodup) (hk : k ∈ l.map Prod.fst) (v : Ent) :
    ((dictInsert l k v).map Prod.fst).Nodup := by
  rw [dictInsert_keys_of_mem hk]
  exact hnd

theorem lookup_mem_generic {α β : Type} [BEq α] [LawfulBEq α] {k : α} {v : β} :
    ∀ {l : List (α × β)}, List.lookup k l = some v → (k, v) ∈ l := by
  intro l
  induction l with
  | nil => intro h; cases h
  | cons p rest ih =>
    intro h
    simp only [List.lookup] at h
    cases hbe : (k == p.1) with
    | true =>
      rw [hbe] at h
      cases h
      have : k = p.1 := eq_of_beq hbe
      exact List.mem_cons.2 (Or.inl (by rw [this]))
    | false =>
      rw [hbe] at h
      exact List.mem_cons.2 (Or.inr (ih h))

/-- A list-typed keyvalue carries a non-empty value list.  `parse` and
`unserialise` both populate `val_list` for list types; emptiness would
make `copy` degrade it to `None`, which the merge cannot consume. -/
def KVOk (kv : KeyValues) : Prop :=
  kv.type.has_list = true → ∃ l, kv.val_list = some l ∧ l ≠ []

def TagMapOk (m : TagMap KeyValues) : Prop := ∀ p ∈ m, KVOk p.2

def AttrMapOk (m : AttrMap KeyValues) : Prop := ∀ q ∈ m, TagMapOk q.2

/-- Every keyvalue of every entity satisfies `KVOk`. -/
def DbOk (ents : List (String × Ent)) : Prop :=
  ∀ p ∈ ents, AttrMapOk (p.2 : Ent).keyvalues

/-- Every base of every entity is a resolved key present in the
database — the state `apply_bases` establishes. -/
def DbBasesOk (ents : List (String × Ent)) : Prop :=
  ∀ p ∈ ents, ∀ b ∈ (p.2 : Ent).bases,
    ∃ k, b = BaseRef.resolved k ∧ (List.lookup k ents).isSome = true

theorem KVOk_copy {kv : KeyValues} (h : KVOk kv) : KVOk kv.copy := by
  intro ht
  rcases h ht with ⟨l, hl, hne⟩
  refine ⟨l, ?_, hne⟩
  rw [KeyValues.copy]
  simp only [hl]
  rw [if_pos hne]

theorem mergeValList_ne_nil {targ : List ValListEntry} (h : targ ≠ []) :
    ∀ src : List ValListEntry, mergeValList targ src ≠ [] := by
  have key : ∀ (src acc : List ValListEntry), acc ≠ [] →
      src.foldl (fun acc v => if v ∈ acc then acc else acc ++ [v]) acc ≠ [] := by
    intro src
    induction src with
    | nil => intro acc h; exact h
    | cons v rest ih =>
      intro acc hacc
      rw [List.foldl_cons]
      refine ih _ ?_
      split
      · exact hacc
      · simp
  intro src
  exact key src targ h

theorem mem_tagMapSet {α : Type} {m : TagMap α} {k : List String} {v : α}
    {p : List String × α} (hp : p ∈ tagMapSet m k v) :
    p ∈ m ∨ p = (k, v) := by
  rw [tagMapSet] at hp
  split at hp
  · rcases List.mem_map.1 hp with ⟨q, hq, hqe⟩
    by_cases hq1 : q.1 = k
    · rw [if_pos hq1] at hqe
      exact Or.inr hqe.symm
    · rw [if_neg hq1] at hqe
      exact Or.inl (hqe ▸ hq)
  · rcases List.mem_append.1 hp with h | h
    · exact Or.inl h
    · simp only [List.mem_singleton] at h
      exact Or.inr h

theorem mem_attrMapSet {α : Type} {m : AttrMap α} {k : String} {v : TagMap α}
    {p : String × TagMap α} (hp : p ∈ attrMapSet m k v) :
    p ∈ m ∨ p = (k, v) := by
  rw [attrMapSet] at hp
  split at hp
  · rcases List.mem_map.1 hp with ⟨q, hq, hqe⟩
    by_cases hq1 : q.1 = k
    · rw [if_pos hq1] at hqe
      exact Or.inr hqe.symm
    · rw [if_neg hq1] at hqe
      exact Or.inl (hqe ▸ hq)
  · rcases List.mem_append.1 hp with h | h
    · exact Or.inl h
    · simp only [List.mem_singleton] at h
      exact Or.inr h

theorem mergeKVTagMap_ok :
    ∀ (bm ent_map : TagMap KeyValues), TagMapOk ent_map → TagMapOk bm →
      ∃ m', mergeKVTagMap ent_map bm = .ok m' ∧ TagMapOk m' := by
  intro bm
  induction bm with
  | nil =>
    intro ent_map hent _
    exact ⟨ent_map, rfl, hent⟩
  | cons p rest ih =>
    intro ent_map hent hbm
    obtain ⟨tag, kv⟩ := p
    have hkv : KVOk kv := hbm _ (List.mem_cons_self _ _)
    have hrest : TagMapOk rest := fun q hq => hbm q (List.mem_cons.2 (Or.inr hq))
    rw [mergeKVTagMap]
    cases hlk : List.lookup tag ent_map with
    | none =>
      refine ih (ent_map ++ [(tag, kv.copy)]) ?_ hrest
      intro q hq
      rcases List.mem_append.1 hq with h | h
      · exact hent q h
      · simp only [List.mem_singleton] at h
        rw [h]
        exact KVOk_copy hkv
    | some targ =>
      by_cases ht : kv.type.has_list = true
      · simp only [if_pos ht]
        cases htl : targ.val_list with
        | none => exact ih ent_map hent hrest
        | some tl =>
          by_cases htl2 : tl ≠ []
          · simp only [if_pos htl2]
            rcases hkv ht with ⟨sl, hsl, hslne⟩
            simp only [hsl]
            refine ih _ ?_ hrest
            intro q hq
            rcases mem_tagMapSet hq with h | h
            · exact hent q h
            · rw [h]
              intro _
              exact ⟨mergeValList tl sl, rfl, mergeValList_ne_nil htl2 sl⟩
          · simp only [if_neg htl2]
            exact ih ent_map hent hrest
      · simp only [if_neg ht]
        exact ih ent_map hent hrest

theorem mergeBaseKeyvalues_ok :
    ∀ (bm : AttrMap KeyValues) (entkv : AttrMap KeyValues)
      (kn bkv : List String), AttrMapOk entkv → AttrMapOk bm →
      ∃ out, mergeBaseKeyvalues entkv kn bkv bm = .ok out ∧
        AttrMapOk out.1 := by
  intro bm
  induction bm with
  | nil =>
    intro entkv kn bkv hent _
    exact ⟨(entkv, kn, bkv), rfl, hent⟩
  | cons p rest ih =>
    intro entkv kn bkv hent hbm
    obtain ⟨name, base_kv_map⟩ := p
    have hbmh : TagMapOk base_kv_map := hbm _ (List.mem_cons_self _ _)
    have hrest : AttrMapOk rest := fun q hq => hbm q (List.mem_cons.2 (Or.inr hq))
    have hgetD : TagMapOk ((List.lookup name entkv).getD []) := by
      cases hlk : List.lookup name entkv with
      | none => intro q hq; cases hq
      | some tm =>
        have : (name, tm) ∈ entkv := lookup_mem_generic hlk
        exact hent _ this
    rw [mergeBaseKeyvalues]
    rcases mergeKVTagMap_ok base_kv_map _ hgetD hbmh with ⟨m', hm', hmok⟩
    simp only [hm']
    have hset : AttrMapOk (attrMapSet entkv name m') := by
      intro q hq
      rcases mem_attrMapSet hq with h | h
      · exact hent q h
      · rw [h]
        exact hmok
    by_cases hn : name ∈ kn
    · simp only [if_pos hn]
      exact ih _ kn bkv hset hrest
    · simp only [if_neg hn]
      exact ih _ (kn ++ [name]) (bkv ++ [name]) hset hrest

theorem collapseMergeBases_ok {db : List (String × Ent)} (hdb : DbOk db) :
    ∀ (bases : List BaseRef) (e : Ent) (kn bkv : List String),
      (∀ b ∈ bases, ∃ k, b = BaseRef.resolved k ∧
        (List.lookup k db).isSome = true) →
      AttrMapOk e.keyvalues →
      ∃ e' base_kv, collapseMergeBases db bases e kn bkv = .ok (e', base_kv) ∧
        AttrMapOk e'.keyvalues := by
  intro bases
  induction bases with
  | nil =>
    intro e kn bkv _ he
    exact ⟨e, bkv, rfl, he⟩
  | cons b rest ih =>
    intro e kn bkv hb he
    rcases hb b (List.mem_cons_self _ _) with ⟨bk, rfl, hbk⟩
    have hrest : ∀ b ∈ rest, ∃ k, b = BaseRef.resolved k ∧
        (List.lookup k db).isSome = true :=
      fun b hbr => hb b (List.mem_cons.2 (Or.inr hbr))
    rw [collapseMergeBases]
    cases hlk : List.lookup bk db with
    | none => rw [hlk] at hbk; cases hbk
    | some be =>
      have hbe : AttrMapOk be.keyvalues :=
        hdb _ (lookup_mem_generic hlk)
      rcases mergeBaseKeyvalues_ok be.keyvalues e.keyvalues kn bkv he hbe
        with ⟨⟨kv', kn', bkv'⟩, hmerge, hkvok⟩
      simp only [hmerge]
      exact ih _ kn' bkv' hrest hkvok

theorem lookup_isSome_iff_mem_keys {k : String} (l : List (String × Ent)) :
    (List.lookup k l).isSome = true ↔ k ∈ l.map Prod.fst := by
  constructor
  · intro h
    cases hlk : List.lookup k l with
    | none => rw [hlk] at h; cases h
    | some v => exact List.mem_map.2 ⟨(k, v), lookup_mem_generic hlk, rfl⟩
  · intro h
    rcases lookup_some_of_mem_keys l h with ⟨v, hv⟩
    rw [hv]
    rfl

theorem scanBases_ok {done : List String} :
    ∀ (bases : List BaseRef) (deferred : List String) (ready : Bool),
      (∀ b ∈ bases, ∃ k, b = BaseRef.resolved k) →
      ∃ df rd, scanBases done bases deferred ready = .ok (df, rd) ∧
        (∀ x ∈ deferred, x ∈ df) ∧
        (∀ x ∈ df, x ∈ deferred ∨
          (BaseRef.resolved x ∈ bases ∧ x ∉ done)) ∧
        (deferred.Nodup → df.Nodup) ∧
        (rd = true → ready = true) ∧
        (rd = true → ∀ k, BaseRef.resolved k ∈ bases → k ∈ done) ∧
        (∀ k, BaseRef.resolved k ∈ bases → k ∉ done → k ∈ df) := by
  intro bases
  induction bases with
  | nil =>
    intro deferred ready _
    refine ⟨deferred, ready, rfl, fun x hx => hx, fun x hx => Or.inl hx,
      fun h => h, fun h => h, ?_, ?_⟩
    · intro _ k hk; cases hk
    · intro k hk; cases hk
  | cons b rest ih =>
    intro deferred ready hres
    rcases hres b (List.mem_cons_self _ _) with ⟨bk, rfl⟩
    have hrest : ∀ b ∈ rest, ∃ k, b = BaseRef.resolved k :=
      fun b hb => hres b (List.mem_cons.2 (Or.inr hb))
    rw [scanBases]
    by_cases hbk : bk ∈ done
    · rw [if_pos hbk]
      rcases ih deferred ready hrest with
        ⟨df, rd, hrun, h1, h2, h3, h4, h5, h6⟩
      refine ⟨df, rd, hrun, h1, ?_, h3, h4, ?_, ?_⟩
      · intro x hx
        rcases h2 x hx with h | ⟨hm, hd⟩
        · exact Or.inl h
        · exact Or.inr ⟨List.mem_cons.2 (Or.inr hm), hd⟩
      · intro hrd k hk
        rcases List.mem_cons.1 hk with hk | hk
        · cases hk; exact hbk
        · exact h5 hrd k hk
      · intro k hk hkd
        rcases List.mem_cons.1 hk with hk | hk
        · cases hk; exact absurd hbk hkd
        · exact h6 k hk hkd
    · rw [if_neg hbk]
      rcases ih (addUnique deferred bk) false hrest with
        ⟨df, rd, hrun, h1, h2, h3, h4, h5, h6⟩
      refine ⟨df, rd, hrun, ?_, ?_, ?_, ?_, ?_, ?_⟩
      · intro x hx
        exact h1 x ((mem_addUnique x bk deferred).2 (Or.inl hx))
      · intro x hx
        rcases h2 x hx with h | ⟨hm, hd⟩
        · rcases (mem_addUnique x bk deferred).1 h with h | rfl
          · exact Or.inl h
          · exact Or.inr ⟨List.mem_cons.2 (Or.inl rfl), hbk⟩
        · exact Or.inr ⟨List.mem_cons.2 (Or.inr hm), hd⟩
      · intro hnd
        exact h3 (addUnique_nodup hnd bk)
      · intro hrd
        cases h4 hrd
      · intro hrd
        cases h4 hrd
      · intro k hk hkd
        rcases List.mem_cons.1 hk with hk | hk
        · cases hk
          exact h1 _ ((mem_addUnique _ _ deferred).2 (Or.inr rfl))
        · exact h6 k hk hkd

theorem collapsePass_cycle {ka kb : String} {ea eb : Ent}
    (hab : BaseRef.resolved kb ∈ ea.bases)
    (hba : BaseRef.resolved ka ∈ eb.bases) :
    ∀ (iter : List String) (db : List (String × Ent))
      (deferred done T : List String),
      DbOk db → DbBasesOk db →
      (∀ k ∈ iter, k ∈ db.map Prod.fst) →
      List.lookup ka db = some ea → List.lookup kb db = some eb →
      ka ∉ done → kb ∉ done →
      deferred.Nodup →
      (∀ x ∈ deferred, x ∈ T) →
      (∀ x ∈ iter, x ∈ T) →
      (∀ x ∈ db.map Prod.fst, x ∉ done → x ∈ T) →
      ∃ db' df done',
        collapsePass db iter deferred done = .ok (db', df, done') ∧
        db'.map Prod.fst = db.map Prod.fst ∧
        DbOk db' ∧ DbBasesOk db' ∧
        List.lookup ka db' = some ea ∧ List.lookup kb db' = some eb ∧
        ka ∉ done' ∧ kb ∉ done' ∧
        (∀ x ∈ deferred, x ∈ df) ∧
        (∀ x ∈ df, x ∈ T) ∧
        df.Nodup ∧
        (∀ x ∈ iter, x ∉ done' → x ∈ df) ∧
        (∀ x ∈ done, x ∈ done') := by
  intro iter
  induction iter with
  | nil =>
    intro db deferred done T hdb hbases _ hla hlb hkad hkbd hnd hTd _ _
    refine ⟨db, deferred, done, rfl, rfl, hdb, hbases, hla, hlb,
      hkad, hkbd, fun x hx => hx, hTd, hnd, ?_, fun x hx => hx⟩
    intro x hx; cases hx
  | cons k ks ih =>
    intro db deferred done T hdb hbases hkeys hla hlb hkad hkbd hnd hTd
      hTi hTnd
    have hkmem : k ∈ db.map Prod.fst := hkeys k (List.mem_cons_self _ _)
    rcases lookup_some_of_mem_keys db hkmem with ⟨e, hlk⟩
    have hkin : (k, e) ∈ db := lookup_mem_generic hlk
    have hkeys' : ∀ x ∈ ks, x ∈ db.map Prod.fst :=
      fun x hx => hkeys x (List.mem_cons.2 (Or.inr hx))
    have hTi' : ∀ x ∈ ks, x ∈ T :=
      fun x hx => hTi x (List.mem_cons.2 (Or.inr hx))
    rw [collapsePass]
    simp only [hlk]
    by_cases hb0 : e.bases = []
    · rw [if_pos hb0]
      have hkne_a : k ≠ ka := by
        intro h
        rw [h, hla] at hlk
        injection hlk with he
        rw [he, hb0] at hab
        cases hab
      have hkne_b : k ≠ kb := by
        intro h
        rw [h, hlb] at hlk
        injection hlk with he
        rw [he, hb0] at hba
        cases hba
      have hkad' : ka ∉ addUnique done k := by
        intro h
        rcases (mem_addUnique ka k done).1 h with h | rfl
        · exact hkad h
        · exact hkne_a rfl
      have hkbd' : kb ∉ addUnique done k := by
        intro h
        rcases (mem_addUnique kb k done).1 h with h | rfl
        · exact hkbd h
        · exact hkne_b rfl
      have hTnd' : ∀ x ∈ db.map Prod.fst, x ∉ addUnique done k → x ∈ T := by
        intro x hx hxd
        exact hTnd x hx (fun h => hxd ((mem_addUnique x k done).2 (Or.inl h)))
      rcases ih db deferred (addUnique done k) T hdb hbases hkeys' hla hlb
        hkad' hkbd' hnd hTd hTi' hTnd' with
        ⟨db', df, done', hrun, hk2, h3, h4, h5, h6, h7, h8, h9, h10, h11,
          h12, h13⟩
      refine ⟨db', df, done', hrun, hk2, h3, h4, h5, h6, h7, h8, h9, h10,
        h11, ?_, ?_⟩
      · intro x hx hxd
        rcases List.mem_cons.1 hx with rfl | hx
        · exact absurd (h13 x ((mem_addUnique x x done).2 (Or.inr rfl))) hxd
        · exact h12 x hx hxd
      · intro x hx
        exact h13 x ((mem_addUnique x k done).2 (Or.inl hx))
    · rw [if_neg hb0]
      have hresolved : ∀ b ∈ e.bases, ∃ k', b = BaseRef.resolved k' :=
        fun b hb => (hbases (k, e) hkin b hb).imp
          (fun k' hk' => hk'.1)
      rcases scanBases_ok e.bases deferred true hresolved with
        ⟨df0, rd, hscan, hs1, hs2, hs3, _, hs5, hs6⟩
      rw [hscan]
      have hdf0T : ∀ x ∈ df0, x ∈ T := by
        intro x hx
        rcases hs2 x hx with h | ⟨hm, hd⟩
        · exact hTd x h
        · rcases hbases (k, e) hkin _ hm with ⟨k', hk', hsome⟩
          cases hk'
          exact hTnd x ((lookup_isSome_iff_mem_keys db).1 hsome) hd
      cases rd with
      | false =>
        have hnd1 : (addUnique df0 k).Nodup := addUnique_nodup (hs3 hnd) k
        have hT1 : ∀ x ∈ addUnique df0 k, x ∈ T := by
          intro x hx
          rcases (mem_addUnique x k df0).1 hx with h | rfl
          · exact hdf0T x h
          · exact hTi x (List.mem_cons.2 (Or.inl rfl))
        rcases ih db (addUnique df0 k) done T hdb hbases hkeys' hla hlb
          hkad hkbd hnd1 hT1 hTi' hTnd with
          ⟨db', df, done', hrun, hk2, h3, h4, h5, h6, h7, h8, h9, h10, h11,
            h12, h13⟩
        refine ⟨db', df, done', hrun, hk2, h3, h4, h5, h6, h7, h8, ?_, h10,
          h11, ?_, h13⟩
        · intro x hx
          exact h9 x ((mem_addUnique x k df0).2 (Or.inl (hs1 x hx)))
        · intro x hx hxd
          rcases List.mem_cons.1 hx with rfl | hx
          · exact h9 x ((mem_addUnique x x df0).2 (Or.inr rfl))
          · exact h12 x hx hxd
      | true =>
        have hkne_a : k ≠ ka := by
          intro h
          rw [h, hla] at hlk
          injection hlk with he
          rw [he] at hab
          exact hkbd (hs5 rfl kb hab)
        have hkne_b : k ≠ kb := by
          intro h
          rw [h, hlb] at hlk
          injection hlk with he
          rw [he] at hba
          exact hkad (hs5 rfl ka hba)
        have hblook : ∀ b ∈ e.bases, ∃ k', b = BaseRef.resolved k' ∧
            (List.lookup k' db).isSome = true :=
          fun b hb => hbases (k, e) hkin b hb
        rcases collapseMergeBases_ok hdb e.bases e e.kv_order []
          hblook (hdb (k, e) hkin) with ⟨e', base_kv, hmrg, hmok⟩
        simp only [hmrg]
        have hkeq : (dictInsert db k
            { e' with kv_order := base_kv ++ e'.kv_order,
                      bases := [] }).map Prod.fst = db.map Prod.fst :=
          dictInsert_keys_of_mem hkmem _
        have hdb1 : DbOk (dictInsert db k
            { e' with kv_order := base_kv ++ e'.kv_order, bases := [] }) := by
          intro p hp
          rcases mem_dictInsert hp with h | rfl
          · exact hdb p h
          · exact hmok
        have hbases1 : DbBasesOk (dictInsert db k
            { e' with kv_order := base_kv ++ e'.kv_order, bases := [] }) := by
          intro p hp b hb
          rcases mem_dictInsert hp with h | rfl
          · rcases hbases p h b hb with ⟨k', hk', hsome⟩
            refine ⟨k', hk', ?_⟩
            rw [lookup_isSome_iff_mem_keys, hkeq]
            exact (lookup_isSome_iff_mem_keys db).1 hsome
          · cases hb
        have hla1 : List.lookup ka (dictInsert db k
            { e' with kv_order := base_kv ++ e'.kv_order, bases := [] }) =
            some ea := by
          rw [lookup_dictInsert_ne (fun h => hkne_a h.symm)]
          exact hla
        have hlb1 : List.lookup kb (dictInsert db k
            { e' with kv_order := base_kv ++ e'.kv_order, bases := [] }) =
            some eb := by
          rw [lookup_dictInsert_ne (fun h => hkne_b h.symm)]
          exact hlb
        have hkad' : ka ∉ addUnique done k := by
          intro h
          rcases (mem_addUnique ka k done).1 h with h | rfl
          · exact hkad h
          · exact hkne_a rfl
        have hkbd' : kb ∉ addUnique done k := by
          intro h
          rcases (mem_addUnique kb k done).1 h with h | rfl
          · exact hkbd h
          · exact hkne_b rfl
        have hkeys1 : ∀ x ∈ ks, x ∈ (dictInsert db k
            { e' with kv_order := base_kv ++ e'.kv_order,
                      bases := [] }).map Prod.fst := by
          intro x hx
          rw [hkeq]
          exact hkeys' x hx
        have hTnd1 : ∀ x ∈ (dictInsert db k
            { e' with kv_order := base_kv ++ e'.kv_order,
                      bases := [] }).map Prod.fst,
            x ∉ addUnique done k → x ∈ T := by
          intro x hx hxd
          rw [hkeq] at hx
          exact hTnd x hx
            (fun h => hxd ((mem_addUnique x k done).2 (Or.inl h)))
        rcases ih _ df0 (addUnique done k) T hdb1 hbases1 hkeys1 hla1 hlb1
          hkad' hkbd' (hs3 hnd) hdf0T hTi' hTnd1 with
          ⟨db', df, done', hrun, hk2, h3, h4, h5, h6, h7, h8, h9, h10, h11,
            h12, h13⟩
        refine ⟨db', df, done', hrun, by rw [hk2, hkeq], h3, h4, h5, h6,
          h7, h8, ?_, h10, h11, ?_, ?_⟩
        · intro x hx
          exact h9 x (hs1 x hx)
        · intro x hx hxd
          rcases List.mem_cons.1 hx with rfl | hx
          · exact absurd (h13 x ((mem_addUnique x x done).2 (Or.inr rfl))) hxd
          · exact h12 x hx hxd
        · intro x hx
          exact h13 x ((mem_addUnique x k done).2 (Or.inl hx))

theorem length_lt_of_sub_strings {a b : List String}
    (hand : a.Nodup) (hbnd : b.Nodup) (hsub : ∀ x ∈ a, x ∈ b)
    {x : String} (hxb : x ∈ b) (hxa : x ∉ a) : a.length < b.length := by
  have h1 : a.toFinset.card = a.length := List.toFinset_card_of_nodup hand
  have h2 : b.toFinset.card = b.length := List.toFinset_card_of_nodup hbnd
  have hsub' : a.toFinset ⊆ b.toFinset :=
    fun y hy => List.mem_toFinset.2 (hsub y (List.mem_toFinset.1 hy))
  have hss : a.toFinset ⊂ b.toFinset :=
    (Finset.ssubset_iff_of_subset hsub').2
      ⟨x, List.mem_toFinset.2 hxb, fun hc => hxa (List.mem_toFinset.1 hc)⟩
  have := Finset.card_lt_card hss
  omega

theorem exists_not_mem_of_eqAsSets_false {a b : List String}
    (h : eqAsSets a b = false) (hsub : ∀ x ∈ b, x ∈ a) :
    ∃ x, x ∈ a ∧ x ∉ b := by
  rw [eqAsSets] at h
  rcases Bool.and_eq_false_iff.1 h with h | h
  · simp only [List.all_eq_false, decide_eq_true_eq] at h
    rcases h with ⟨x, hx, hnx⟩
    exact ⟨x, hx, hnx⟩
  · exfalso
    simp only [List.all_eq_false, decide_eq_true_eq] at h
    rcases h with ⟨x, hx, hnx⟩
    exact hnx (hsub x hx)

theorem collapseLoop_cycle {order : List String → List String}
    (horder : ∀ l : List String, (order l).Perm l)
    {ka kb : String} {ea eb : Ent}
    (hab : BaseRef.resolved kb ∈ ea.bases)
    (hba : BaseRef.resolved ka ∈ eb.bases) :
    ∀ (fuel : Nat) (db : List (String × Ent)) (todo done : List String),
      todo.length < fuel →
      DbOk db → DbBasesOk db →
      (∀ k ∈ todo, k ∈ db.map Prod.fst) →
      todo.Nodup →
      List.lookup ka db = some ea → List.lookup kb db = some eb →
      ka ∈ todo → kb ∈ todo → ka ∉ done → kb ∉ done →
      (∀ x ∈ db.map Prod.fst, x ∉ done → x ∈ todo) →
      ∃ db', collapseLoop order fuel db todo done =
          .error ("Loop in bases!", db') ∧
        List.lookup ka db' = some ea ∧ List.lookup kb db' = some eb := by
  intro fuel
  induction fuel with
  | zero =>
    intro db todo done hlt
    exact absurd hlt (Nat.not_lt_zero _)
  | succ f ihf =>
    intro db todo done hlt hdb hbases hkeys hnd hla hlb hka hkb hkad hkbd hnd2
    rw [collapseLoop]
    have htne : ¬(todo = []) := by
      intro h
      rw [h] at hka
      cases hka
    rw [if_neg htne]
    have hperm := horder todo
    have hkeysI : ∀ k ∈ order todo, k ∈ db.map Prod.fst :=
      fun k hk => hkeys k (hperm.mem_iff.1 hk)
    have hTi : ∀ x ∈ order todo, x ∈ todo := fun x hx => hperm.mem_iff.1 hx
    rcases collapsePass_cycle hab hba (order todo) db [] done todo hdb hbases
      hkeysI hla hlb hkad hkbd List.nodup_nil (by intro x hx; cases hx) hTi
      hnd2 with
      ⟨db', df, done', hrun, hk2, h3, h4, h5, h6, h7, h8, _, h10, h11, h12,
        h13⟩
    rw [hrun]
    by_cases heq : eqAsSets todo df = true
    · refine ⟨db', ?_, h5, h6⟩
      have hif : (if eqAsSets todo df = true
            then (Except.error ("Loop in bases!", db') :
              Except (String × List (String × Ent)) (List (String × Ent)))
            else collapseLoop order f db' df done') =
          .error ("Loop in bases!", db') := by rw [if_pos heq]
      exact hif
    · have heqf : eqAsSets todo df = false := by
        cases hb : eqAsSets todo df with
        | true => exact absurd hb heq
        | false => rfl
      rcases exists_not_mem_of_eqAsSets_false heqf h10 with ⟨x, hxt, hxd⟩
      have hlen : df.length < todo.length :=
        length_lt_of_sub_strings h11 hnd h10 hxt hxd
      have hkeysR : ∀ k ∈ df, k ∈ db'.map Prod.fst := by
        intro k hk
        rw [hk2]
        exact hkeys k (h10 k hk)
      have hkaR : ka ∈ df := h12 ka (hperm.mem_iff.2 hka) h7
      have hkbR : kb ∈ df := h12 kb (hperm.mem_iff.2 hkb) h8
      have hndR : ∀ y ∈ db'.map Prod.fst, y ∉ done' → y ∈ df := by
        intro y hy hyd
        rw [hk2] at hy
        have hyd0 : y ∉ done := fun hc => hyd (h13 y hc)
        exact h12 y (hperm.mem_iff.2 (hnd2 y hy hyd0)) hyd
      rcases ihf db' df done' (by omega) h3 h4 hkeysR h11 h5 h6 hkaR hkbR
        h7 h8 hndR with ⟨db'', hrun2, hla2, hlb2⟩
      refine ⟨db'', ?_, hla2, hlb2⟩
      have hif : (if eqAsSets todo df = true
            then (Except.error ("Loop in bases!", db') :
              Except (String × List (String × Ent)) (List (String × Ent)))
            else collapseLoop order f db' df done') =
          .error ("Loop in bases!", db'') := by
        rw [if_neg heq]
        exact hrun2
      exact hif

/-- C4: on any database whose bases are resolved keys present in the
database (the state `apply_bases` leaves), whose entity keys are unique
and whose list-typed keyvalues carry non-empty value lists, a two-cycle
(`ka` bases on `kb` and `kb` on `ka`) makes `collapse_bases` raise
`Loop in bases!` — under any iteration order of the todo sets — and the
cycle members' full records (bases, keyvalues, inputs, outputs,
kv_order) are left unmodified in the database the failed call worked
on. -/
theorem c4_collapse_cycle (order : List String → List String) (db : FGD)
    (ka kb : String) (ea eb : Ent)
    (horder : ∀ l : List String, (order l).Perm l)
    (hnodup : (db.entities.map Prod.fst).Nodup)
    (hwf : DbOk db.entities)
    (hbases : DbBasesOk db.entities)
    (ha : List.lookup ka db.entities = some ea)
    (hb : List.lookup kb db.entities = some eb)
    (hab : BaseRef.resolved kb ∈ ea.bases)
    (hba : BaseRef.resolved ka ∈ eb.bases) :
    ∃ db' : FGD, collapse_bases order db = .error ("Loop in bases!", db') ∧
      List.lookup ka db'.entities = some ea ∧
      List.lookup kb db'.entities = some eb := by
  have hka : ka ∈ db.entities.map Prod.fst :=
    (lookup_isSome_iff_mem_keys db.entities).1 (by rw [ha]; rfl)
  have hkb : kb ∈ db.entities.map Prod.fst :=
    (lookup_isSome_iff_mem_keys db.entities).1 (by rw [hb]; rfl)
  rcases collapseLoop_cycle horder hab hba (db.entities.length + 1)
    db.entities (db.entities.map Prod.fst) []
    (by rw [List.length_map]; omega)
    hwf hbases (fun k hk => hk) hnodup ha hb hka hkb
    (by intro h; cases h) (by intro h; cases h)
    (fun x hx _ => hx) with ⟨ents', hrun, hla', hlb'⟩
  refine ⟨{ db with entities := ents' }, ?_, hla', hlb'⟩
  rw [collapse_bases, hrun]

/-- A two-entity database whose entities base on each other. -/
def c4EntA : Ent := ⟨.POINT, "ent_a", [], [], [], [], [.resolved "ent_b"], ""⟩

def c4EntB : Ent := ⟨.POINT, "ent_b", [], [], [], [], [.resolved "ent_a"], ""⟩

def c4DB : FGD := ⟨[("ent_a", c4EntA), ("ent_b", c4EntB)], 0, 0⟩

/-- Witness for `c4_collapse_cycle` at a concrete cyclic database. -/
theorem c4_collapse_cycle_witness :
    ∃ db' : FGD, collapse_bases id c4DB = .error ("Loop in bases!", db') ∧
      List.lookup "ent_a" db'.entities = some c4EntA ∧
      List.lookup "ent_b" db'.entities = some c4EntB :=
  c4_collapse_cycle id c4DB "ent_a" "ent_b" c4EntA c4EntB
    (fun l => List.Perm.refl l)
    (by decide)
    (by
      intro p hp q hq
      rcases List.mem_cons.1 hp with rfl | hp
      · simp [c4EntA] at hq
      · rcases List.mem_cons.1 hp with rfl | hp
        · simp [c4EntB] at hq
        · cases hp)
    (by
      intro p hp b hb
      rcases List.mem_cons.1 hp with rfl | hp
      · rcases List.mem_cons.1 hb with rfl | hb
        · exact ⟨"ent_b", rfl, by rfl⟩
        · cases hb
      · rcases List.mem_cons.1 hp with rfl | hp
        · rcases List.mem_cons.1 hb with rfl | hb
          · exact ⟨"ent_a", rfl, by rfl⟩
          · cases hb
        · cases hp)
    rfl rfl
    (List.mem_cons.2 (Or.inl rfl))
    (List.mem_cons.2 (Or.inl rfl))

/-! ## C2: the binary round trip (fgd.py:1209-1296, 1585-1645)

`FGD.serialise` writes header, string dictionary and entity records;
`FGD.unserialise` reads them back and runs `apply_bases`.  When every
base is stored under its own case-folded classname — the key
`apply_bases` itself uses — `self[base.classname] is base` holds for
every base, so the `_fix_missing_bases` pre-pass (fgd.py:1560-1583)
renames nothing and adds nothing; the development covers exactly those
databases and the pass is therefore the identity. -/

/-- `BinStrDict.write_tags` (fgd.py:417-425): a count byte followed by
the dictionary reference of each tag, in the set's iteration order (the
canonical order of the modelled `frozenset`). -/
def writeTags (d : BinStrDict) (tags : List String) :
    Except String (BinStrDict × List Nat) :=
  match pack8 tags.length with
  | .error e => .error e
  | .ok cb =>
    match d.callAll tags with
    | .error e => .error e
    | .ok (d1, refs) => .ok (d1, cb ++ refs.join)

/-- Read `n` dictionary references. -/
def readStrList (inv : List String) :
    Nat → List Nat → Except String (List String × List Nat)
  | 0, bs => .ok ([], bs)
  | n + 1, bs =>
    match readStrRef inv bs with
    | .error e => .error e
    | .ok (s, bs) =>
      match readStrList inv n bs with
      | .error e => .error e
      | .ok (ss, bs) => .ok (s :: ss, bs)

/-- `BinStrDict.read_tags` (fgd.py:407-414): a count byte, that many
references, collected into a `frozenset`. -/
def readTags (inv : List String) (bs : List Nat) :
    Except String (List String × List Nat) :=
  match readU8 bs with
  | .error e => .error e
  | .ok (n, bs) =>
    match readStrList inv n bs with
    | .error e => .error e
    | .ok (ss, bs) => .ok (mkTagSet ss, bs)

/-- The per-entry half of the tag-map loop of `EntityDef.serialise`
(fgd.py:1243-1245): each entry's tag set then its record. -/
def writeTagEntries {α : Type}
    (wr : α → BinStrDict → Except String (BinStrDict × List Nat)) :
    BinStrDict → TagMap α → Except String (BinStrDict × List Nat)
  | d, [] => .ok (d, [])
  | d, (tags, value) :: rest =>
    match writeTags d tags with
    | .error e => .error e
    | .ok (d1, tb) =>
      match wr value d1 with
      | .error e => .error e
      | .ok (d2, vb) =>
        match writeTagEntries wr d2 rest with
        | .error e => .error e
        | .ok (d3, rb) => .ok (d3, tb ++ vb ++ rb)

/-- One iteration of the tag-map loop of `EntityDef.serialise`
(fgd.py:1223-1245): an empty map is skipped entirely (although it was
counted in the header), a single untagged entry is written as a zero
count byte plus the record, anything else as the map size then every
entry. -/
def writeTagMap {α : Type}
    (wr : α → BinStrDict → Except String (BinStrDict × List Nat))
    (d : BinStrDict) : TagMap α → Except String (BinStrDict × List Nat)
  | [] => .ok (d, [])
  | [([], value)] =>
    match wr value d with
    | .error e => .error e
    | .ok (d1, vb) => .ok (d1, 0 :: vb)
  | (tags, value) :: rest =>
    match pack8 (rest.length + 1) with
    | .error e => .error e
    | .ok cb =>
      match writeTagEntries wr d ((tags, value) :: rest) with
      | .error e => .error e
      | .ok (d1, eb) => .ok (d1, cb ++ eb)

/-- The outer attribute loop of `EntityDef.serialise` (fgd.py:1223):
names are not written — the records carry them. -/
def writeAttrMap {α : Type}
    (wr : α → BinStrDict → Except String (BinStrDict × List Nat)) :
    BinStrDict → AttrMap α → Except String (BinStrDict × List Nat)
  | d, [] => .ok (d, [])
  | d, (_, tm) :: rest =>
    match writeTagMap wr d tm with
    | .error e => .error e
    | .ok (d1, tb) =>
      match writeAttrMap wr d1 rest with
      | .error e => .error e
      | .ok (d2, rb) => .ok (d2, tb ++ rb)

/-- The base loop of `EntityDef.serialise` (fgd.py:1220-1221):
`str_dict(base_ent.classname)` — a base still held as a string has no
`classname` attribute. -/
def writeBaseRefs (ents : List (String × Ent)) :
    BinStrDict → List BaseRef → Except String (BinStrDict × List Nat)
  | d, [] => .ok (d, [])
  | d, .resolved k :: rest =>
    match List.lookup k ents with
    | none => .error "model: dangling base reference"
    | some be =>
      match d.call be.classname with
      | .error e => .error e
      | .ok (d1, bb) =>
        match writeBaseRefs ents d1 rest with
        | .error e => .error e
        | .ok (d2, rb) => .ok (d2, bb ++ rb)
  | _, .unresolved _ :: _ =>
    .error "AttributeError: str has no attribute classname"

/-- `EntityDef.serialise` (fgd.py:1210-1246): the `<BBBBB` header, the
classname, the base classnames, then the keyvalue, input and output
maps.  Helpers, descriptions and `kv_order` are not written. -/
def entSerialise (ents : List (String × Ent)) (e : Ent) (d : BinStrDict) :
    Except String (BinStrDict × List Nat) :=
  match pack8 (ENTITY_TYPE_INDEX e.type) with
  | .error er => .error er
  | .ok h1 =>
    match pack8 e.bases.length with
    | .error er => .error er
    | .ok h2 =>
      match pack8 e.keyvalues.length with
      | .error er => .error er
      | .ok h3 =>
        match pack8 e.inputs.length with
        | .error er => .error er
        | .ok h4 =>
          match pack8 e.outputs.length with
          | .error er => .error er
          | .ok h5 =>
            match d.call e.classname with
            | .error er => .error er
            | .ok (d1, cb) =>
              match writeBaseRefs ents d1 e.bases with
              | .error er => .error er
              | .ok (d2, bb) =>
                match writeAttrMap KeyValues.serialise d2 e.keyvalues with
                | .error er => .error er
                | .ok (d3, kb) =>
                  match writeAttrMap IODef.serialise d3 e.inputs with
                  | .error er => .error er
                  | .ok (d4, ib) =>
                    match writeAttrMap IODef.serialise d4 e.outputs with
                    | .error er => .error er
                    | .ok (d5, ob) =>
                      .ok (d5, h1 ++ h2 ++ h3 ++ h4 ++ h5 ++ cb ++ bb ++
                        kb ++ ib ++ ob)

/-- The tag-map reading loop of `EntityDef.unserialise`
(fgd.py:1292-1294): remaining entries added by dict assignment. -/
def readTagMapEntries {α : Type}
    (rd : List String → List Nat → Except String (α × List Nat))
    (inv : List String) :
    Nat → TagMap α → List Nat → Except String (TagMap α × List Nat)
  | 0, tm, bs => .ok (tm, bs)
  | n + 1, tm, bs =>
    match readTags inv bs with
    | .error e => .error e
    | .ok (tag, bs) =>
      match rd inv bs with
      | .error e => .error e
      | .ok (obj, bs) =>
        readTagMapEntries rd inv n (tagMapSet tm tag obj) bs

/-- One attribute of `EntityDef.unserialise` (fgd.py:1277-1294): a zero
tag count is the single-untagged special case; the map is stored under
the first record's own name. -/
def readOneAttr {α : Type}
    (rd : List String → List Nat → Except String (α × List Nat))
    (nm : α → String) (inv : List String) (am : AttrMap α)
    (bs : List Nat) : Except String (AttrMap α × List Nat) :=
  match readU8 bs with
  | .error e => .error e
  | .ok (tag_count, bs) =>
    if tag_count = 0 then
      match rd inv bs with
      | .error e => .error e
      | .ok (obj, bs) => .ok (attrMapSet am (nm obj) [([], obj)], bs)
    else
      match readTags inv bs with
      | .error e => .error e
      | .ok (tag, bs) =>
        match rd inv bs with
        | .error e => .error e
        | .ok (obj, bs) =>
          match readTagMapEntries rd inv (tag_count - 1) [(tag, obj)] bs with
          | .error e => .error e
          | .ok (tm, bs) => .ok (attrMapSet am (nm obj) tm, bs)

/-- The attribute-count loop of `EntityDef.unserialise` (fgd.py:1271-1294). -/
def readAttrMap {α : Type}
    (rd : List String → List Nat → Except String (α × List Nat))
    (nm : α → String) (inv : List String) :
    Nat → AttrMap α → List Nat → Except String (AttrMap α × List Nat)
  | 0, am, bs => .ok (am, bs)
  | n + 1, am, bs =>
    match readOneAttr rd nm inv am bs with
    | .error e => .error e
    | .ok (am', bs) => readAttrMap rd nm inv n am' bs

/-- `EntityDef.unserialise` (fgd.py:1249-1296): a fresh entity — empty
`kv_order`, empty description — with the bases kept as classname strings
for `apply_bases` to resolve. -/
def entUnserialise (inv : List String) (bs : List Nat) :
    Except String (Ent × List Nat) :=
  match readU8 bs with
  | .error e => .error e
  | .ok (type_ind, bs) =>
    match readU8 bs with
    | .error e => .error e
    | .ok (base_count, bs) =>
      match readU8 bs with
      | .error e => .error e
      | .ok (kv_count, bs) =>
        match readU8 bs with
        | .error e => .error e
        | .ok (inp_count, bs) =>
          match readU8 bs with
          | .error e => .error e
          | .ok (out_count, bs) =>
            match entityTypeAt type_ind with
            | .error e => .error e
            | .ok ty =>
              match readStrRef inv bs with
              | .error e => .error e
              | .ok (classname, bs) =>
                match readStrList inv base_count bs with
                | .error e => .error e
                | .ok (base_names, bs) =>
                  match readAttrMap KeyValues.unserialise KeyValues.name
                      inv kv_count [] bs with
                  | .error e => .error e
                  | .ok (kvs, bs) =>
                    match readAttrMap IODef.unserialise IODef.name
                        inv inp_count [] bs with
                    | .error e => .error e
                    | .ok (ins, bs) =>
                      match readAttrMap IODef.unserialise IODef.name
                          inv out_count [] bs with
                      | .error e => .error e
                      | .ok (outs, bs) =>
                        .ok (⟨ty, classname, kvs, ins, outs, [],
                          base_names.map BaseRef.unresolved, ""⟩, bs)

/-- `Struct('>d')` packing of the integer map bounds.  An IEEE-754
double represents every integer of magnitude below `2^53` exactly; the
codec is modelled as an eight-byte sign/magnitude integer encoding with
the same width and the same exactness range (for larger magnitudes
Python would round instead of failing, which the model does not
cover). -/
def packF64 (v : Int) : Except String (List Nat) :=
  if v.natAbs < 2 ^ 53 then
    .ok [if v < 0 then 1 else 0,
         v.natAbs / 256 ^ 6 % 256, v.natAbs / 256 ^ 5 % 256,
         v.natAbs / 256 ^ 4 % 256, v.natAbs / 256 ^ 3 % 256,
         v.natAbs / 256 ^ 2 % 256, v.natAbs / 256 % 256,
         v.natAbs % 256]
  else .error "model: magnitude not exactly representable in a double"

/-- Inverse of `packF64`. -/
def readF64 : List Nat → Except String (Int × List Nat)
  | sgn :: b6 :: b5 :: b4 :: b3 :: b2 :: b1 :: b0 :: rest =>
    let m : Nat :=
      ((((((b6 * 256 + b5) * 256 + b4) * 256 + b3) * 256 + b2) * 256 + b1)
        * 256 + b0)
    .ok (if sgn = 1 then -(m : Int) else (m : Int), rest)
  | _ => .error "struct.error: requires a buffer of 8 bytes"

/-- A string's UTF-8 bytes (fgd.py:385); code points below 128 map to
one byte each, which is the ASCII range FGD files use. -/
def encodeStr (s : String) : List Nat := s.data.map Char.toNat

def decodeStr (bs : List Nat) : String := ⟨bs.map Char.ofNat⟩

/-- The string-table half of `BinStrDict.serialise` (fgd.py:383-386). -/
def serialiseStrings : List String → Except String (List Nat)
  | [] => .ok []
  | s :: rest =>
    match pack16 s.length with
    | .error e => .error e
    | .ok lb =>
      match serialiseStrings rest with
      | .error e => .error e
      | .ok rb => .ok (lb ++ encodeStr s ++ rb)

/-- `BinStrDict.serialise` (fgd.py:376-386): entry count, then each
string with a length prefix, in index order. -/
def serialiseDict (L : List String) : Except String (List Nat) :=
  match pack32 L.length with
  | .error e => .error e
  | .ok hb =>
    match serialiseStrings L with
    | .error e => .error e
    | .ok sb => .ok (hb ++ sb)

/-- Take exactly `n` bytes (`file.read(n)`; a short read would silently
truncate in Python — unreachable for streams `serialise` produced). -/
def readBytesN : Nat → List Nat → Except String (List Nat × List Nat)
  | 0, bs => .ok ([], bs)
  | n + 1, b :: bs =>
    match readBytesN n bs with
    | .error e => .error e
    | .ok (taken, rest) => .ok (b :: taken, rest)
  | _ + 1, [] => .error "model: short read"

/-- The string-table half of `BinStrDict.unserialise` (fgd.py:394-399). -/
def readDictStrings : Nat → List Nat → Except String (List String × List Nat)
  | 0, bs => .ok ([], bs)
  | n + 1, bs =>
    match readU16 bs with
    | .error e => .error e
    | .ok (len, bs) =>
      match readBytesN len bs with
      | .error e => .error e
      | .ok (sb, bs) =>
        match readDictStrings n bs with
        | .error e => .error e
        | .ok (ss, bs) => .ok (decodeStr sb :: ss, bs)

/-- `BinStrDict.unserialise` (fgd.py:388-405), returning the inverse
list the reference reader indexes. -/
def readDict (bs : List Nat) :
    Except String (List String × List Nat) :=
  match readU32 bs with
  | .error e => .error e
  | .ok (n, bs) => readDictStrings n bs

/-- The entity loop of `FGD.serialise` (fgd.py:1606-1608). -/
def serialiseEnts (ents : List (String × Ent)) :
    BinStrDict → List (String × Ent) →
    Except String (BinStrDict × List Nat)
  | d, [] => .ok (d, [])
  | d, (_, e) :: rest =>
    match entSerialise ents e d with
    | .error er => .error er
    | .ok (d1, eb) =>
      match serialiseEnts ents d1 rest with
      | .error er => .error er
      | .ok (d2, rb) => .ok (d2, eb ++ rb)

/-- `FGD.serialise` (fgd.py:1585-1612): `b'FGD'`, the `>BddI` header
(format version 2, the two map bounds, the entity count), then the
string dictionary built while serialising the entities, then the entity
records. -/
def FGD.serialise (db : FGD) : Except String (List Nat) :=
  match packF64 db.map_size_min with
  | .error e => .error e
  | .ok mnb =>
    match packF64 db.map_size_max with
    | .error e => .error e
    | .ok mxb =>
      match pack32 db.entities.length with
      | .error e => .error e
      | .ok cb =>
        match serialiseEnts db.entities BinStrDict.empty db.entities with
        | .error e => .error e
        | .ok (dF, eb) =>
          match serialiseDict (dF.dict.map Prod.fst) with
          | .error e => .error e
          | .ok db_bytes =>
            .ok ([70, 71, 68] ++ [2] ++ mnb ++ mxb ++ cb ++ db_bytes ++ eb)

/-- The entity loop of `FGD.unserialise` (fgd.py:1638-1640): each entity
stored under its case-folded classname. -/
def readEnts (inv : List String) :
    Nat → List (String × Ent) → List Nat →
    Except String (List (String × Ent) × List Nat)
  | 0, acc, bs => .ok (acc, bs)
  | n + 1, acc, bs =>
    match entUnserialise inv bs with
    | .error e => .error e
    | .ok (ent, bs) =>
      readEnts inv n (dictInsert acc (pyLower ent.classname) ent) bs

/-- `FGD.unserialise` (fgd.py:1614-1645): magic, header, version check,
dictionary, entities, then `apply_bases`. -/
def FGD.unserialise (bs : List Nat) : Except String FGD :=
  match readBytesN 3 bs with
  | .error e => .error e
  | .ok (magic, bs) =>
    if magic ≠ [70, 71, 68] then .error "Not an FGD file!"
    else
      match readU8 bs with
      | .error e => .error e
      | .ok (ver, bs) =>
        match readF64 bs with
        | .error e => .error e
        | .ok (mn, bs) =>
          match readF64 bs with
          | .error e => .error e
          | .ok (mx, bs) =>
            match readU32 bs with
            | .error e => .error e
            | .ok (cnt, bs) =>
              if ver ≠ 2 then
                .error "TypeError: Unknown format version!"
              else
                match readDict bs with
                | .error e => .error e
                | .ok (inv, bs) =>
                  match readEnts inv cnt [] bs with
                  | .error e => .error e
                  | .ok (ents, _) => apply_bases ⟨ents, mn, mx⟩

/-- What the round trip does to a keyvalue record: the description is
dropped, a spawnflags default is not stored, and `readonly` comes back
as the stored *integer* flag. -/
def binKV (kv : KeyValues) : KeyValues :=
  { kv with desc := "",
            default := if kv.type = .SPAWNFLAGS then "" else kv.default,
            readonly := .pyInt (if pyTruthy kv.readonly then 128 else 0) }

/-- What the round trip does to an input/output record. -/
def binIo (io : IODef) : IODef := { io with desc := "" }

def binTagMapKV (tm : TagMap KeyValues) : TagMap KeyValues :=
  tm.map (fun p => (p.1, binKV p.2))

def binTagMapIo (tm : TagMap IODef) : TagMap IODef :=
  tm.map (fun p => (p.1, binIo p.2))

/-- What the round trip does to an entity: records keep name, type,
default and value list; descriptions are emptied, `kv_order` is not
stored, bases come back resolved to the same keys. -/
def binEnt (e : Ent) : Ent :=
  { e with
      keyvalues := e.keyvalues.map (fun q => (q.1, binTagMapKV q.2)),
      inputs := e.inputs.map (fun q => (q.1, binTagMapIo q.2)),
      outputs := e.outputs.map (fun q => (q.1, binTagMapIo q.2)),
      kv_order := [],
      desc := "" }

def binFGD (db : FGD) : FGD :=
  ⟨db.entities.map (fun p => (p.1, binEnt p.2)),
   db.map_size_min, db.map_size_max⟩

/-- A spawnflags entry the binary format can represent and recover: the
3-tuple shape `unserialise` itself produces, a power-of-two value with
exponent below 128. -/
def SfShapeOk : ValListEntry → Prop
  | .sf3 v _ _ =>
    0 < v ∧ natLog2 v.toNat ≤ 127 ∧ ((2 ^ natLog2 v.toNat : Nat) : Int) = v
  | _ => False

def ChShapeOk : ValListEntry → Prop
  | .ch2 _ _ => True
  | _ => False

instance : DecidablePred SfShapeOk := by
  intro e
  cases e <;> simp only [SfShapeOk] <;> infer_instance

instance : DecidablePred ChShapeOk := by
  intro e
  cases e <;> simp only [ChShapeOk] <;> infer_instance

/-- A keyvalue record the binary format can represent and recover. -/
def KVSerialisable (kv : KeyValues) : Prop :=
  (if kv.type = .SPAWNFLAGS then
    ∃ l, kv.val_list = some l ∧ ∀ e ∈ l, SfShapeOk e
  else if kv.type = .CHOICES then
    ∃ l, kv.val_list = some l ∧ ∀ e ∈ l, ChShapeOk e
  else kv.val_list = none) ∧
  (kv.readonly = .pyBool false ∨ kv.readonly = .pyInt 0 ∨
    kv.readonly = .pyInt 128)

/-- A tag map the binary format can represent and recover: non-empty
(an empty one is skipped by the writer but counted in the header),
canonical tag sets, distinct tag keys, and all records named after the
attribute key they are stored under. -/
def TagMapSerialisable {α : Type} (nm : α → String)
    (P : α → Prop) (name : String) (tm : TagMap α) : Prop :=
  tm ≠ [] ∧ (tm.map Prod.fst).Nodup ∧
  ∀ p ∈ tm, mkTagSet p.1 = p.1 ∧ nm p.2 = name ∧ P p.2

def AttrMapSerialisable {α : Type} (nm : α → String)
    (P : α → Prop) (am : AttrMap α) : Prop :=
  (am.map Prod.fst).Nodup ∧
  ∀ q ∈ am, TagMapSerialisable nm P q.1 q.2

/-- The dictionary state after interning the distinct strings `L` in
order. -/
def dictOf (L : List String) : BinStrDict := ⟨mkDictFrom 0 L, L.length⟩

theorem lookup_mkDictFrom_get {s : String} :
    ∀ (L : List String) (n i : Nat),
      (mkDictFrom n L).lookup s = some i → n ≤ i ∧ L.get? (i - n) = some s
  | [], _, _ => by intro h; cases h
  | t :: rest, n, i => by
    intro h
    rw [mkDictFrom] at h
    by_cases heq : s = t
    · have hbe : (s == t) = true := beq_iff_eq.2 heq
      simp only [List.lookup, hbe] at h
      cases h
      refine ⟨le_refl _, ?_⟩
      rw [Nat.sub_self]
      rw [heq]
      rfl
    · have hbe : (s == t) = false := beq_eq_false_iff_ne.2 heq
      simp only [List.lookup, hbe] at h
      rcases lookup_mkDictFrom_get rest (n + 1) i h with ⟨hle, hget⟩
      refine ⟨by omega, ?_⟩
      have : i - n = (i - (n + 1)) + 1 := by omega
      rw [this]
      exact hget

theorem addUnique_pref (L : List String) (s : String) :
    L <+: addUnique L s := by
  rw [addUnique]
  split
  · exact List.prefix_refl L
  · exact ⟨[s], rfl⟩

theorem get?_mono {L L' : List String} {i : Nat} {s : String}
    (hp : L <+: L') (h : L.get? i = some s) : L'.get? i = some s := by
  rcases hp with ⟨M, rfl⟩
  rw [List.get?_append]
  · exact h
  · exact List.get?_eq_some.1 h |>.1

/-- Inversion of one dictionary call: the state advances to the
first-seen extension and the emitted bytes are a valid reference to the
string, stable under every further extension. -/
theorem call_inv {L : List String} {s : String} {d' : BinStrDict}
    {bs : List Nat} (h : (dictOf L).call s = .ok (d', bs)) :
    d' = dictOf (addUnique L s) ∧
    ∃ i, bs = [i / 256, i % 256] ∧ i < 65536 ∧
      (addUnique L s).get? i = some s := by
  rw [BinStrDict.call] at h
  cases hlk : List.lookup s (dictOf L).dict with
  | some j =>
    simp only [hlk] at h
    cases hp : pack16 j with
    | error e => simp only [hp] at h; cases h
    | ok jb =>
      simp only [hp] at h
      cases h
      rcases lookup_mkDictFrom_get L 0 j hlk with ⟨-, hget⟩
      rw [Nat.sub_zero] at hget
      have hj : j < 65536 := by
        rw [pack16] at hp
        by_cases hlt : j < 65536
        · exact hlt
        · rw [if_neg hlt] at hp; cases hp
      have hjb : bs = [j / 256, j % 256] := by
        rw [pack16, if_pos hj] at hp
        cases hp
        rfl
      have hmem : s ∈ L := by
        rcases List.get?_eq_some.1 hget with ⟨hlt, hval⟩
        exact hval ▸ List.get_mem L j hlt
      have haddu : addUnique L s = L := by rw [addUnique, if_pos hmem]
      exact ⟨by rw [haddu], j, hjb, hj, by rw [haddu]; exact hget⟩
  | none =>
    simp only [hlk] at h
    have hmem : s ∉ L := by
      intro hmem
      rcases lookup_mkDictFrom_of_mem L hmem 0 with ⟨i, hl, -, -⟩
      rw [show (dictOf L).dict = mkDictFrom 0 L from rfl] at hlk
      rw [hl] at hlk
      cases hlk
    have haddu : addUnique L s = L ++ [s] := by rw [addUnique, if_neg hmem]
    by_cases hig : (dictOf L).cur_index > 65536
    · rw [if_pos hig] at h; cases h
    · rw [if_neg hig] at h
      cases hp : pack16 (dictOf L).cur_index with
      | error e => simp only [hp] at h; cases h
      | ok jb =>
        simp only [hp] at h
        cases h
        have hcur : (dictOf L).cur_index = L.length := rfl
        have hj : L.length < 65536 := by
          rw [pack16] at hp
          rw [hcur] at hp
          by_cases hlt : L.length < 65536
          · exact hlt
          · rw [if_neg hlt] at hp; cases hp
        have hjb : bs = [L.length / 256, L.length % 256] := by
          rw [pack16, hcur, if_pos hj] at hp
          cases hp
          rfl
        refine ⟨?_, L.length, hjb, hj, ?_⟩
        · rw [haddu]
          show (⟨mkDictFrom 0 L ++ [(s, L.length)], L.length + 1⟩ :
              BinStrDict) = ⟨mkDictFrom 0 (L ++ [s]), (L ++ [s]).length⟩
          rw [mkDictFrom_append]
          simp
        · rw [haddu]
          exact List.get?_concat_length L s

/-- `readU16` undoes `pack16`. -/
theorem readU16_unpack {i : Nat} (hi : i < 65536) (rest : List Nat) :
    readU16 ([i / 256, i % 256] ++ rest) = .ok (i, rest) := by
  show readU16 (i / 256 :: i % 256 :: rest) = .ok (i, rest)
  rw [readU16]
  have : i / 256 * 256 + i % 256 = i := by omega
  rw [this]

theorem readStrRef_ok {inv : List String} {i : Nat} {s : String}
    (hi : i < 65536) (hs : inv.get? i = some s) (rest : List Nat) :
    readStrRef inv ([i / 256, i % 256] ++ rest) = .ok (s, rest) := by
  rw [readStrRef, readU16_unpack hi]
  simp only [hs]

/-- Inversion of `callAll`: the references read back as the original
strings against every extension of the final dictionary. -/
theorem callAll_inv {s_list : List String} :
    ∀ {L : List String} {d' : BinStrDict} {bss : List (List Nat)},
      (dictOf L).callAll s_list = .ok (d', bss) →
      ∃ L', d' = dictOf L' ∧ L <+: L' ∧
        ∀ inv, L' <+: inv → ∀ rest,
          readStrList inv s_list.length (bss.join ++ rest) =
            .ok (s_list, rest) := by
  induction s_list with
  | nil =>
    intro L d' bss h
    rw [BinStrDict.callAll] at h
    cases h
    exact ⟨L, rfl, List.prefix_refl L, fun inv _ rest => by
      simp only [List.join, List.nil_append]
      rfl⟩
  | cons s ss ih =>
    intro L d' bss h
    rw [BinStrDict.callAll] at h
    cases hc : (dictOf L).call s with
    | error e => simp only [hc] at h; cases h
    | ok p =>
      obtain ⟨d1, bs⟩ := p
      simp only [hc] at h
      rcases call_inv hc with ⟨rfl, i, rfl, hi, hget⟩
      cases hrec : BinStrDict.callAll (dictOf (addUnique L s)) ss with
      | error e => simp only [hrec] at h; cases h
      | ok q =>
        obtain ⟨d2, rbss⟩ := q
        simp only [hrec] at h
        cases h
        rcases ih hrec with ⟨L', rfl, hpre, hread⟩
        refine ⟨L', rfl, (addUnique_pref L s).trans hpre, ?_⟩
        intro inv hinv rest
        have h1 : readStrRef inv ([i / 256, i % 256] ++ (rbss.join ++ rest)) =
            .ok (s, rbss.join ++ rest) :=
          readStrRef_ok hi (get?_mono (hpre.trans hinv) hget) _
        show readStrList inv (ss.length + 1)
            ([i / 256, i % 256] ++ (rbss.join ++ rest)) = .ok (s :: ss, rest)
        rw [readStrList]
        simp only [h1]
        rw [hread inv hinv rest]

theorem pack8_inv {n : Nat} {bs : List Nat} (h : pack8 n = .ok bs) :
    bs = [n] ∧ n < 256 := by
  rw [pack8] at h
  by_cases hn : n < 256
  · rw [if_pos hn] at h
    cases h
    exact ⟨rfl, hn⟩
  · rw [if_neg hn] at h
    cases h

theorem pack16_inv {n : Nat} {bs : List Nat} (h : pack16 n = .ok bs) :
    bs = [n / 256, n % 256] ∧ n < 65536 := by
  rw [pack16] at h
  by_cases hn : n < 65536
  · rw [if_pos hn] at h
    cases h
    exact ⟨rfl, hn⟩
  · rw [if_neg hn] at h
    cases h

theorem pack32_inv {n : Nat} {bs : List Nat} (h : pack32 n = .ok bs) :
    bs = [n / 16777216 % 256, n / 65536 % 256, n / 256 % 256, n % 256] ∧
    n < 4294967296 := by
  rw [pack32] at h
  by_cases hn : n < 4294967296
  · rw [if_pos hn] at h
    cases h
    exact ⟨rfl, hn⟩
  · rw [if_neg hn] at h
    cases h

theorem readU32_unpack {n : Nat} (hn : n < 4294967296) (rest : List Nat) :
    readU32 ([n / 16777216 % 256, n / 65536 % 256, n / 256 % 256, n % 256]
      ++ rest) = .ok (n, rest) := by
  show readU32 (n / 16777216 % 256 :: n / 65536 % 256 :: n / 256 % 256 ::
    n % 256 :: rest) = .ok (n, rest)
  rw [readU32]
  have : ((n / 16777216 % 256 * 256 + n / 65536 % 256) * 256 +
      n / 256 % 256) * 256 + n % 256 = n := by omega
  rw [this]

theorem readU32C {n : Nat} (hn : n < 4294967296) (rest : List Nat) :
    readU32 (n / 16777216 % 256 :: n / 65536 % 256 :: n / 256 % 256 ::
      n % 256 :: rest) = .ok (n, rest) :=
  readU32_unpack hn rest

theorem packF64_unpack {v : Int} {bs : List Nat} (h : packF64 v = .ok bs) :
    ∀ rest, readF64 (bs ++ rest) = .ok (v, rest) := by
  rw [packF64] at h
  by_cases hr : v.natAbs < 2 ^ 53
  · rw [if_pos hr] at h
    cases h
    intro rest
    show readF64 ((if v < 0 then 1 else 0) :: v.natAbs / 256 ^ 6 % 256 ::
      v.natAbs / 256 ^ 5 % 256 :: v.natAbs / 256 ^ 4 % 256 ::
      v.natAbs / 256 ^ 3 % 256 :: v.natAbs / 256 ^ 2 % 256 ::
      v.natAbs / 256 % 256 :: v.natAbs % 256 :: rest) = .ok (v, rest)
    rw [readF64]
    have hm : ((((((v.natAbs / 256 ^ 6 % 256) * 256 +
        v.natAbs / 256 ^ 5 % 256) * 256 + v.natAbs / 256 ^ 4 % 256) * 256 +
        v.natAbs / 256 ^ 3 % 256) * 256 + v.natAbs / 256 ^ 2 % 256) * 256 +
        v.natAbs / 256 % 256) * 256 + v.natAbs % 256 = v.natAbs := by
      have h56 : v.natAbs < 256 ^ 7 := lt_of_lt_of_le hr (by norm_num)
      omega
    simp only [hm]
    by_cases hv : v < 0
    · simp [hv]
      rw [abs_of_neg hv]
      exact neg_neg v
    · have hna : ((v.natAbs : Int)) = v := by omega
      simp [hv, hna]
  · rw [if_neg hr] at h
    cases h

theorem bits8 : ∀ p : Nat, p < 128 →
    (p ||| 128) &&& 127 = p ∧ p &&& 127 = p ∧ (p ||| 128) &&& 128 = 128 ∧
    p &&& 128 = 0 ∧ p ||| 128 < 256 := by decide

theorem log2fuel_pow : ∀ (p fuel : Nat), 2 ^ p ≤ fuel →
    log2fuel fuel (2 ^ p) = p := by
  intro p
  induction p with
  | zero =>
    intro fuel hf
    cases fuel with
    | zero => omega
    | succ f =>
      rw [pow_zero, log2fuel]
      rw [if_neg (by omega)]
  | succ p ih =>
    intro fuel hf
    have h2 : (2 : Nat) ≤ 2 ^ (p + 1) := by
      calc (2 : Nat) = 2 ^ 1 := by norm_num
      _ ≤ 2 ^ (p + 1) := Nat.pow_le_pow_right (by omega) (by omega)
    cases fuel with
    | zero => omega
    | succ f =>
      rw [log2fuel, if_pos h2]
      have hdiv : 2 ^ (p + 1) / 2 = 2 ^ p := by
        rw [pow_succ]
        omega
      rw [hdiv]
      have hle : 2 ^ p ≤ f := by
        have h1 : 1 ≤ 2 ^ p := Nat.one_le_two_pow
        rw [pow_succ] at hf
        omega
      rw [ih f hle]

theorem natLog2_pow (p : Nat) : natLog2 (2 ^ p) = p :=
  log2fuel_pow p (2 ^ p) le_rfl

theorem writeTags_inv {L : List String} {tags : List String}
    {d' : BinStrDict} {bytes : List Nat}
    (h : writeTags (dictOf L) tags = .ok (d', bytes)) :
    ∃ L', d' = dictOf L' ∧ L <+: L' ∧ ∀ inv, L' <+: inv → ∀ rest,
      readTags inv (bytes ++ rest) = .ok (mkTagSet tags, rest) := by
  rw [writeTags] at h
  cases hp : pack8 tags.length with
  | error e => simp only [hp] at h; cases h
  | ok cb =>
    simp only [hp] at h
    cases hc : (dictOf L).callAll tags with
    | error e => simp only [hc] at h; cases h
    | ok q =>
      obtain ⟨d1, refs⟩ := q
      simp only [hc] at h
      cases h
      rcases pack8_inv hp with ⟨rfl, hlt⟩
      rcases callAll_inv hc with ⟨L', rfl, hpre, hread⟩
      refine ⟨L', rfl, hpre, ?_⟩
      intro inv hinv rest
      show readTags inv (tags.length :: (refs.join ++ rest)) =
        .ok (mkTagSet tags, rest)
      rw [readTags]
      show (match readStrList inv tags.length (refs.join ++ rest) with
        | .error e => (.error e : Except String (List String × List Nat))
        | .ok (ss, bs) => .ok (mkTagSet ss, bs)) = .ok (mkTagSet tags, rest)
      rw [hread inv hinv rest]

theorem serialiseSfEntries_inv :
    ∀ {l : List ValListEntry} {L : List String} {d' : BinStrDict}
      {bytes : List Nat},
      (∀ e ∈ l, SfShapeOk e) →
      serialiseSfEntries (dictOf L) l = .ok (d', bytes) →
      ∃ L', d' = dictOf L' ∧ L <+: L' ∧ ∀ inv, L' <+: inv → ∀ rest,
        readSfEntries inv l.length (bytes ++ rest) = .ok (l, rest) := by
  intro l
  induction l with
  | nil =>
    intro L d' bytes _ h
    rw [serialiseSfEntries] at h
    cases h
    exact ⟨L, rfl, List.prefix_refl L, fun inv _ rest => rfl⟩
  | cons e l ih =>
    intro L d' bytes hshape h
    have hse : SfShapeOk e := hshape e (List.mem_cons_self _ _)
    cases e with
    | sf4 a b c d => cases hse
    | ch3 a b c => cases hse
    | ch2 a b => cases hse
    | sf3 v n df =>
      obtain ⟨hv, hp127, hpow⟩ := hse
      rw [serialiseSfEntries] at h
      have hlog : pyIntLog2 v = .ok (natLog2 v.toNat) := by
        rw [pyIntLog2, if_neg (by omega)]
      simp only [hlog] at h
      have htn : v.toNat = 2 ^ natLog2 v.toNat := by omega
      cases hp : pack8 (if df then natLog2 v.toNat ||| 128
          else natLog2 v.toNat) with
      | error er => simp only [hp] at h; cases h
      | ok pb =>
        simp only [hp] at h
        cases hcall : (dictOf L).call n with
        | error er => simp only [hcall] at h; cases h
        | ok q =>
          obtain ⟨d1, nb⟩ := q
          simp only [hcall] at h
          rcases call_inv hcall with ⟨rfl, i, rfl, hi, hget⟩
          cases hrec : serialiseSfEntries (dictOf (addUnique L n)) l with
          | error er => simp only [hrec] at h; cases h
          | ok q2 =>
            obtain ⟨d2, rb⟩ := q2
            simp only [hrec] at h
            cases h
            rcases ih (fun x hx => hshape x (List.mem_cons.2 (Or.inr hx)))
              hrec with ⟨L', rfl, hpre, hread⟩
            rcases pack8_inv hp with ⟨rfl, -⟩
            refine ⟨L', rfl, (addUnique_pref L n).trans hpre, ?_⟩
            intro inv hinv rest
            have hb := bits8 (natLog2 v.toNat) (by omega)
            show readSfEntries inv (l.length + 1)
              ((if df then natLog2 v.toNat ||| 128 else natLog2 v.toNat) ::
                ([i / 256, i % 256] ++ (rb ++ rest))) = .ok (.sf3 v n df :: l, rest)
            rw [readSfEntries]
            show (match readStrRef inv ([i / 256, i % 256] ++ (rb ++ rest)) with
              | .error e =>
                (.error e : Except String (List ValListEntry × List Nat))
              | .ok (nm, bs) =>
                match readSfEntries inv l.length bs with
                | .error e => .error e
                | .ok (r, bs) =>
                  .ok (.sf3 (((1 <<< ((if df then natLog2 v.toNat ||| 128
                          else natLog2 v.toNat) &&& 127) : Nat) : Int)) nm
                        (((if df then natLog2 v.toNat ||| 128
                          else natLog2 v.toNat) &&& 128) ≠ 0) :: r, bs)) =
              .ok (.sf3 v n df :: l, rest)
            simp only [readStrRef_ok hi
              (get?_mono (hpre.trans hinv) hget)]
            simp only [hread inv hinv rest]
            cases df with
            | true =>
              simp only [if_pos rfl, if_true]
              rw [hb.1, hb.2.2.1]
              rw [Nat.shiftLeft_eq, one_mul, ← htn]
              have hvt : ((v.toNat : Nat) : Int) = v := by omega
              rw [hvt]
              simp
            | false =>
              simp only [Bool.false_eq_true, if_neg (by simp : ¬False)]
              rw [hb.2.1, hb.2.2.2.1]
              rw [Nat.shiftLeft_eq, one_mul, ← htn]
              have hvt : ((v.toNat : Nat) : Int) = v := by omega
              rw [hvt]
              simp

theorem serialiseChEntries_inv :
    ∀ {l : List ValListEntry} {L : List String} {d' : BinStrDict}
      {bytes : List Nat},
      (∀ e ∈ l, ChShapeOk e) →
      serialiseChEntries (dictOf L) l = .ok (d', bytes) →
      ∃ L', d' = dictOf L' ∧ L <+: L' ∧ ∀ inv, L' <+: inv → ∀ rest,
        readChEntries inv l.length (bytes ++ rest) = .ok (l, rest) := by
  intro l
  induction l with
  | nil =>
    intro L d' bytes _ h
    rw [serialiseChEntries] at h
    cases h
    exact ⟨L, rfl, List.prefix_refl L, fun inv _ rest => rfl⟩
  | cons e l ih =>
    intro L d' bytes hshape h
    have hse : ChShapeOk e := hshape e (List.mem_cons_self _ _)
    cases e with
    | sf4 a b c d => cases hse
    | ch3 a b c => cases hse
    | sf3 a b c => cases hse
    | ch2 v n =>
      rw [serialiseChEntries] at h
      cases hc1 : (dictOf L).call v with
      | error er => simp only [hc1] at h; cases h
      | ok q1 =>
        obtain ⟨d1, vb⟩ := q1
        simp only [hc1] at h
        rcases call_inv hc1 with ⟨rfl, i, rfl, hi, hget1⟩
        cases hc2 : (dictOf (addUnique L v)).call n with
        | error er => simp only [hc2] at h; cases h
        | ok q2 =>
          obtain ⟨d2, nb⟩ := q2
          simp only [hc2] at h
          rcases call_inv hc2 with ⟨rfl, j, rfl, hj, hget2⟩
          cases hrec : serialiseChEntries
              (dictOf (addUnique (addUnique L v) n)) l with
          | error er => simp only [hrec] at h; cases h
          | ok q3 =>
            obtain ⟨d3, rb⟩ := q3
            simp only [hrec] at h
            cases h
            rcases ih (fun x hx => hshape x (List.mem_cons.2 (Or.inr hx)))
              hrec with ⟨L', rfl, hpre, hread⟩
            refine ⟨L', rfl, ((addUnique_pref L v).trans
              (addUnique_pref _ n)).trans hpre, ?_⟩
            intro inv hinv rest
            show readChEntries inv (l.length + 1)
              ([i / 256, i % 256] ++ ([j / 256, j % 256] ++ (rb ++ rest))) =
              .ok (.ch2 v n :: l, rest)
            rw [readChEntries]
            simp only [readStrRef_ok hi (get?_mono
              (((addUnique_pref _ n).trans hpre).trans hinv) hget1)]
            simp only [readStrRef_ok hj
              (get?_mono (hpre.trans hinv) hget2)]
            simp only [hread inv hinv rest]

theorem readU8_cons (a : Nat) (rest : List Nat) :
    readU8 (a :: rest) = .ok (a, rest) := rfl

theorem readStrRefC {inv : List String} {i : Nat} {s : String}
    (hi : i < 65536) (hs : inv.get? i = some s) (rest : List Nat) :
    readStrRef inv (i / 256 :: i % 256 :: rest) = .ok (s, rest) :=
  readStrRef_ok hi hs rest

theorem readU16C {n : Nat} (hn : n < 65536) (rest : List Nat) :
    readU16 (n / 256 :: n % 256 :: rest) = .ok (n, rest) :=
  readU16_unpack hn rest

theorem vti_lt : ∀ t : ValueTypes, VALUE_TYPE_INDEX t < 128 := by
  intro t
  cases t <;> decide

theorem valueTypeAt_vti : ∀ t : ValueTypes,
    valueTypeAt (VALUE_TYPE_INDEX t) = .ok t := by
  intro t
  cases t <;> rfl

theorem entityTypeAt_eti : ∀ t : EntityTypes,
    entityTypeAt (ENTITY_TYPE_INDEX t) = .ok t := by
  intro t
  cases t <;> rfl

/-- Inversion of `KeyValues.serialise` against `KeyValues.unserialise`
for a serialisable record: the bytes read back as `binKV kv` under
every extension of the final dictionary. -/
theorem kv_serialise_inv {kv : KeyValues} {L : List String}
    {d' : BinStrDict} {bytes : List Nat} (hs : KVSerialisable kv)
    (h : kv.serialise (dictOf L) = .ok (d', bytes)) :
    ∃ L', d' = dictOf L' ∧ L <+: L' ∧ ∀ inv, L' <+: inv → ∀ rest,
      KeyValues.unserialise inv (bytes ++ rest) = .ok (binKV kv, rest) := by
  obtain ⟨hvl, hro⟩ := hs
  have hvti : VALUE_TYPE_INDEX kv.type < 128 := vti_lt kv.type
  have hbits := bits8 (VALUE_TYPE_INDEX kv.type) hvti
  rw [KeyValues.serialise] at h
  cases hc1 : (dictOf L).call kv.name with
  | error e => simp only [hc1] at h; cases h
  | ok p1 =>
    obtain ⟨d1, b1⟩ := p1
    simp only [hc1] at h
    rcases call_inv hc1 with ⟨rfl, i1, rfl, hi1, hg1⟩
    cases hc2 : (dictOf (addUnique L kv.name)).call kv.disp_name with
    | error e => simp only [hc2] at h; cases h
    | ok p2 =>
      obtain ⟨d2, b2⟩ := p2
      simp only [hc2] at h
      rcases call_inv hc2 with ⟨rfl, i2, rfl, hi2, hg2⟩
      cases hp3 : pack8 (if pyTruthy kv.readonly
          then VALUE_TYPE_INDEX kv.type ||| 128
          else VALUE_TYPE_INDEX kv.type) with
      | error e => simp only [hp3] at h; cases h
      | ok b3 =>
        simp only [hp3] at h
        rcases pack8_inv hp3 with ⟨rfl, -⟩
        have hand127 : (if pyTruthy kv.readonly
            then VALUE_TYPE_INDEX kv.type ||| 128
            else VALUE_TYPE_INDEX kv.type) &&& 127 =
            VALUE_TYPE_INDEX kv.type := by
          cases hrot : pyTruthy kv.readonly with
          | true => simp only [hrot, if_pos rfl, if_true, hbits.1]
          | false =>
            simp only [hrot, Bool.false_eq_true, if_false, hbits.2.1]
        have hvta : valueTypeAt ((if pyTruthy kv.readonly
            then VALUE_TYPE_INDEX kv.type ||| 128
            else VALUE_TYPE_INDEX kv.type) &&& 127) = .ok kv.type := by
          rw [hand127]
          exact valueTypeAt_vti kv.type
        have hro128 : (((if pyTruthy kv.readonly
            then VALUE_TYPE_INDEX kv.type ||| 128
            else VALUE_TYPE_INDEX kv.type) &&& 128 : Nat) : Int) =
            (if pyTruthy kv.readonly then (128 : Int) else 0) := by
          cases hrot : pyTruthy kv.readonly with
          | true =>
            simp only [hrot, if_pos rfl, if_true, hbits.2.2.1]
            norm_num
          | false =>
            simp only [hrot, Bool.false_eq_true, if_false, hbits.2.2.2.1]
            norm_num
        by_cases htype : kv.type = .SPAWNFLAGS
        · rw [if_pos htype] at h
          rw [if_pos htype] at hvl
          obtain ⟨l, hvle, hshape⟩ := hvl
          simp only [hvle] at h
          cases hp4 : pack8 l.length with
          | error e => simp only [hp4] at h; cases h
          | ok b4 =>
            simp only [hp4] at h
            rcases pack8_inv hp4 with ⟨rfl, -⟩
            cases hsf : serialiseSfEntries
                (dictOf (addUnique (addUnique L kv.name) kv.disp_name))
                l with
            | error e => simp only [hsf] at h; cases h
            | ok p3 =>
              obtain ⟨d3, b5⟩ := p3
              simp only [hsf] at h
              cases h
              rcases serialiseSfEntries_inv hshape hsf with
                ⟨L', rfl, hpre, hread⟩
              refine ⟨L', rfl, ((addUnique_pref L kv.name).trans
                (addUnique_pref _ kv.disp_name)).trans hpre, ?_⟩
              intro inv hinv rest
              simp only [KeyValues.unserialise, List.append_assoc,
                List.cons_append, List.singleton_append, List.nil_append,
                readStrRefC hi1 (get?_mono
                  (((addUnique_pref _ kv.disp_name).trans hpre).trans
                    hinv) hg1),
                readStrRefC hi2
                  (get?_mono (hpre.trans hinv) hg2),
                readU8_cons, hvta, if_pos htype,
                hread inv hinv rest]
              rw [binKV]
              rw [htype] at hro128
              simp [htype, hvle, hro128]
        · rw [if_neg htype] at h
          have hdef : (if kv.default ≠ "" then kv.default else "") =
              kv.default := by
            by_cases hd : kv.default = ""
            · simp [hd]
            · simp [hd]
          rw [hdef] at h
          cases hc4 : (dictOf (addUnique (addUnique L kv.name)
              kv.disp_name)).call kv.default with
          | error e => simp only [hc4] at h; cases h
          | ok p4 =>
            obtain ⟨d4, b4⟩ := p4
            simp only [hc4] at h
            rcases call_inv hc4 with ⟨rfl, i4, rfl, hi4, hg4⟩
            by_cases hch : kv.type = .CHOICES
            · rw [if_pos hch] at h
              rw [if_neg htype, if_pos hch] at hvl
              obtain ⟨l, hvle, hshape⟩ := hvl
              simp only [hvle] at h
              cases hp5 : pack16 l.length with
              | error e => simp only [hp5] at h; cases h
              | ok b5 =>
                simp only [hp5] at h
                rcases pack16_inv hp5 with ⟨rfl, hcnt⟩
                cases hce : serialiseChEntries
                    (dictOf (addUnique (addUnique (addUnique L kv.name)
                      kv.disp_name) kv.default)) l with
                | error e => simp only [hce] at h; cases h
                | ok p5 =>
                  obtain ⟨d5, b6⟩ := p5
                  simp only [hce] at h
                  cases h
                  rcases serialiseChEntries_inv hshape hce with
                    ⟨L', rfl, hpre, hread⟩
                  refine ⟨L', rfl,
                    (((addUnique_pref L kv.name).trans
                      (addUnique_pref _ kv.disp_name)).trans
                      (addUnique_pref _ kv.default)).trans hpre, ?_⟩
                  intro inv hinv rest
                  simp only [KeyValues.unserialise, List.append_assoc,
                    List.cons_append, List.singleton_append, List.nil_append,
                    readStrRefC hi1 (get?_mono
                      ((((addUnique_pref _ kv.disp_name).trans
                        (addUnique_pref _ kv.default)).trans hpre).trans
                        hinv) hg1),
                    readStrRefC hi2 (get?_mono
                      (((addUnique_pref _ kv.default).trans hpre).trans
                        hinv) hg2),
                    readStrRefC hi4
                      (get?_mono (hpre.trans hinv) hg4),
                    readU8_cons, hvta, if_neg htype, if_pos hch,
                    readU16C hcnt,
                    hread inv hinv rest]
                  rw [binKV]
                  rw [hch] at hro128
                  simp [htype, hch, hvle, hro128]
            · rw [if_neg hch] at h
              cases h
              rw [if_neg htype, if_neg hch] at hvl
              refine ⟨addUnique (addUnique (addUnique L kv.name)
                kv.disp_name) kv.default, rfl,
                ((addUnique_pref L kv.name).trans
                  (addUnique_pref _ kv.disp_name)).trans
                  (addUnique_pref _ kv.default), ?_⟩
              intro inv hinv rest
              simp only [KeyValues.unserialise, List.append_assoc,
                List.cons_append, List.singleton_append, List.nil_append,
                readStrRefC hi1 (get?_mono
                  (((addUnique_pref _ kv.disp_name).trans
                    (addUnique_pref _ kv.default)).trans hinv) hg1),
                readStrRefC hi2 (get?_mono
                  ((addUnique_pref _ kv.default).trans hinv) hg2),
                readStrRefC hi4 (get?_mono hinv hg4),
                readU8_cons, hvta, if_neg htype, if_neg hch]
              rw [binKV]
              simp [htype, hch, hvl, hro128]

/-- Inversion of `IODef.serialise` against `IODef.unserialise`. -/
theorem io_serialise_inv {io : IODef} {L : List String}
    {d' : BinStrDict} {bytes : List Nat}
    (h : io.serialise (dictOf L) = .ok (d', bytes)) :
    ∃ L', d' = dictOf L' ∧ L <+: L' ∧ ∀ inv, L' <+: inv → ∀ rest,
      IODef.unserialise inv (bytes ++ rest) = .ok (binIo io, rest) := by
  rw [IODef.serialise] at h
  cases hc1 : (dictOf L).call io.name with
  | error e => simp only [hc1] at h; cases h
  | ok p1 =>
    obtain ⟨d1, b1⟩ := p1
    simp only [hc1] at h
    rcases call_inv hc1 with ⟨rfl, i1, rfl, hi1, hg1⟩
    cases hp2 : pack8 (VALUE_TYPE_INDEX io.type) with
    | error e => simp only [hp2] at h; cases h
    | ok b2 =>
      simp only [hp2] at h
      cases h
      rcases pack8_inv hp2 with ⟨rfl, -⟩
      refine ⟨addUnique L io.name, rfl, addUnique_pref L io.name, ?_⟩
      intro inv hinv rest
      simp only [IODef.unserialise, List.append_assoc, List.cons_append,
        List.singleton_append, List.nil_append,
        readStrRefC hi1 (get?_mono hinv hg1),
        readU8_cons, valueTypeAt_vti io.type]
      rw [binIo]

/-- The shape of every leaf-record inversion lemma: serialising a good
record from any dictionary state yields bytes that read back as the
transformed record against every extension of the final dictionary. -/
def LeafInv {α : Type}
    (wr : α → BinStrDict → Except String (BinStrDict × List Nat))
    (rd : List String → List Nat → Except String (α × List Nat))
    (P : α → Prop) (tr : α → α) : Prop :=
  ∀ (v : α) (L : List String) (d' : BinStrDict) (bytes : List Nat),
    P v → wr v (dictOf L) = .ok (d', bytes) →
    ∃ L', d' = dictOf L' ∧ L <+: L' ∧ ∀ inv, L' <+: inv → ∀ rest,
      rd inv (bytes ++ rest) = .ok (tr v, rest)

theorem kv_leafInv :
    LeafInv KeyValues.serialise KeyValues.unserialise KVSerialisable
      binKV :=
  fun _ _ _ _ hs h => kv_serialise_inv hs h

theorem io_leafInv :
    LeafInv IODef.serialise IODef.unserialise (fun _ => True) binIo :=
  fun _ _ _ _ _ h => io_serialise_inv h

theorem any_key_eq_false {κ β : Type} [DecidableEq κ] {m : List (κ × β)}
    {k : κ} (hk : k ∉ m.map Prod.fst) :
    (m.any (fun p => p.1 = k)) = false := by
  rw [List.any_eq_false]
  intro p hp
  simp only [decide_eq_true_eq]
  intro he
  exact hk (List.mem_map.2 ⟨p, hp, he⟩)

theorem tagMapSet_append {α : Type} {m : TagMap α} {k : List String}
    {v : α} (hk : k ∉ m.map Prod.fst) : tagMapSet m k v = m ++ [(k, v)] := by
  rw [tagMapSet]
  simp only [any_key_eq_false hk, Bool.false_eq_true, if_false]

theorem attrMapSet_append {α : Type} {m : AttrMap α} {k : String}
    {v : TagMap α} (hk : k ∉ m.map Prod.fst) :
    attrMapSet m k v = m ++ [(k, v)] := by
  rw [attrMapSet]
  simp only [any_key_eq_false hk, Bool.false_eq_true, if_false]

theorem writeTagEntries_inv {α : Type}
    {wr : α → BinStrDict → Except String (BinStrDict × List Nat)}
    {rd : List String → List Nat → Except String (α × List Nat)}
    {P : α → Prop} {tr : α → α} (hleaf : LeafInv wr rd P tr) :
    ∀ {tm : TagMap α} {L : List String} {d' : BinStrDict}
      {bytes : List Nat},
      (tm.map Prod.fst).Nodup →
      (∀ p ∈ tm, mkTagSet p.1 = p.1 ∧ P p.2) →
      writeTagEntries wr (dictOf L) tm = .ok (d', bytes) →
      ∃ L', d' = dictOf L' ∧ L <+: L' ∧ ∀ inv, L' <+: inv →
        ∀ rest (acc : TagMap α),
          (∀ p ∈ tm, p.1 ∉ acc.map Prod.fst) →
          readTagMapEntries rd inv tm.length acc (bytes ++ rest) =
            .ok (acc ++ tm.map (fun p => (p.1, tr p.2)), rest) := by
  intro tm
  induction tm with
  | nil =>
    intro L d' bytes _ _ h
    rw [writeTagEntries] at h
    cases h
    refine ⟨L, rfl, List.prefix_refl L, ?_⟩
    intro inv _ rest acc _
    simp only [List.map_nil, List.append_nil, List.length_nil]
    rfl
  | cons p tmrest ih =>
    intro L d' bytes hnd hgood h
    obtain ⟨tags, v⟩ := p
    rw [writeTagEntries] at h
    cases hwt : writeTags (dictOf L) tags with
    | error e => simp only [hwt] at h; cases h
    | ok q1 =>
      obtain ⟨d1, tb⟩ := q1
      simp only [hwt] at h
      rcases writeTags_inv hwt with ⟨L1, rfl, hpre1, hrt⟩
      cases hwr : wr v (dictOf L1) with
      | error e => simp only [hwr] at h; cases h
      | ok q2 =>
        obtain ⟨d2, vb⟩ := q2
        simp only [hwr] at h
        rcases hleaf v L1 d2 vb
          (hgood (tags, v) (List.mem_cons_self _ _)).2 hwr with
          ⟨L2, rfl, hpre2, hrd⟩
        cases hrec : writeTagEntries wr (dictOf L2) tmrest with
        | error e => simp only [hrec] at h; cases h
        | ok q3 =>
          obtain ⟨d3, rb⟩ := q3
          simp only [hrec] at h
          cases h
          rcases ih (List.nodup_cons.1 hnd).2
            (fun x hx => hgood x (List.mem_cons.2 (Or.inr hx))) hrec with
            ⟨L', rfl, hpre3, hread⟩
          refine ⟨L', rfl, (hpre1.trans hpre2).trans hpre3, ?_⟩
          intro inv hinv rest acc hacc
          have hcanon : mkTagSet tags = tags :=
            (hgood (tags, v) (List.mem_cons_self _ _)).1
          simp only [List.append_assoc, List.length_cons, List.map_cons]
          rw [readTagMapEntries]
          simp only [hrt inv ((hpre2.trans hpre3).trans hinv)
            (vb ++ (rb ++ rest)), hcanon]
          simp only [hrd inv (hpre3.trans hinv) (rb ++ rest)]
          have hset : tagMapSet acc tags (tr v) = acc ++ [(tags, tr v)] :=
            tagMapSet_append (hacc (tags, v) (List.mem_cons_self _ _))
          rw [hset]
          have hdisj : ∀ p ∈ tmrest,
              p.1 ∉ (acc ++ [(tags, tr v)]).map Prod.fst := by
            intro p hp
            rw [List.map_append]
            intro hmem
            rcases List.mem_append.1 hmem with hm | hm
            · exact hacc p (List.mem_cons.2 (Or.inr hp)) hm
            · simp only [List.map_cons, List.map_nil,
                List.mem_singleton] at hm
              exact (List.nodup_cons.1 hnd).1
                (hm ▸ List.mem_map.2 ⟨p, hp, rfl⟩)
          rw [hread inv hinv rest (acc ++ [(tags, tr v)]) hdisj]
          rw [List.append_assoc]
          rfl

theorem writeTagMapGen_inv {α : Type}
    {wr : α → BinStrDict → Except String (BinStrDict × List Nat)}
    {rd : List String → List Nat → Except String (α × List Nat)}
    {P : α → Prop} {tr : α → α} (hleaf : LeafInv wr rd P tr)
    {nm : α → String} (hnm : ∀ v, nm (tr v) = nm v)
    {tags₀ : List String} {v₀ : α} {tmrest : TagMap α} {name : String}
    {L : List String} {d' : BinStrDict} {bytes : List Nat}
    (hnd : (((tags₀, v₀) :: tmrest).map Prod.fst).Nodup)
    (hgood : ∀ p ∈ (tags₀, v₀) :: tmrest,
      mkTagSet p.1 = p.1 ∧ nm p.2 = name ∧ P p.2)
    (h : (match pack8 (tmrest.length + 1) with
          | .error e => (.error e : Except String (BinStrDict × List Nat))
          | .ok cb =>
            match writeTagEntries wr (dictOf L)
                ((tags₀, v₀) :: tmrest) with
            | .error e => .error e
            | .ok (d1, eb) => .ok (d1, cb ++ eb)) = .ok (d', bytes)) :
    ∃ L', d' = dictOf L' ∧ L <+: L' ∧ ∀ inv, L' <+: inv →
      ∀ rest (am : AttrMap α),
        readOneAttr rd nm inv am (bytes ++ rest) =
          .ok (attrMapSet am name
            (((tags₀, v₀) :: tmrest).map (fun p => (p.1, tr p.2))),
            rest) := by
  cases hp : pack8 (tmrest.length + 1) with
  | error e => simp only [hp] at h; cases h
  | ok cb =>
    simp only [hp] at h
    rcases pack8_inv hp with ⟨rfl, -⟩
    rw [writeTagEntries] at h
    cases hwt : writeTags (dictOf L) tags₀ with
    | error e => simp only [hwt] at h; cases h
    | ok q1 =>
      obtain ⟨d1, tb⟩ := q1
      simp only [hwt] at h
      rcases writeTags_inv hwt with ⟨L1, rfl, hpre1, hrt⟩
      cases hwr : wr v₀ (dictOf L1) with
      | error e => simp only [hwr] at h; cases h
      | ok q2 =>
        obtain ⟨d2, vb⟩ := q2
        simp only [hwr] at h
        rcases hleaf v₀ L1 d2 vb
          (hgood (tags₀, v₀) (List.mem_cons_self _ _)).2.2 hwr with
          ⟨L2, rfl, hpre2, hrd⟩
        cases hrec : writeTagEntries wr (dictOf L2) tmrest with
        | error e => simp only [hrec] at h; cases h
        | ok q3 =>
          obtain ⟨d3, rb⟩ := q3
          simp only [hrec] at h
          cases h
          rcases writeTagEntries_inv hleaf (List.nodup_cons.1 hnd).2
            (fun x hx =>
              ⟨(hgood x (List.mem_cons.2 (Or.inr hx))).1,
               (hgood x (List.mem_cons.2 (Or.inr hx))).2.2⟩) hrec with
            ⟨L', rfl, hpre3, hread⟩
          refine ⟨L', rfl, (hpre1.trans hpre2).trans hpre3, ?_⟩
          intro inv hinv rest am
          have hcanon : mkTagSet tags₀ = tags₀ :=
            (hgood (tags₀, v₀) (List.mem_cons_self _ _)).1
          have hname : nm v₀ = name :=
            (hgood (tags₀, v₀) (List.mem_cons_self _ _)).2.1
          simp only [List.append_assoc, List.cons_append,
            List.singleton_append, List.nil_append, List.map_cons]
          rw [readOneAttr]
          simp only [readU8_cons]
          rw [if_neg (by omega)]
          simp only [hrt inv ((hpre2.trans hpre3).trans hinv)
            (vb ++ (rb ++ rest)), hcanon]
          simp only [hrd inv (hpre3.trans hinv) (rb ++ rest)]
          have hdisj : ∀ p ∈ tmrest,
              p.1 ∉ ([(tags₀, tr v₀)] : TagMap α).map Prod.fst := by
            intro p hp2
            simp only [List.map_cons, List.map_nil, List.mem_singleton]
            intro hm
            exact (List.nodup_cons.1 hnd).1
              (hm ▸ List.mem_map.2 ⟨p, hp2, rfl⟩)
          have hcnt : tmrest.length + 1 - 1 = tmrest.length := by omega
          rw [hcnt]
          rw [hread inv hinv rest [(tags₀, tr v₀)] hdisj]
          rw [hnm, hname]
          rfl

theorem writeTagMap_inv {α : Type}
    {wr : α → BinStrDict → Except String (BinStrDict × List Nat)}
    {rd : List String → List Nat → Except String (α × List Nat)}
    {P : α → Prop} {tr : α → α} (hleaf : LeafInv wr rd P tr)
    {nm : α → String} (hnm : ∀ v, nm (tr v) = nm v) :
    ∀ {tm : TagMap α} {name : String} {L : List String}
      {d' : BinStrDict} {bytes : List Nat},
      TagMapSerialisable nm P name tm →
      writeTagMap wr (dictOf L) tm = .ok (d', bytes) →
      ∃ L', d' = dictOf L' ∧ L <+: L' ∧ ∀ inv, L' <+: inv →
        ∀ rest (am : AttrMap α),
          readOneAttr rd nm inv am (bytes ++ rest) =
            .ok (attrMapSet am name
              (tm.map (fun p => (p.1, tr p.2))), rest) := by
  intro tm name L d' bytes hser h
  obtain ⟨hne, hnd, hgood⟩ := hser
  cases tm with
  | nil => exact absurd rfl hne
  | cons p0 tmrest =>
    obtain ⟨tags₀, v₀⟩ := p0
    cases tmrest with
    | cons p1 tmrest' =>
      rw [writeTagMap] at h
      · exact writeTagMapGen_inv hleaf hnm hnd hgood h
      · simp
    | nil =>
      cases tags₀ with
      | cons t ts =>
        rw [writeTagMap] at h
        · exact writeTagMapGen_inv hleaf hnm hnd hgood h
        · simp
      | nil =>
        rw [writeTagMap] at h
        cases hwr : wr v₀ (dictOf L) with
        | error e => simp only [hwr] at h; cases h
        | ok q =>
          obtain ⟨d1, vb⟩ := q
          simp only [hwr] at h
          cases h
          rcases hleaf v₀ L _ vb
            (hgood (([], v₀)) (List.mem_cons_self _ _)).2.2 hwr with
            ⟨L', rfl, hpre, hrd⟩
          refine ⟨L', rfl, hpre, ?_⟩
          intro inv hinv rest am
          have hname : nm v₀ = name :=
            (hgood (([], v₀)) (List.mem_cons_self _ _)).2.1
          show readOneAttr rd nm inv am (0 :: (vb ++ rest)) =
            .ok (attrMapSet am name [([], tr v₀)], rest)
          rw [readOneAttr, readU8_cons]
          simp only [if_pos rfl, if_true]
          simp only [hrd inv hinv rest]
          rw [hnm, hname]

theorem writeAttrMap_inv {α : Type}
    {wr : α → BinStrDict → Except String (BinStrDict × List Nat)}
    {rd : List String → List Nat → Except String (α × List Nat)}
    {P : α → Prop} {tr : α → α} (hleaf : LeafInv wr rd P tr)
    {nm : α → String} (hnm : ∀ v, nm (tr v) = nm v) :
    ∀ {am : AttrMap α} {L : List String} {d' : BinStrDict}
      {bytes : List Nat},
      AttrMapSerialisable nm P am →
      writeAttrMap wr (dictOf L) am = .ok (d', bytes) →
      ∃ L', d' = dictOf L' ∧ L <+: L' ∧ ∀ inv, L' <+: inv →
        ∀ rest (acc : AttrMap α),
          (∀ q ∈ am, q.1 ∉ acc.map Prod.fst) →
          readAttrMap rd nm inv am.length acc (bytes ++ rest) =
            .ok (acc ++ am.map
              (fun q => (q.1, q.2.map (fun p => (p.1, tr p.2)))), rest) := by
  intro am
  induction am with
  | nil =>
    intro L d' bytes _ h
    rw [writeAttrMap] at h
    cases h
    refine ⟨L, rfl, List.prefix_refl L, ?_⟩
    intro inv _ rest acc _
    simp only [List.map_nil, List.append_nil, List.length_nil]
    rfl
  | cons q amrest ih =>
    intro L d' bytes hser h
    obtain ⟨name, tm⟩ := q
    obtain ⟨hnd, hgood⟩ := hser
    rw [writeAttrMap] at h
    cases hwm : writeTagMap wr (dictOf L) tm with
    | error e => simp only [hwm] at h; cases h
    | ok q1 =>
      obtain ⟨d1, tb⟩ := q1
      simp only [hwm] at h
      rcases writeTagMap_inv hleaf hnm
        (hgood (name, tm) (List.mem_cons_self _ _)) hwm with
        ⟨L1, rfl, hpre1, hone⟩
      cases hrec : writeAttrMap wr (dictOf L1) amrest with
      | error e => simp only [hrec] at h; cases h
      | ok q2 =>
        obtain ⟨d2, rb⟩ := q2
        simp only [hrec] at h
        cases h
        rcases ih ⟨(List.nodup_cons.1 hnd).2,
          fun x hx => hgood x (List.mem_cons.2 (Or.inr hx))⟩ hrec with
          ⟨L', rfl, hpre2, hread⟩
        refine ⟨L', rfl, hpre1.trans hpre2, ?_⟩
        intro inv hinv rest acc hacc
        simp only [List.append_assoc, List.length_cons, List.map_cons]
        rw [readAttrMap]
        simp only [hone inv (hpre2.trans hinv) (rb ++ rest) acc]
        have hset : attrMapSet acc name
            (tm.map (fun p => (p.1, tr p.2))) =
            acc ++ [(name, tm.map (fun p => (p.1, tr p.2)))] :=
          attrMapSet_append (hacc (name, tm) (List.mem_cons_self _ _))
        rw [hset]
        have hdisj : ∀ x ∈ amrest, x.1 ∉
            (acc ++ [(name, tm.map (fun p => (p.1, tr p.2)))]).map
              Prod.fst := by
          intro x hx
          rw [List.map_append]
          intro hmem
          rcases List.mem_append.1 hmem with hm | hm
          · exact hacc x (List.mem_cons.2 (Or.inr hx)) hm
          · simp only [List.map_cons, List.map_nil,
              List.mem_singleton] at hm
            exact (List.nodup_cons.1 hnd).1
              (hm ▸ List.mem_map.2 ⟨x, hx, rfl⟩)
        rw [hread inv hinv rest _ hdisj]
        rw [List.append_assoc]
        rfl

theorem writeBaseRefs_inv {ents : List (String × Ent)} :
    ∀ {brs : List BaseRef} {L : List String} {d' : BinStrDict}
      {bytes : List Nat},
      writeBaseRefs ents (dictOf L) brs = .ok (d', bytes) →
      ∃ (ns : List String) (L' : List String), d' = dictOf L' ∧
        L <+: L' ∧
        List.Forall₂ (fun b n => ∃ k be, b = BaseRef.resolved k ∧
          List.lookup k ents = some be ∧ n = be.classname) brs ns ∧
        ∀ inv, L' <+: inv → ∀ rest,
          readStrList inv brs.length (bytes ++ rest) = .ok (ns, rest) := by
  intro brs
  induction brs with
  | nil =>
    intro L d' bytes h
    rw [writeBaseRefs] at h
    cases h
    exact ⟨[], L, rfl, List.prefix_refl L, List.Forall₂.nil,
      fun inv _ rest => rfl⟩
  | cons b brrest ih =>
    intro L d' bytes h
    cases b with
    | unresolved s => rw [writeBaseRefs] at h; cases h
    | resolved k =>
      rw [writeBaseRefs] at h
      cases hlk : List.lookup k ents with
      | none => simp only [hlk] at h; cases h
      | some be =>
        simp only [hlk] at h
        cases hc : (dictOf L).call be.classname with
        | error e => simp only [hc] at h; cases h
        | ok q1 =>
          obtain ⟨d1, bb⟩ := q1
          simp only [hc] at h
          rcases call_inv hc with ⟨rfl, i, rfl, hi, hget⟩
          cases hrec : writeBaseRefs ents
              (dictOf (addUnique L be.classname)) brrest with
          | error e => simp only [hrec] at h; cases h
          | ok q2 =>
            obtain ⟨d2, rb⟩ := q2
            simp only [hrec] at h
            cases h
            rcases ih hrec with ⟨ns, L', rfl, hpre, hfa, hread⟩
            refine ⟨be.classname :: ns, L', rfl,
              (addUnique_pref L be.classname).trans hpre,
              List.Forall₂.cons ⟨k, be, rfl, hlk, rfl⟩ hfa, ?_⟩
            intro inv hinv rest
            simp only [List.append_assoc, List.cons_append,
              List.singleton_append, List.nil_append, List.length_cons]
            rw [readStrList]
            simp only [readStrRefC hi
              (get?_mono (hpre.trans hinv) hget)]
            simp only [hread inv hinv rest]

/-- What an entity must satisfy for its record to survive the round
trip. -/
def EntSerialisable (e : Ent) : Prop :=
  AttrMapSerialisable KeyValues.name KVSerialisable e.keyvalues ∧
  AttrMapSerialisable IODef.name (fun _ => True) e.inputs ∧
  AttrMapSerialisable IODef.name (fun _ => True) e.outputs

theorem binKV_name (kv : KeyValues) : (binKV kv).name = kv.name := rfl

theorem binIo_name (io : IODef) : (binIo io).name = io.name := rfl

theorem entSerialise_inv {ents : List (String × Ent)} {e : Ent}
    {L : List String} {d' : BinStrDict} {bytes : List Nat}
    (hser : EntSerialisable e)
    (h : entSerialise ents e (dictOf L) = .ok (d', bytes)) :
    ∃ (ns : List String) (L' : List String), d' = dictOf L' ∧
      L <+: L' ∧
      List.Forall₂ (fun b n => ∃ k be, b = BaseRef.resolved k ∧
        List.lookup k ents = some be ∧ n = be.classname) e.bases ns ∧
      ∀ inv, L' <+: inv → ∀ rest,
        entUnserialise inv (bytes ++ rest) =
          .ok ({ binEnt e with bases := ns.map BaseRef.unresolved },
            rest) := by
  obtain ⟨hkv, hin, hout⟩ := hser
  rw [entSerialise] at h
  cases hp1 : pack8 (ENTITY_TYPE_INDEX e.type) with
  | error er => simp only [hp1] at h; cases h
  | ok h1 =>
    simp only [hp1] at h
    rcases pack8_inv hp1 with ⟨rfl, -⟩
    cases hp2 : pack8 e.bases.length with
    | error er => simp only [hp2] at h; cases h
    | ok h2 =>
      simp only [hp2] at h
      rcases pack8_inv hp2 with ⟨rfl, -⟩
      cases hp3 : pack8 e.keyvalues.length with
      | error er => simp only [hp3] at h; cases h
      | ok h3 =>
        simp only [hp3] at h
        rcases pack8_inv hp3 with ⟨rfl, -⟩
        cases hp4 : pack8 e.inputs.length with
        | error er => simp only [hp4] at h; cases h
        | ok h4 =>
          simp only [hp4] at h
          rcases pack8_inv hp4 with ⟨rfl, -⟩
          cases hp5 : pack8 e.outputs.length with
          | error er => simp only [hp5] at h; cases h
          | ok h5 =>
            simp only [hp5] at h
            rcases pack8_inv hp5 with ⟨rfl, -⟩
            cases hc : (dictOf L).call e.classname with
            | error er => simp only [hc] at h; cases h
            | ok q1 =>
              obtain ⟨d1, cb⟩ := q1
              simp only [hc] at h
              rcases call_inv hc with ⟨rfl, i, rfl, hi, hget⟩
              cases hwb : writeBaseRefs ents
                  (dictOf (addUnique L e.classname)) e.bases with
              | error er => simp only [hwb] at h; cases h
              | ok q2 =>
                obtain ⟨d2, bb⟩ := q2
                simp only [hwb] at h
                rcases writeBaseRefs_inv hwb with
                  ⟨ns, L2, rfl, hpre2, hfa, hrbases⟩
                cases hwk : writeAttrMap KeyValues.serialise (dictOf L2)
                    e.keyvalues with
                | error er => simp only [hwk] at h; cases h
                | ok q3 =>
                  obtain ⟨d3, kb⟩ := q3
                  simp only [hwk] at h
                  rcases writeAttrMap_inv kv_leafInv binKV_name hkv hwk
                    with ⟨L3, rfl, hpre3, hrkv⟩
                  cases hwi : writeAttrMap IODef.serialise (dictOf L3)
                      e.inputs with
                  | error er => simp only [hwi] at h; cases h
                  | ok q4 =>
                    obtain ⟨d4, ib⟩ := q4
                    simp only [hwi] at h
                    rcases writeAttrMap_inv io_leafInv binIo_name hin hwi
                      with ⟨L4, rfl, hpre4, hrin⟩
                    cases hwo : writeAttrMap IODef.serialise (dictOf L4)
                        e.outputs with
                    | error er => simp only [hwo] at h; cases h
                    | ok q5 =>
                      obtain ⟨d5, ob⟩ := q5
                      simp only [hwo] at h
                      cases h
                      rcases writeAttrMap_inv io_leafInv binIo_name hout
                        hwo with ⟨L', rfl, hpre5, hrout⟩
                      refine ⟨ns, L', rfl,
                        (addUnique_pref L e.classname).trans
                          (hpre2.trans (hpre3.trans
                            (hpre4.trans hpre5))), hfa, ?_⟩
                      intro inv hinv rest
                      simp only [List.append_assoc, List.cons_append,
                        List.singleton_append, List.nil_append]
                      rw [entUnserialise]
                      simp only [readU8_cons, entityTypeAt_eti e.type,
                        readStrRefC hi (get?_mono
                          ((hpre2.trans (hpre3.trans
                            (hpre4.trans hpre5))).trans hinv) hget),
                        hrbases inv ((hpre3.trans
                          (hpre4.trans hpre5)).trans hinv),
                        hrkv inv ((hpre4.trans hpre5).trans hinv)
                          (ib ++ (ob ++ rest)) []
                          (fun q _ hq => (List.not_mem_nil q.1) hq),
                        hrin inv (hpre5.trans hinv) (ob ++ rest) []
                          (fun q _ hq => (List.not_mem_nil q.1) hq),
                        hrout inv hinv rest []
                          (fun q _ hq => (List.not_mem_nil q.1) hq)]
                      rw [binEnt]
                      rfl

theorem dictInsert_append {l : List (String × Ent)} {k : String}
    {v : Ent} (hk : k ∉ l.map Prod.fst) : dictInsert l k v = l ++ [(k, v)] := by
  rw [dictInsert]
  simp only [any_key_eq_false hk, Bool.false_eq_true, if_false]

/-- The per-entity relation the round trip establishes before
`apply_bases` runs: same key, record transformed by `binEnt`, bases
temporarily held as the base entities' classnames. -/
def ReadRel (ents : List (String × Ent)) (p q : String × Ent) : Prop :=
  q.1 = p.1 ∧ ∃ ns : List String,
    List.Forall₂ (fun b n => ∃ k be, b = BaseRef.resolved k ∧
      List.lookup k ents = some be ∧ n = be.classname)
      (p.2 : Ent).bases ns ∧
    (q.2 : Ent) = { binEnt p.2 with bases := ns.map BaseRef.unresolved }

theorem serialiseEnts_inv {ents : List (String × Ent)} :
    ∀ {todo : List (String × Ent)} {L : List String} {d' : BinStrDict}
      {bytes : List Nat},
      (∀ p ∈ todo, EntSerialisable (p.2 : Ent) ∧
        pyLower (p.2 : Ent).classname = p.1) →
      (todo.map Prod.fst).Nodup →
      serialiseEnts ents (dictOf L) todo = .ok (d', bytes) →
      ∃ (reads : List (String × Ent)) (L' : List String),
        d' = dictOf L' ∧ L <+: L' ∧
        List.Forall₂ (ReadRel ents) todo reads ∧
        ∀ inv, L' <+: inv → ∀ rest (acc : List (String × Ent)),
          (∀ p ∈ todo, p.1 ∉ acc.map Prod.fst) →
          readEnts inv todo.length acc (bytes ++ rest) =
            .ok (acc ++ reads, rest) := by
  intro todo
  induction todo with
  | nil =>
    intro L d' bytes _ _ h
    rw [serialiseEnts] at h
    cases h
    refine ⟨[], L, rfl, List.prefix_refl L, List.Forall₂.nil, ?_⟩
    intro inv _ rest acc _
    simp only [List.append_nil, List.length_nil]
    rfl
  | cons p todorest ih =>
    intro L d' bytes hgood hnd h
    obtain ⟨k, e⟩ := p
    rw [serialiseEnts] at h
    cases hes : entSerialise ents e (dictOf L) with
    | error er => simp only [hes] at h; cases h
    | ok q1 =>
      obtain ⟨d1, eb⟩ := q1
      simp only [hes] at h
      rcases entSerialise_inv
        (hgood (k, e) (List.mem_cons_self _ _)).1 hes with
        ⟨ns, L1, rfl, hpre1, hfa, hrent⟩
      cases hrec : serialiseEnts ents (dictOf L1) todorest with
      | error er => simp only [hrec] at h; cases h
      | ok q2 =>
        obtain ⟨d2, rb⟩ := q2
        simp only [hrec] at h
        cases h
        rcases ih (fun x hx => hgood x (List.mem_cons.2 (Or.inr hx)))
          (List.nodup_cons.1 hnd).2 hrec with
          ⟨reads, L', rfl, hpre2, hfar, hread⟩
        refine ⟨(k, { binEnt e with
            bases := ns.map BaseRef.unresolved }) :: reads, L', rfl,
          hpre1.trans hpre2,
          List.Forall₂.cons ⟨rfl, ns, hfa, rfl⟩ hfar, ?_⟩
        intro inv hinv rest acc hacc
        simp only [List.append_assoc, List.length_cons]
        rw [readEnts]
        simp only [hrent inv (hpre2.trans hinv) (rb ++ rest)]
        have hkey : pyLower ({ binEnt e with
            bases := ns.map BaseRef.unresolved } : Ent).classname = k := by
          show pyLower e.classname = k
          exact (hgood (k, e) (List.mem_cons_self _ _)).2
        rw [hkey]
        have hset : dictInsert acc k { binEnt e with
            bases := ns.map BaseRef.unresolved } =
            acc ++ [(k, { binEnt e with
              bases := ns.map BaseRef.unresolved })] :=
          dictInsert_append (hacc (k, e) (List.mem_cons_self _ _))
        rw [hset]
        have hdisj : ∀ x ∈ todorest, x.1 ∉
            (acc ++ [(k, { binEnt e with
              bases := ns.map BaseRef.unresolved })]).map Prod.fst := by
          intro x hx
          rw [List.map_append]
          intro hmem
          rcases List.mem_append.1 hmem with hm | hm
          · exact hacc x (List.mem_cons.2 (Or.inr hx)) hm
          · simp only [List.map_cons, List.map_nil,
              List.mem_singleton] at hm
            exact (List.nodup_cons.1 hnd).1
              (hm ▸ List.mem_map.2 ⟨x, hx, rfl⟩)
        rw [hread inv hinv rest _ hdisj]
        rw [List.append_assoc]
        rfl

theorem readBytesN_exact :
    ∀ (bs rest : List Nat), readBytesN bs.length (bs ++ rest) =
      .ok (bs, rest)
  | [], rest => rfl
  | b :: bs, rest => by
    show readBytesN (bs.length + 1) (b :: (bs ++ rest)) = .ok (b :: bs, rest)
    rw [readBytesN]
    simp only [readBytesN_exact bs rest]

theorem decode_encode (s : String) : decodeStr (encodeStr s) = s := by
  rw [decodeStr, encodeStr, List.map_map]
  have : (Char.ofNat ∘ Char.toNat) = id := by
    funext c
    show Char.ofNat c.toNat = c
    exact Char.ofNat_toNat c
  rw [this, List.map_id]

theorem serialiseStrings_inv :
    ∀ {Lst : List String} {bytes : List Nat},
      serialiseStrings Lst = .ok bytes →
      ∀ rest, readDictStrings Lst.length (bytes ++ rest) =
        .ok (Lst, rest) := by
  intro Lst
  induction Lst with
  | nil =>
    intro bytes h rest
    rw [serialiseStrings] at h
    cases h
    rfl
  | cons s srest ih =>
    intro bytes h rest
    rw [serialiseStrings] at h
    cases hp : pack16 s.length with
    | error e => simp only [hp] at h; cases h
    | ok lb =>
      simp only [hp] at h
      rcases pack16_inv hp with ⟨rfl, hlen⟩
      cases hrec : serialiseStrings srest with
      | error e => simp only [hrec] at h; cases h
      | ok rb =>
        simp only [hrec] at h
        cases h
        simp only [List.append_assoc, List.cons_append,
          List.singleton_append, List.nil_append, List.length_cons]
        rw [readDictStrings]
        simp only [readU16C hlen]
        have henc : encodeStr s ++ (rb ++ rest) =
            encodeStr s ++ (rb ++ rest) := rfl
        have hlen2 : s.length = (encodeStr s).length := by
          rw [encodeStr, List.length_map]
          rfl
        rw [hlen2]
        simp only [readBytesN_exact (encodeStr s) (rb ++ rest)]
        simp only [ih hrec rest]
        rw [decode_encode]

theorem serialiseDict_inv {Lst : List String} {bytes : List Nat}
    (h : serialiseDict Lst = .ok bytes) :
    ∀ rest, readDict (bytes ++ rest) = .ok (Lst, rest) := by
  rw [serialiseDict] at h
  cases hp : pack32 Lst.length with
  | error e => simp only [hp] at h; cases h
  | ok hb =>
    simp only [hp] at h
    rcases pack32_inv hp with ⟨rfl, hlt⟩
    cases hs : serialiseStrings Lst with
    | error e => simp only [hs] at h; cases h
    | ok sb =>
      simp only [hs] at h
      cases h
      intro rest
      rw [readDict]
      simp only [List.append_assoc, List.cons_append,
        List.singleton_append, List.nil_append]
      simp only [readU32C hlt]
      exact serialiseStrings_inv hs rest

theorem mapM_ok_of_forall {α β : Type} {f : α → Except String β} :
    ∀ {xs : List α} {ys : List β},
      List.Forall₂ (fun x y => f x = .ok y) xs ys →
      xs.mapM f = .ok ys := by
  intro xs ys h
  induction h with
  | nil => rfl
  | cons hxy _ ih =>
    rw [List.mapM_cons, hxy, ih]
    rfl

theorem readrel_keys {ents : List (String × Ent)} :
    ∀ {todo reads : List (String × Ent)},
      List.Forall₂ (ReadRel ents) todo reads →
      reads.map Prod.fst = todo.map Prod.fst := by
  intro todo reads h
  induction h with
  | nil => rfl
  | cons hpq _ ih =>
    simp only [List.map_cons, ih, hpq.1]

theorem mkDictFrom_keys : ∀ (L : List String) (n : Nat),
    (mkDictFrom n L).map Prod.fst = L
  | [], _ => rfl
  | s :: rest, n => by
    rw [mkDictFrom, List.map_cons, mkDictFrom_keys rest (n + 1)]

theorem resolve_bases_list {ents reads : List (String × Ent)}
    (hkeys : ∀ p ∈ ents, pyLower (p.2 : Ent).classname = p.1)
    (hkeq : reads.map Prod.fst = ents.map Prod.fst) (cn : String) :
    ∀ {brs : List BaseRef} {ns : List String},
      List.Forall₂ (fun b n => ∃ k be, b = BaseRef.resolved k ∧
        List.lookup k ents = some be ∧ n = be.classname) brs ns →
      (ns.map BaseRef.unresolved).mapM (fun b =>
        match b with
        | .resolved k => pure (BaseRef.resolved k)
        | .unresolved s =>
          if (List.lookup (pyLower s) reads).isSome then
            pure (BaseRef.resolved (pyLower s))
          else
            (Except.error ("Unknown base (" ++ s ++ ") for " ++ cn) :
              Except String BaseRef)) = .ok brs := by
  intro brs ns h
  induction h with
  | nil => rfl
  | cons hbn _ ih =>
    obtain ⟨k, be, rfl, hlk, rfl⟩ := hbn
    have hmem : (k, be) ∈ ents := lookup_mem_generic hlk
    have hpl : pyLower be.classname = k := hkeys (k, be) hmem
    have hks : (List.lookup (pyLower be.classname) reads).isSome = true := by
      rw [hpl, lookup_isSome_iff_mem_keys, hkeq]
      exact List.mem_map.2 ⟨(k, be), hmem, rfl⟩
    rw [List.map_cons, List.mapM_cons]
    show ((if (List.lookup (pyLower be.classname) reads).isSome = true
        then pure (BaseRef.resolved (pyLower be.classname))
        else (Except.error _ : Except String BaseRef)) >>= fun y =>
          _ >>= fun ys => pure (y :: ys)) = _
    rw [if_pos hks, hpl]
    show (_ >>= fun ys => pure (BaseRef.resolved k :: ys) :
      Except String (List BaseRef)) = _
    rw [ih]
    rfl

theorem apply_bases_reads {ents reads : List (String × Ent)}
    {mn mx : Int}
    (hkeys : ∀ p ∈ ents, pyLower (p.2 : Ent).classname = p.1)
    (hfa : List.Forall₂ (ReadRel ents) ents reads) :
    apply_bases ⟨reads, mn, mx⟩ =
      .ok ⟨ents.map (fun p => (p.1, binEnt p.2)), mn, mx⟩ := by
  have hkeq : reads.map Prod.fst = ents.map Prod.fst := readrel_keys hfa
  have hgen : ∀ (todo rpart : List (String × Ent)),
      List.Forall₂ (ReadRel ents) todo rpart →
      List.Forall₂ (fun (q out : String × Ent) =>
        (do
          let new_bases ← (q.2 : Ent).bases.mapM (fun b =>
            match b with
            | .resolved k => pure (BaseRef.resolved k)
            | .unresolved s =>
              if (List.lookup (pyLower s) reads).isSome then
                pure (BaseRef.resolved (pyLower s))
              else
                Except.error ("Unknown base (" ++ s ++ ") for " ++
                  (q.2 : Ent).classname))
          pure (q.1, { q.2 with bases := new_bases }) :
            Except String (String × Ent)) = .ok out)
        rpart (todo.map (fun p => (p.1, binEnt p.2))) := by
    intro todo rpart h
    induction h with
    | nil => exact List.Forall₂.nil
    | @cons p q todo2 rpart2 hpq hrest ih =>
      refine List.Forall₂.cons ?_ ih
      obtain ⟨hq1, ns, hfab, hq2⟩ := hpq
      obtain ⟨q1, qe⟩ := q
      obtain ⟨p1, pe⟩ := p
      simp only at hq1 hq2
      subst hq1
      subst hq2
      show (do
        let new_bases ← (ns.map BaseRef.unresolved).mapM (fun b =>
          match b with
          | .resolved k => pure (BaseRef.resolved k)
          | .unresolved s =>
            if (List.lookup (pyLower s) reads).isSome then
              pure (BaseRef.resolved (pyLower s))
            else
              Except.error ("Unknown base (" ++ s ++ ") for " ++
                ({ binEnt pe with
                  bases := ns.map BaseRef.unresolved } : Ent).classname))
        pure (q1, { { binEnt pe with
          bases := ns.map BaseRef.unresolved } with
            bases := new_bases }) : Except String (String × Ent)) =
        .ok (q1, binEnt pe)
      rw [show ((ns.map BaseRef.unresolved).mapM (fun b =>
          match b with
          | .resolved k => pure (BaseRef.resolved k)
          | .unresolved s =>
            if (List.lookup (pyLower s) reads).isSome then
              pure (BaseRef.resolved (pyLower s))
            else
              Except.error ("Unknown base (" ++ s ++ ") for " ++
                ({ binEnt pe with
                  bases := ns.map BaseRef.unresolved } : Ent).classname)) :
          Except String (List BaseRef)) = .ok pe.bases from
        resolve_bases_list hkeys hkeq _ hfab]
      cases pe
      rfl
  have hmap2 := mapM_ok_of_forall (hgen ents reads hfa)
  have htrans : apply_bases ⟨reads, mn, mx⟩ =
      ((reads.mapM (fun (q : String × Ent) =>
        (do
          let new_bases ← (q.2 : Ent).bases.mapM (fun b =>
            match b with
            | .resolved k => pure (BaseRef.resolved k)
            | .unresolved s =>
              if (List.lookup (pyLower s) reads).isSome then
                pure (BaseRef.resolved (pyLower s))
              else
                Except.error ("Unknown base (" ++ s ++ ") for " ++
                  (q.2 : Ent).classname))
          pure (q.1, { q.2 with bases := new_bases }) :
            Except String (String × Ent)))) >>= fun entities' =>
        (pure ⟨entities', mn, mx⟩ : Except String FGD)) := rfl
  rw [htrans, hmap2]
  rfl

/-- A database whose binary image recovers it: unique keys, every
entity registered under its case-folded classname (so
`_fix_missing_bases` has nothing to rename), and every record in the
serialisable shape. -/
def DBSerialisable (db : FGD) : Prop :=
  (db.entities.map Prod.fst).Nodup ∧
  (∀ p ∈ db.entities, pyLower (p.2 : Ent).classname = p.1) ∧
  (∀ p ∈ db.entities, EntSerialisable (p.2 : Ent))

/-- C2 (amended): for a serialisable database whose bases are resolved
entries registered under their case-folded classnames, unserialising
the serialised bytes succeeds and returns exactly `binFGD db`: every
entity keeps classname, type and base set; every keyvalue keeps name,
type, value list, and default (except spawnflags, whose default is not
stored); every input and output keeps name and type; every description
is reset to the empty string; `kv_order` is not stored; and the
`readonly` flag comes back as the integer `0`/`128`, which compares
equal to the original under Python `==`. -/
theorem c2_binary_roundtrip (db : FGD) (bytes : List Nat)
    (hdb : DBSerialisable db)
    (hser : FGD.serialise db = .ok bytes) :
    FGD.unserialise bytes = .ok (binFGD db) ∧
    ∀ p ∈ db.entities, ∀ q ∈ (p.2 : Ent).keyvalues, ∀ r ∈ q.2,
      pyEq (binKV (r.2 : KeyValues)).readonly (r.2 : KeyValues).readonly =
        true := by
  obtain ⟨hnd, hkeys, hents⟩ := hdb
  constructor
  · rw [FGD.serialise] at hser
    cases hmn : packF64 db.map_size_min with
    | error e => simp only [hmn] at hser; cases hser
    | ok mnb =>
      simp only [hmn] at hser
      cases hmx : packF64 db.map_size_max with
      | error e => simp only [hmx] at hser; cases hser
      | ok mxb =>
        simp only [hmx] at hser
        cases hcb : pack32 db.entities.length with
        | error e => simp only [hcb] at hser; cases hser
        | ok cb =>
          simp only [hcb] at hser
          rcases pack32_inv hcb with ⟨rfl, hcnt⟩
          cases hse : serialiseEnts db.entities BinStrDict.empty
              db.entities with
          | error e => simp only [hse] at hser; cases hser
          | ok qe =>
            obtain ⟨dF, eb⟩ := qe
            simp only [hse] at hser
            have hse' : serialiseEnts db.entities (dictOf [])
                db.entities = .ok (dF, eb) := hse
            rcases serialiseEnts_inv
              (fun p hp => ⟨hents p hp, hkeys p hp⟩) hnd hse' with
              ⟨reads, LF, rfl, -, hfar, hreadents⟩
            cases hsd : serialiseDict
                ((dictOf LF).dict.map Prod.fst) with
            | error e => simp only [hsd] at hser; cases hser
            | ok db_bytes =>
              simp only [hsd] at hser
              cases hser
              rw [show (dictOf LF).dict.map Prod.fst = LF from
                mkDictFrom_keys LF 0] at hsd
              have h3 : ∀ X : List Nat,
                  readBytesN 3 (70 :: 71 :: 68 :: X) =
                    .ok ([70, 71, 68], X) := fun X => rfl
              have hre : readEnts LF db.entities.length [] eb =
                  .ok (reads, []) := by
                have h0 := hreadents LF (List.prefix_refl LF) [] []
                  (fun p _ hq => (List.not_mem_nil p.1) hq)
                rw [List.append_nil, List.nil_append] at h0
                exact h0
              rw [FGD.unserialise]
              simp only [List.append_assoc, List.cons_append,
                List.singleton_append, List.nil_append, h3,
                if_neg (show ¬([70, 71, 68] ≠ [70, 71, 68]) from
                  fun hc => hc rfl),
                readU8_cons, packF64_unpack hmn, packF64_unpack hmx,
                readU32C hcnt,
                if_neg (show ¬((2 : Nat) ≠ 2) from fun hc => hc rfl),
                serialiseDict_inv hsd, hre]
              rw [apply_bases_reads hkeys hfar]
              rfl
  · intro p hp q hq r hr
    have hkv := ((hents p hp).1.2 q hq).2.2 r hr
    rcases hkv.2.2.2 with hro | hro | hro <;>
      · have hb : (binKV (r.2 : KeyValues)).readonly =
            .pyInt (if pyTruthy (r.2 : KeyValues).readonly
              then 128 else 0) := rfl
        rw [hb, hro]
        decide

/-- A keyvalue exactly as `EntityDef.parse` builds spawnflags: 4-tuple
entries. -/
def c2BadKV : KeyValues :=
  ⟨"spawnflags", .SPAWNFLAGS, "spawnflags", "", "",
   some [.sf4 1 "One" true []], .pyBool false⟩

def c2BadEnt : Ent :=
  ⟨.POINT, "bad_ent", [("spawnflags", [([], c2BadKV)])], [], [],
   ["spawnflags"], [], ""⟩

def c2BadDB : FGD := ⟨[("bad_ent", c2BadEnt)], 0, 0⟩

/-- C2 counterexample: a database whose bases are all resolved (there
are none) but whose spawnflags keyvalue has the 4-tuple value list the
text parser builds; `FGD.serialise` raises instead of producing bytes,
so no round trip exists. -/
theorem c2_counterexample :
    FGD.serialise c2BadDB =
      .error "ValueError: too many values to unpack (expected 3)" := by
  rfl

def c2KVother : KeyValues :=
  ⟨"other", .STRING, "Other", "x", "odesc", none, .pyBool false⟩

def c2KVfield : KeyValues :=
  ⟨"field", .INT, "Field", "5", "fdesc", none, .pyInt 0⟩

def c2KVfield2 : KeyValues :=
  ⟨"field", .INT, "F2", "6", "", none, .pyBool false⟩

def c2KVsf : KeyValues :=
  ⟨"spawnflags", .SPAWNFLAGS, "spawnflags", "", "",
   some [.sf3 1 "One" true, .sf3 2 "Two" false], .pyBool false⟩

def c2KVch : KeyValues :=
  ⟨"mode", .CHOICES, "Mode", "0", "",
   some [.ch2 "0" "Zero", .ch2 "1" "Oneval"], .pyInt 128⟩

def c2IOin : IODef := ⟨"TurnOn", .VOID, "idesc"⟩

def c2IOout : IODef := ⟨"OnHit", .STRING, ""⟩

def c2Base : Ent :=
  ⟨.BASE, "Base1", [("other", [([], c2KVother)])], [], [], ["other"],
   [], "bdesc"⟩

def c2Main : Ent :=
  ⟨.POINT, "My_Ent",
   [("field", [(["TAG"], c2KVfield), ([], c2KVfield2)]),
    ("spawnflags", [([], c2KVsf)]),
    ("mode", [([], c2KVch)])],
   [("TurnOn", [([], c2IOin)])],
   [("OnHit", [([], c2IOout)])],
   ["field", "spawnflags", "mode"],
   [.resolved "base1"], "mdesc"⟩

def c2DB : FGD := ⟨[("base1", c2Base), ("my_ent", c2Main)], -16384, 16384⟩

def c2Bytes : List Nat :=
  match FGD.serialise c2DB with
  | .ok bs => bs
  | .error _ => []

theorem c2DB_ents : ∀ p ∈ c2DB.entities, EntSerialisable (p.2 : Ent) := by
  intro p hp
  rcases List.mem_cons.1 hp with rfl | hp
  · refine ⟨⟨by decide, ?_⟩, ⟨by decide, ?_⟩, ⟨by decide, ?_⟩⟩
    · intro q hq
      rcases List.mem_cons.1 hq with rfl | hq
      · refine ⟨by decide, by decide, ?_⟩
        intro r hr
        rcases List.mem_cons.1 hr with rfl | hr
        · exact ⟨by decide, rfl, ⟨rfl, Or.inl rfl⟩⟩
        · cases hr
      · cases hq
    · intro q hq; cases hq
    · intro q hq; cases hq
  · rcases List.mem_cons.1 hp with rfl | hp
    · refine ⟨⟨by decide, ?_⟩, ⟨by decide, ?_⟩, ⟨by decide, ?_⟩⟩
      · intro q hq
        rcases List.mem_cons.1 hq with rfl | hq
        · refine ⟨by decide, by decide, ?_⟩
          intro r hr
          rcases List.mem_cons.1 hr with rfl | hr
          · exact ⟨by decide, rfl, ⟨rfl, Or.inr (Or.inl rfl)⟩⟩
          · rcases List.mem_cons.1 hr with rfl | hr
            · exact ⟨by decide, rfl, ⟨rfl, Or.inl rfl⟩⟩
            · cases hr
        · rcases List.mem_cons.1 hq with rfl | hq
          · refine ⟨by decide, by decide, ?_⟩
            intro r hr
            rcases List.mem_cons.1 hr with rfl | hr
            · exact ⟨by decide, rfl,
                ⟨⟨[.sf3 1 "One" true, .sf3 2 "Two" false], rfl,
                  by decide⟩, Or.inl rfl⟩⟩
            · cases hr
          · rcases List.mem_cons.1 hq with rfl | hq
            · refine ⟨by decide, by decide, ?_⟩
              intro r hr
              rcases List.mem_cons.1 hr with rfl | hr
              · exact ⟨by decide, rfl,
                  ⟨⟨[.ch2 "0" "Zero", .ch2 "1" "Oneval"], rfl,
                    by decide⟩, Or.inr (Or.inr rfl)⟩⟩
              · cases hr
            · cases hq
      · intro q hq
        rcases List.mem_cons.1 hq with rfl | hq
        · refine ⟨by decide, by decide, ?_⟩
          intro r hr
          rcases List.mem_cons.1 hr with rfl | hr
          · exact ⟨by decide, rfl, trivial⟩
          · cases hr
        · cases hq
      · intro q hq
        rcases List.mem_cons.1 hq with rfl | hq
        · refine ⟨by decide, by decide, ?_⟩
          intro r hr
          rcases List.mem_cons.1 hr with rfl | hr
          · exact ⟨by decide, rfl, trivial⟩
          · cases hr
        · cases hq
    · cases hp

/-- Witness for `c2_binary_roundtrip` at a concrete database exercising
a base link, tags, spawnflags, choices, inputs and outputs. -/
theorem c2_binary_roundtrip_witness :
    FGD.unserialise c2Bytes = .ok (binFGD c2DB) ∧
    ∀ p ∈ c2DB.entities, ∀ q ∈ (p.2 : Ent).keyvalues, ∀ r ∈ q.2,
      pyEq (binKV (r.2 : KeyValues)).readonly (r.2 : KeyValues).readonly =
        true :=
  c2_binary_roundtrip c2DB c2Bytes
    ⟨by decide, by decide, c2DB_ents⟩ (by rfl)

end Fgd

